import Mathlib

/-!
Verification of the `xsort` sorting kernel (src/xsort.c, src/xsort.h).

The C code sorts a buffer of 64-bit elements with a caller-supplied
three-way comparator `cmp : (a, b, ctx) -> ptrdiff_t`.  The engine never
inspects element bits, so the embedding is parametric in the element type
`A` and models the comparator as a pure function `cmp : A -> A -> Int`
(the context argument is threaded unchanged in C and therefore folded
into `cmp` here).

Embedded components, each mirroring the corresponding C function:
  * `partition_array` (xsort.c lines 68-80),
  * `rotate`          (xsort.c lines 61-66), acting on the first
    `left + right` entries of a list,
  * `xchg` / `oddeven_sort_ctx` (xsort.c lines 83-132), on lists, with the
    comparator-invocation count returned alongside the result,
  * `parity_merge_ctx` (xsort.c lines 137-159), with the source array
    modelled as an index function and the destination reconstructed from
    the forward-written block and the backward-written block,
  * `xsort` (xsort.c lines 161-288): the explicit work stack with
    resumption addresses `ret_addr_0 .. ret_addr_4` realizes exactly the
    depth-first recursion "sort q1; sort q2; sort q3; sort q4; merge
    decision", which is embedded as a fuel-indexed structural recursion
    (`xsortFuel`); the fuel `l.length` strictly dominates the recursion
    depth, so the fuel never runs out on the lengths the engine produces.
-/

namespace XSort

/-- A consistent weak ordering, the comparator contract from the spec:
only the sign of the returned `Int` matters, an element ties with itself,
the order of the arguments flips the sign, and `cmp a b <= 0` is
transitive. -/
structure IsWeakOrder {A : Type} (cmp : A → A → Int) : Prop where
  refl : ∀ a, cmp a a = 0
  sign : ∀ a b, 0 < cmp a b ↔ cmp b a < 0
  le_trans : ∀ a b c, cmp a b ≤ 0 → cmp b c ≤ 0 → cmp a c ≤ 0

namespace IsWeakOrder

variable {A : Type} {cmp : A → A → Int}

theorem total (w : IsWeakOrder cmp) (a b : A) (h : ¬ cmp a b ≤ 0) : cmp b a ≤ 0 :=
  le_of_lt ((w.sign a b).mp (lt_of_not_le h))

theorem zero_symm (w : IsWeakOrder cmp) (a b : A) (h : cmp a b = 0) : cmp b a = 0 := by
  rcases lt_trichotomy (cmp b a) 0 with hl | he | hg
  · exact absurd ((w.sign a b).mpr hl) (by omega)
  · exact he
  · exact absurd ((w.sign b a).mp hg) (by omega)

theorem le_of_swap (w : IsWeakOrder cmp) (a b : A) (h : 0 < cmp a b) : cmp b a ≤ 0 :=
  le_of_lt ((w.sign a b).mp h)

theorem trans_le_lt (w : IsWeakOrder cmp) (a b c : A) (h1 : cmp a b ≤ 0) (h2 : cmp b c < 0) :
    cmp a c < 0 := by
  by_contra hc
  have hca : cmp c a ≤ 0 := by
    rcases lt_trichotomy (cmp a c) 0 with h | h | h
    · omega
    · have := w.zero_symm a c h
      omega
    · exact w.le_of_swap a c h
  have hcb : cmp c b ≤ 0 := w.le_trans c a b hca h1
  have : 0 < cmp c b := (w.sign c b).mpr h2
  omega

theorem trans_lt_le (w : IsWeakOrder cmp) (a b c : A) (h1 : cmp a b < 0) (h2 : cmp b c ≤ 0) :
    cmp a c < 0 := by
  by_contra hc
  have hca : cmp c a ≤ 0 := by
    rcases lt_trichotomy (cmp a c) 0 with h | h | h
    · omega
    · have := w.zero_symm a c h
      omega
    · exact w.le_of_swap a c h
  have hba : cmp b a ≤ 0 := w.le_trans b c a h2 hca
  have : 0 < cmp b a := (w.sign b a).mpr h1
  omega

end IsWeakOrder

/-- Segment descriptor, the `segment_t` struct from xsort.c. -/
structure segment_t where
  lh : Nat
  q1 : Nat
  q2 : Nat
  rh : Nat
  q3 : Nat
  q4 : Nat
deriving Repr, DecidableEq

/-- The partitioner `partition_array` from xsort.c: split a run of
`elements` entries into a left half of `elements / 2` entries and a right
half holding the rest, then split each half the same way into quarters. -/
def partition_array (elements : Nat) : segment_t :=
  let left := elements / 2
  let right := elements - left
  { lh := left
    q1 := left / 2
    q2 := left - left / 2
    rh := right
    q3 := right / 2
    q4 := right - right / 2 }

/-- The `rotate` helper from xsort.c acting on the first `left + right`
entries of a list: copy the first `left` entries aside, shift the next
`right` entries to the front, and append the saved block; entries past
`left + right` are untouched. -/
def rotate {A : Type} (l : List A) (left right : Nat) : List A :=
  (l.take (left + right)).drop left ++ (l.take (left + right)).take left
    ++ l.drop (left + right)

/-- Read entry `i` of a list, with an arbitrary default out of range; the
engine only reads in range, which the in-bounds theorems make precise. -/
def elemAt {A : Type} [Inhabited A] (l : List A) (i : Nat) : A :=
  l.getD i default

/-- View a list as the index function a C pointer provides. -/
def srcOf {A : Type} [Inhabited A] (l : List A) : Nat → A :=
  fun i => l.getD i default

/-- Forward merge front of `parity_merge_ctx` (xsort.c lines 146 and 153):
`k` steps, each comparing `src i_ptl` with `src i_ptr`, emitting the left
element on `cmp <= 0` (and advancing `i_ptl`), the right one otherwise
(advancing `i_ptr`).  Returns the emitted run (in destination order,
written at ascending destination slots) and the final cursor pair. -/
def fwdRun {A : Type} (cmp : A → A → Int) (src : Nat → A) :
    Nat → Nat → Nat → List A × Nat × Nat
  | 0, il, ir => ([], il, ir)
  | k + 1, il, ir =>
    if cmp (src il) (src ir) ≤ 0 then
      let r := fwdRun cmp src k (il + 1) ir
      (src il :: r.1, r.2)
    else
      let r := fwdRun cmp src k il (ir + 1)
      (src ir :: r.1, r.2)

/-- Backward merge front of `parity_merge_ctx` (xsort.c line 154):
`k` steps, each comparing `src i_tpl` with `src i_tpr`, emitting the left
element on `cmp > 0` (and retreating `i_tpl`), the right one otherwise
(retreating `i_tpr`).  The emitted run is in emission order; the code
writes it at descending destination slots starting from the last. -/
def bwdRun {A : Type} (cmp : A → A → Int) (src : Nat → A) :
    Nat → Nat → Nat → List A × Nat × Nat
  | 0, jl, jr => ([], jl, jr)
  | k + 1, jl, jr =>
    if 0 < cmp (src jl) (src jr) then
      let r := bwdRun cmp src k (jl - 1) jr
      (src jl :: r.1, r.2)
    else
      let r := bwdRun cmp src k jl (jr - 1)
      (src jr :: r.1, r.2)

/-- The parity merger `parity_merge_ctx` from xsort.c: the left run is
`src 0 .. src (left-1)`, the right run `src left .. src (left+right-1)`.
One forward head step runs when `left < right`; the main loop then takes
`left - 1` forward and `left - 1` backward steps; finally one backward
and one forward element are emitted without a cursor advance (modelled as
one more single-step run whose cursor result is dropped).  The forward
front fills destination slots `0, 1, ...` upward and the backward front
slots `left+right-1, ...` downward, so the destination is the forward
block followed by the reversed backward block; the two blocks tile the
destination exactly when `right` is `left` or `left + 1`, the only shapes
the engine produces.  Every comparator invocation in the C code emits
exactly one element, so the length of the result counts the comparator
invocations of one call. -/
def parity_merge_ctx {A : Type} (cmp : A → A → Int) (src : Nat → A)
    (left right : Nat) : List A :=
  let head := if left < right then fwdRun cmp src 1 0 left else ([], 0, left)
  let fwd := fwdRun cmp src (left - 1) head.2.1 head.2.2
  let bwd := bwdRun cmp src (left - 1) (left - 1) (left + right - 1)
  let lastB := (bwdRun cmp src 1 bwd.2.1 bwd.2.2).1
  let lastF := (fwdRun cmp src 1 fwd.2.1 fwd.2.2).1
  head.1 ++ fwd.1 ++ lastF ++ (bwd.1 ++ lastB).reverse

/-- Comparator invocations of one `parity_merge_ctx` call: one per
emitted element (see `parity_merge_ctx`). -/
def parity_merge_calls {A : Type} (cmp : A → A → Int) (src : Nat → A)
    (left right : Nat) : Nat :=
  (parity_merge_ctx cmp src left right).length

/-- The branchless compare-exchange `xchg_ctx` from xsort.c applied to
the adjacent pair at positions `i`, `i+1`: swap when the comparator is
positive, and report whether a swap happened.  (The C macro writes both
slots unconditionally; when no swap happens it rewrites the original
values, which is the identity modelled here.) -/
def xchg {A : Type} [Inhabited A] (cmp : A → A → Int) (l : List A) (i : Nat) :
    List A × Bool :=
  if 0 < cmp (elemAt l i) (elemAt l (i + 1)) then
    (((l.set i (elemAt l (i + 1))).set (i + 1) (elemAt l i)), true)
  else (l, false)

/-- One inner sweep of the default case of `oddeven_sort_ctx` (xsort.c
lines 105-110): compare-exchange at positions `p, p-2, p-4, ...` down to
position 0 or 1, accumulating the swap flag; the third component counts
the comparator invocations (one per position). -/
def sweepDown {A : Type} [Inhabited A] (cmp : A → A → Int) :
    List A → Nat → List A × Bool × Nat
  | l, 0 => let r := xchg cmp l 0
            (r.1, r.2, 1)
  | l, 1 => let r := xchg cmp l 1
            (r.1, r.2, 1)
  | l, p + 2 =>
    let r := xchg cmp l (p + 2)
    let s := sweepDown cmp r.1 p
    (s.1, r.2 || s.2.1, s.2.2 + 1)

/-- The outer do-while of the default case of `oddeven_sort_ctx` (xsort.c
lines 96-112).  `n0` is the run length the sweep window was derived from
(`elem = &seg[elements - 3]` is computed once); `fuel` is the live
`elements` counter, decremented per continued iteration; `itr` is the
carried swap flag (1 initially, so the loop condition only tests the
decremented counter after the first sweep); `z` alternates the sweep
parity, toggled before each sweep.  Returns the array and the comparator
invocation count. -/
def oddevenGo {A : Type} [Inhabited A] (cmp : A → A → Int) (n0 : Nat) :
    Nat → Bool → Bool → List A → List A × Nat
  | 0, _, z, l =>
    let r := sweepDown cmp l (n0 - 3 + (if !z then 1 else 0))
    (r.1, r.2.2)
  | 1, _, z, l =>
    let r := sweepDown cmp l (n0 - 3 + (if !z then 1 else 0))
    (r.1, r.2.2)
  | fuel + 2, itr, z, l =>
    let r := sweepDown cmp l (n0 - 3 + (if !z then 1 else 0))
    if itr || r.2.1 then
      let s := oddevenGo cmp n0 (fuel + 1) false (!z) r.1
      (s.1, r.2.2 + s.2)
    else (r.1, r.2.2)

/-- The base-case sorter `oddeven_sort_ctx` from xsort.c, with the
comparator invocation count: lengths 0 and 1 return unchanged; length 2
is one compare-exchange; length 3 compare-exchanges the first pair, then
the second, and redoes the first pair only when the second pair swapped;
length 4 and more runs the adaptive odd-even sweep loop. -/
def oddeven_sort_ctx {A : Type} [Inhabited A] (cmp : A → A → Int)
    (l : List A) : List A × Nat :=
  match l.length with
  | 0 => (l, 0)
  | 1 => (l, 0)
  | 2 =>
    let r := xchg cmp l 0
    (r.1, 1)
  | 3 =>
    let r1 := xchg cmp l 0
    let r2 := xchg cmp r1.1 1
    if r2.2 then
      let r3 := xchg cmp r2.1 0
      (r3.1, 3)
    else (r2.1, 2)
  | _ + 4 => oddevenGo cmp l.length l.length true true l

/-- Reference stable merge: the library left-biased merge driven by
`cmp <= 0`, used as the specification the parity merger is proved equal
to on the shapes the engine produces. -/
def smerge {A : Type} (cmp : A → A → Int) (u v : List A) : List A :=
  u.merge v (fun a b => decide (cmp a b ≤ 0))

/-- The already-ordered fast-path test of the merge decision phase
(xsort.c lines 263-265): the three boundary pairs between q1/q2, the two
halves, and q3/q4 are each ordered. -/
def orderedChecks {A : Type} [Inhabited A] (cmp : A → A → Int) (d : List A)
    (s : segment_t) : Bool :=
  decide (cmp (elemAt d (s.q1 - 1)) (elemAt d s.q1) ≤ 0) &&
  (decide (cmp (elemAt d (s.lh - 1)) (elemAt d s.lh) ≤ 0) &&
   decide (cmp (elemAt d (s.lh + s.q3 - 1)) (elemAt d (s.lh + s.q3)) ≤ 0))

/-- Comparator invocations the short-circuited already-ordered test
makes: 1 when its first comparison fails, 2 when the second fails, else 3
(both when the third fails and when all three pass). -/
def orderedCallCount {A : Type} [Inhabited A] (cmp : A → A → Int)
    (d : List A) (s : segment_t) : Nat :=
  if 0 < cmp (elemAt d (s.q1 - 1)) (elemAt d s.q1) then 1
  else if 0 < cmp (elemAt d (s.lh - 1)) (elemAt d s.lh) then 2
  else 3

/-- The fully-reversed fast-path test of the merge decision phase
(xsort.c lines 271-273), on a run of `n` entries. -/
def reversedChecks {A : Type} [Inhabited A] (cmp : A → A → Int) (n : Nat)
    (d : List A) (s : segment_t) : Bool :=
  decide (0 < cmp (elemAt d 0) (elemAt d (s.lh - 1))) &&
  (decide (0 < cmp (elemAt d s.q1) (elemAt d (s.lh + s.q3 - 1))) &&
   decide (0 < cmp (elemAt d s.lh) (elemAt d (n - 1))))

/-- Comparator invocations the short-circuited fully-reversed test makes:
1 when its first comparison fails, 2 when the second fails, else 3. -/
def reversedCallCount {A : Type} [Inhabited A] (cmp : A → A → Int)
    (d : List A) (s : segment_t) : Nat :=
  if cmp (elemAt d 0) (elemAt d (s.lh - 1)) ≤ 0 then 1
  else if cmp (elemAt d s.q1) (elemAt d (s.lh + s.q3 - 1)) ≤ 0 then 2
  else 3

/-- The rotation resolution of the fully-reversed fast path (xsort.c
lines 274-276): three `rotate` calls reassembling the four quarters in
reverse block order, with no comparator invocation. -/
def rotatedResult {A : Type} (d : List A) (s : segment_t) : List A :=
  rotate (rotate (rotate d s.q1 (s.q2 + s.rh)) s.q2 s.rh) s.q3 s.q4

/-- The general merge resolution (xsort.c lines 282-284): merge q1/q2
into the swap buffer, q3/q4 into the swap buffer after them, then merge
the two swap halves back. -/
def mergedResult {A : Type} [Inhabited A] (cmp : A → A → Int) (d : List A)
    (s : segment_t) : List A :=
  let s1 := parity_merge_ctx cmp (srcOf (d.take s.lh)) s.q1 s.q2
  let s2 := parity_merge_ctx cmp (srcOf (d.drop s.lh)) s.q3 s.q4
  parity_merge_ctx cmp (srcOf (s1 ++ s2)) s.lh s.rh

/-- Comparator invocations of the three merges of the general merge
resolution. -/
def mergedCalls {A : Type} [Inhabited A] (cmp : A → A → Int) (d : List A)
    (s : segment_t) : Nat :=
  let s1 := parity_merge_ctx cmp (srcOf (d.take s.lh)) s.q1 s.q2
  let s2 := parity_merge_ctx cmp (srcOf (d.drop s.lh)) s.q3 s.q4
  s1.length + s2.length +
    (parity_merge_ctx cmp (srcOf (s1 ++ s2)) s.lh s.rh).length

/-- Phase 5 of the work-stack engine (xsort.c lines 262-284), the merge
decision on a run of `n` entries whose four quarters are each sorted:
keep the run when the already-ordered test passes, rotate when the
fully-reversed test passes, merge otherwise. -/
def mergeDecision {A : Type} [Inhabited A] (cmp : A → A → Int) (n : Nat)
    (d : List A) (s : segment_t) : List A :=
  if orderedChecks cmp d s then d
  else if reversedChecks cmp n d s then rotatedResult d s
  else mergedResult cmp d s

/-- Which branch the merge decision takes: 0 already-ordered, 1 rotation,
2 general merge. -/
def mergeDecisionBranch {A : Type} [Inhabited A] (cmp : A → A → Int)
    (n : Nat) (d : List A) (s : segment_t) : Nat :=
  if orderedChecks cmp d s then 0
  else if reversedChecks cmp n d s then 1
  else 2

/-- Total comparator invocations of the merge decision phase, boundary
tests included. -/
def mergeDecisionCalls {A : Type} [Inhabited A] (cmp : A → A → Int)
    (n : Nat) (d : List A) (s : segment_t) : Nat :=
  if orderedChecks cmp d s then 3
  else orderedCallCount cmp d s +
    (if reversedChecks cmp n d s then 3
     else reversedCallCount cmp d s + mergedCalls cmp d s)

/-- Comparator invocations the merge decision phase spends inside parity
merges (zero on both fast paths). -/
def mergeDecisionMergeCalls {A : Type} [Inhabited A] (cmp : A → A → Int)
    (n : Nat) (d : List A) (s : segment_t) : Nat :=
  if orderedChecks cmp d s then 0
  else if reversedChecks cmp n d s then 0
  else mergedCalls cmp d s

/-- The work-stack engine of `xsort` (xsort.c lines 161-288) as the
depth-first recursion its frames and resumption addresses realize: a
frame for a run of at most 7 entries calls the base-case sorter
(ret_addr_0); otherwise the run is partitioned and frames for the four
quarters are scheduled depth-first (ret_addr_0..ret_addr_3), and when the
last returns the merge decision runs (ret_addr_4).  `fuel` bounds the
recursion depth; `fuel = length` more than suffices since every quarter
of a run of at least 8 entries is strictly shorter. -/
def xsortFuel {A : Type} [Inhabited A] (cmp : A → A → Int) :
    Nat → List A → List A
  | 0, l => l
  | fuel + 1, l =>
    if l.length ≤ 7 then (oddeven_sort_ctx cmp l).1
    else
      let s := partition_array l.length
      let d1 := xsortFuel cmp fuel (l.take s.q1)
      let d2 := xsortFuel cmp fuel ((l.drop s.q1).take s.q2)
      let d3 := xsortFuel cmp fuel ((l.drop s.lh).take s.q3)
      let d4 := xsortFuel cmp fuel ((l.drop (s.lh + s.q3)).take s.q4)
      mergeDecision cmp l.length (d1 ++ d2 ++ d3 ++ d4) s

/-- The public entry point `xsort` from xsort.c, on the list model of the
element buffer. -/
def xsort {A : Type} [Inhabited A] (cmp : A → A → Int) (l : List A) :
    List A :=
  xsortFuel cmp l.length l

/-- Total comparator invocations of `xsortFuel`, mirroring its control
flow. -/
def xsortCallsFuel {A : Type} [Inhabited A] (cmp : A → A → Int) :
    Nat → List A → Nat
  | 0, _ => 0
  | fuel + 1, l =>
    if l.length ≤ 7 then (oddeven_sort_ctx cmp l).2
    else
      let s := partition_array l.length
      let d1 := xsortFuel cmp fuel (l.take s.q1)
      let d2 := xsortFuel cmp fuel ((l.drop s.q1).take s.q2)
      let d3 := xsortFuel cmp fuel ((l.drop s.lh).take s.q3)
      let d4 := xsortFuel cmp fuel ((l.drop (s.lh + s.q3)).take s.q4)
      xsortCallsFuel cmp fuel (l.take s.q1) +
      xsortCallsFuel cmp fuel ((l.drop s.q1).take s.q2) +
      xsortCallsFuel cmp fuel ((l.drop s.lh).take s.q3) +
      xsortCallsFuel cmp fuel ((l.drop (s.lh + s.q3)).take s.q4) +
      mergeDecisionCalls cmp l.length (d1 ++ d2 ++ d3 ++ d4) s

/-- Total comparator invocations of one `xsort` call. -/
def xsortCalls {A : Type} [Inhabited A] (cmp : A → A → Int) (l : List A) :
    Nat :=
  xsortCallsFuel cmp l.length l

/-- The pure sweep sequence the odd-even loop applies when no early exit
fires: `k` sweeps with alternating parity, flags ignored. -/
def sweepSeq {A : Type} [Inhabited A] (cmp : A → A → Int) (n0 : Nat) :
    Nat → Bool → List A → List A
  | 0, _, l => l
  | k + 1, z, l =>
    sweepSeq cmp n0 k (!z) (sweepDown cmp l (n0 - 3 + (if !z then 1 else 0))).1

/-- Numeric ascending comparator on naturals, used for the concrete
scenarios. -/
def natCmp (a b : Nat) : Int := (a : Int) - (b : Int)

/-- The two-point comparator on booleans (false before true) used to
state the zero-one principle for the odd-even network. -/
def cmpB (a b : Bool) : Int := if a = b then 0 else if a then 1 else -1

/-- Lift a comparator on keys to key-tag pairs, comparing keys only; this
is the record-comparator shape the stability property quantifies over. -/
def liftCmp {A : Type} (cmp : A → A → Int) (x y : A × Nat) : Int :=
  cmp x.1 y.1

/-- An inconsistent (non-weak-order) comparator: numeric ascending except
that the ordered pairs (1,2), (0,3) and (1,3) compare as "after". -/
def c3cmp (a b : Nat) : Int :=
  if (a = 1 ∧ b = 2) ∨ (a = 0 ∧ b = 3) ∨ (a = 1 ∧ b = 3) then 1
  else natCmp a b

/-- Adjacent-pairs sortedness under a comparator: every adjacent pair of
the list compares at most 0, the ordering property of the spec. -/
def sortedLe {A : Type} (cmp : A → A → Int) (l : List A) : Prop :=
  List.Chain' (fun a b => cmp a b ≤ 0) l

/-- Strict adjacent descent under a comparator: every adjacent pair of
the list compares strictly positive. -/
def strictDesc {A : Type} (cmp : A → A → Int) (l : List A) : Prop :=
  List.Chain' (fun a b => 0 < cmp a b) l

/-- Executable adjacent-pairs sortedness check, used to transport
sortedness facts to and from decidable instances. -/
def chainLeB {A : Type} (cmp : A → A → Int) : List A → Bool
  | [] => true
  | [_] => true
  | a :: b :: t => decide (cmp a b ≤ 0) && chainLeB cmp (b :: t)

section Theorems

variable {A : Type}

theorem fwdRun_length (cmp : A → A → Int) (src : Nat → A) :
    ∀ (k il ir : Nat), (fwdRun cmp src k il ir).1.length = k := by
  intro k
  induction k with
  | zero => intro il ir; simp [fwdRun]
  | succ k ih =>
    intro il ir
    simp only [fwdRun]
    split
    · simp [ih]
    · simp [ih]

theorem bwdRun_length (cmp : A → A → Int) (src : Nat → A) :
    ∀ (k jl jr : Nat), (bwdRun cmp src k jl jr).1.length = k := by
  intro k
  induction k with
  | zero => intro jl jr; simp [bwdRun]
  | succ k ih =>
    intro jl jr
    simp only [bwdRun]
    split
    · simp [ih]
    · simp [ih]

theorem parity_merge_length (cmp : A → A → Int) (src : Nat → A)
    (left right : Nat) (h : 1 ≤ left) :
    (parity_merge_ctx cmp src left right).length =
      2 * left + (if left < right then 1 else 0) := by
  simp only [parity_merge_ctx]
  split <;>
    simp [fwdRun_length, bwdRun_length] <;> omega

theorem drop_eq_getD_cons [Inhabited A] {l : List A} {i : Nat}
    (h : i < l.length) : l.drop i = l.getD i default :: l.drop (i + 1) := by
  rw [List.getD_eq_getElem l default h]
  exact List.drop_eq_getElem_cons h

theorem take_succ_eq [Inhabited A] {l : List A} {i : Nat}
    (h : i < l.length) : l.take (i + 1) = l.take i ++ [l.getD i default] := by
  rw [List.getD_eq_getElem l default h, List.take_succ]
  simp [List.getElem?_eq_getElem h]

theorem getD_take [Inhabited A] {l : List A} {p i : Nat} (h : i < p) :
    (l.take p).getD i default = l.getD i default := by
  simp [List.getD_eq_getElem?_getD, List.getElem?_take, h]

theorem getD_drop [Inhabited A] {l : List A} {p j : Nat} :
    (l.drop p).getD j default = l.getD (p + j) default := by
  simp [List.getD_eq_getElem?_getD, List.getElem?_drop]

theorem sortedLe_head_le {cmp : A → A → Int} (w : IsWeakOrder cmp) :
    ∀ (m : List A) (a : A), sortedLe cmp (a :: m) → ∀ b ∈ m, cmp a b ≤ 0 := by
  intro m
  induction m with
  | nil => intro a _ b hb; cases hb
  | cons c m' ih =>
    intro a h b hb
    rw [sortedLe, List.chain'_cons] at h
    rcases List.mem_cons.mp hb with rfl | hb'
    · exact h.1
    · exact w.le_trans a c b h.1 (ih c h.2 b hb')

theorem sortedLe_le_last {cmp : A → A → Int} (w : IsWeakOrder cmp) :
    ∀ (m : List A) (x : A), sortedLe cmp (m ++ [x]) → ∀ b ∈ m, cmp b x ≤ 0 := by
  intro m
  induction m with
  | nil => intro x _ b hb; cases hb
  | cons c m' ih =>
    intro x h b hb
    rcases List.mem_cons.mp hb with rfl | hb'
    · exact sortedLe_head_le w (m' ++ [x]) b h x (by simp)
    · exact ih x ((List.cons_append c m' [x] ▸ h).tail) b hb'

theorem smerge_nil_left (cmp : A → A → Int) (v : List A) :
    smerge cmp [] v = v := by
  simp [smerge]

theorem smerge_nil_right (cmp : A → A → Int) (u : List A) :
    smerge cmp u [] = u := by
  simp [smerge]

theorem smerge_cons_cons (cmp : A → A → Int) (a b : A) (u v : List A) :
    smerge cmp (a :: u) (b :: v) =
      if cmp a b ≤ 0 then a :: smerge cmp u (b :: v)
      else b :: smerge cmp (a :: u) v := by
  simp only [smerge, List.cons_merge_cons]
  by_cases h : cmp a b ≤ 0 <;> simp [h]

theorem smerge_length (cmp : A → A → Int) (u v : List A) :
    (smerge cmp u v).length = u.length + v.length := by
  simp [smerge, List.length_merge]

theorem smerge_perm (cmp : A → A → Int) (u v : List A) :
    (smerge cmp u v).Perm (u ++ v) := by
  simpa [smerge] using List.merge_perm_append (fun a b => decide (cmp a b ≤ 0))

theorem smerge_all_le {cmp : A → A → Int} :
    ∀ (m : List A) (y : A), (∀ b ∈ m, cmp b y ≤ 0) →
      smerge cmp m [y] = m ++ [y] := by
  intro m
  induction m with
  | nil => intro y _; simp [smerge_nil_left]
  | cons c m' ih =>
    intro y h
    rw [smerge_cons_cons, if_pos (h c (by simp)), ih y (fun b hb => h b (by simp [hb]))]
    simp

theorem smerge_all_gt {cmp : A → A → Int} :
    ∀ (m : List A) (x : A), (∀ b ∈ m, ¬ cmp x b ≤ 0) →
      smerge cmp [x] m = m ++ [x] := by
  intro m
  induction m with
  | nil => intro x _; simp [smerge_nil_right]
  | cons c m' ih =>
    intro x h
    rw [smerge_cons_cons, if_neg (h c (by simp)), ih x (fun b hb => h b (by simp [hb]))]
    simp

theorem smerge_snoc_gt {cmp : A → A → Int} (w : IsWeakOrder cmp) :
    ∀ (n : Nat) (u v : List A) (x y : A), u.length + v.length ≤ n →
      sortedLe cmp (u ++ [x]) → sortedLe cmp (v ++ [y]) → 0 < cmp x y →
      smerge cmp (u ++ [x]) (v ++ [y]) = smerge cmp u (v ++ [y]) ++ [x] := by
  intro n
  induction n with
  | zero =>
    intro u v x y hn hu hv hxy
    obtain rfl : u = [] := by cases u <;> simp_all
    obtain rfl : v = [] := by cases v <;> simp_all
    rw [List.nil_append, List.nil_append, smerge_nil_left,
      smerge_cons_cons, if_neg (by omega), smerge_nil_right]
    rfl
  | succ n ih =>
    intro u v x y hn hu hv hxy
    match u, v with
    | [], v =>
      rw [List.nil_append, smerge_nil_left]
      apply smerge_all_gt
      intro b hb
      rcases List.mem_append.mp hb with hbv | hbx
      · have hby : cmp b y ≤ 0 := sortedLe_le_last w v y hv b hbv
        have h1 : cmp b x < 0 := w.trans_le_lt b y x hby ((w.sign x y).mp hxy)
        have h2 := (w.sign x b).mpr h1
        omega
      · have hbx' : b = y := by simpa using hbx
        subst hbx'
        omega
    | a :: u', [] =>
      simp only [List.cons_append, List.nil_append] at hu hv ⊢
      have hu' : sortedLe cmp (u' ++ [x]) := hu.tail
      have h := ih u' [] x y (by simp at hn ⊢; omega) hu' hv hxy
      simp only [List.cons_append, List.nil_append] at h
      rw [smerge_cons_cons]
      by_cases hay : cmp a y ≤ 0
      · rw [if_pos hay, h, smerge_cons_cons, if_pos hay]
        rfl
      · rw [if_neg hay, smerge_nil_right, smerge_cons_cons, if_neg hay,
          smerge_nil_right]
        rfl

    | a :: u', b :: v' =>
      simp only [List.cons_append, List.nil_append] at hu hv ⊢
      have hu' : sortedLe cmp (u' ++ [x]) := hu.tail
      have hv' : sortedLe cmp (v' ++ [y]) := hv.tail
      rw [smerge_cons_cons]
      by_cases hab : cmp a b ≤ 0
      · have h := ih u' (b :: v') x y (by simp at hn ⊢; omega) hu'
          (by simpa [List.cons_append] using hv) hxy
        simp only [List.cons_append, List.nil_append] at h
        rw [if_pos hab, h, smerge_cons_cons, if_pos hab]
        rfl
      · have h := ih (a :: u') v' x y (by simp at hn ⊢; omega)
          (by simpa [List.cons_append] using hu) hv' hxy
        simp only [List.cons_append, List.nil_append] at h
        rw [if_neg hab, h, smerge_cons_cons, if_neg hab]
        rfl

theorem smerge_snoc_le {cmp : A → A → Int} (w : IsWeakOrder cmp) :
    ∀ (n : Nat) (u v : List A) (x y : A), u.length + v.length ≤ n →
      sortedLe cmp (u ++ [x]) → sortedLe cmp (v ++ [y]) → cmp x y ≤ 0 →
      smerge cmp (u ++ [x]) (v ++ [y]) = smerge cmp (u ++ [x]) v ++ [y] := by
  intro n
  induction n with
  | zero =>
    intro u v x y hn hu hv hxy
    obtain rfl : u = [] := by cases u <;> simp_all
    obtain rfl : v = [] := by cases v <;> simp_all
    rw [List.nil_append, List.nil_append, smerge_nil_right,
      smerge_cons_cons, if_pos hxy, smerge_nil_left]
    rfl
  | succ n ih =>
    intro u v x y hn hu hv hxy
    match u, v with
    | u, [] =>
      rw [List.nil_append, smerge_nil_right]
      apply smerge_all_le
      intro b hb
      rcases List.mem_append.mp hb with hbu | hbx
      · exact w.le_trans b x y (sortedLe_le_last w u x hu b hbu) hxy
      · have hbx' : b = x := by simpa using hbx
        subst hbx'
        exact hxy
    | [], b :: v' =>
      simp only [List.cons_append, List.nil_append] at hu hv ⊢
      have hv' : sortedLe cmp (v' ++ [y]) := hv.tail
      rw [smerge_cons_cons, smerge_cons_cons]
      by_cases hxb : cmp x b ≤ 0
      · rw [if_pos hxb, if_pos hxb, smerge_nil_left, smerge_nil_left]
        rfl
      · have h := ih [] v' x y (by simp at hn ⊢; omega) hu hv' hxy
        simp only [List.cons_append, List.nil_append] at h
        rw [if_neg hxb, if_neg hxb, h]
        rfl
    | a :: u', b :: v' =>
      simp only [List.cons_append, List.nil_append] at hu hv ⊢
      have hu' : sortedLe cmp (u' ++ [x]) := hu.tail
      have hv' : sortedLe cmp (v' ++ [y]) := hv.tail
      rw [smerge_cons_cons]
      by_cases hab : cmp a b ≤ 0
      · have h := ih u' (b :: v') x y (by simp at hn ⊢; omega) hu'
          (by simpa [List.cons_append] using hv) hxy
        simp only [List.cons_append, List.nil_append] at h
        rw [if_pos hab, h, smerge_cons_cons, if_pos hab]
        rfl
      · have h := ih (a :: u') v' x y (by simp at hn ⊢; omega)
          (by simpa [List.cons_append] using hu) hv' hxy
        simp only [List.cons_append, List.nil_append] at h
        rw [if_neg hab, h, smerge_cons_cons, if_neg hab]
        rfl

theorem fwdRun_succ_pos {cmp : A → A → Int} {src : Nat → A} {k il ir : Nat}
    (h : cmp (src il) (src ir) ≤ 0) :
    fwdRun cmp src (k + 1) il ir =
      (src il :: (fwdRun cmp src k (il + 1) ir).1,
        (fwdRun cmp src k (il + 1) ir).2) := by
  simp [fwdRun, h]

theorem fwdRun_succ_neg {cmp : A → A → Int} {src : Nat → A} {k il ir : Nat}
    (h : ¬ cmp (src il) (src ir) ≤ 0) :
    fwdRun cmp src (k + 1) il ir =
      (src ir :: (fwdRun cmp src k il (ir + 1)).1,
        (fwdRun cmp src k il (ir + 1)).2) := by
  simp [fwdRun, h]

theorem bwdRun_succ_pos {cmp : A → A → Int} {src : Nat → A} {k jl jr : Nat}
    (h : 0 < cmp (src jl) (src jr)) :
    bwdRun cmp src (k + 1) jl jr =
      (src jl :: (bwdRun cmp src k (jl - 1) jr).1,
        (bwdRun cmp src k (jl - 1) jr).2) := by
  simp [bwdRun, h]

theorem bwdRun_succ_neg {cmp : A → A → Int} {src : Nat → A} {k jl jr : Nat}
    (h : ¬ 0 < cmp (src jl) (src jr)) :
    bwdRun cmp src (k + 1) jl jr =
      (src jr :: (bwdRun cmp src k jl (jr - 1)).1,
        (bwdRun cmp src k jl (jr - 1)).2) := by
  simp [bwdRun, h]

theorem fwdSim {cmp : A → A → Int} [Inhabited A]
    (u v : List A) (src : Nat → A) (e : Nat)
    (hsU : ∀ i, i < u.length → src i = u.getD i default)
    (hsV : ∀ j, j < v.length → src (u.length + j) = v.getD j default)
    (he : e ≤ 1) (hR : v.length = u.length + e) (hL : 1 ≤ u.length) :
    ∀ (k il ir : Nat), il ≤ u.length → u.length ≤ ir →
      il + (ir - u.length) + k ≤ u.length - 1 + e →
      smerge cmp (u.drop il) (v.drop (ir - u.length)) =
        (fwdRun cmp src k il ir).1 ++
          smerge cmp (u.drop (fwdRun cmp src k il ir).2.1)
            (v.drop ((fwdRun cmp src k il ir).2.2 - u.length)) ∧
      (fwdRun cmp src k il ir).2.1 ≤ u.length ∧
      u.length ≤ (fwdRun cmp src k il ir).2.2 ∧
      (fwdRun cmp src k il ir).2.1 +
          ((fwdRun cmp src k il ir).2.2 - u.length) =
        il + (ir - u.length) + k := by
  intro k
  induction k with
  | zero =>
    intro il ir h1 h2 h3
    simp only [fwdRun]
    exact ⟨by simp, h1, h2, rfl⟩
  | succ k ihk =>
    intro il ir h1 h2 h3
    have hil : il < u.length := by omega
    have hirR : ir - u.length < v.length := by omega
    have hsl : src il = u.getD il default := hsU il hil
    have hsr : src ir = v.getD (ir - u.length) default := by
      have h := hsV (ir - u.length) hirR
      rw [show u.length + (ir - u.length) = ir from by omega] at h
      exact h
    have hdu : u.drop il = u.getD il default :: u.drop (il + 1) :=
      drop_eq_getD_cons hil
    have hdv : v.drop (ir - u.length) =
        v.getD (ir - u.length) default :: v.drop (ir - u.length + 1) :=
      drop_eq_getD_cons hirR
    by_cases hc : cmp (src il) (src ir) ≤ 0
    · have hc' : cmp (u.getD il default) (v.getD (ir - u.length) default) ≤ 0 := by
        rwa [hsl, hsr] at hc
      obtain ⟨ih1, ih2, ih3, ih4⟩ := ihk (il + 1) ir (by omega) h2 (by omega)
      rw [fwdRun_succ_pos hc]
      dsimp only
      refine ⟨?_, ih2, ih3, by omega⟩
      rw [hdu, hdv, smerge_cons_cons, if_pos hc', ← hdv]
      rw [ih1, hsl]
      rfl
    · have hc' : ¬ cmp (u.getD il default) (v.getD (ir - u.length) default) ≤ 0 := by
        rwa [hsl, hsr] at hc
      obtain ⟨ih1, ih2, ih3, ih4⟩ := ihk il (ir + 1) (by omega) (by omega) (by omega)
      rw [fwdRun_succ_neg hc]
      dsimp only
      have hadj : ir + 1 - u.length = (ir - u.length) + 1 := by omega
      refine ⟨?_, ih2, ih3, by omega⟩
      rw [hdu, hdv, smerge_cons_cons, if_neg hc', ← hdu]
      rw [hadj] at ih1
      rw [ih1, hsr]
      rfl

theorem fwdFinal {cmp : A → A → Int} [Inhabited A] (w : IsWeakOrder cmp)
    (u v : List A) (src : Nat → A) (e : Nat)
    (hsU : ∀ i, i < u.length → src i = u.getD i default)
    (hsV : ∀ j, j < v.length → src (u.length + j) = v.getD j default)
    (he : e ≤ 1) (hR : v.length = u.length + e) (hL : 1 ≤ u.length)
    (il ir : Nat) (h1 : il ≤ u.length) (h2 : u.length ≤ ir)
    (h3 : il + (ir - u.length) = u.length - 1 + e) :
    ∃ rest, smerge cmp (u.drop il) (v.drop (ir - u.length)) =
      (fwdRun cmp src 1 il ir).1 ++ rest := by
  by_cases hil : il < u.length
  · have hirR : ir - u.length < v.length := by omega
    have hsl : src il = u.getD il default := hsU il hil
    have hsr : src ir = v.getD (ir - u.length) default := by
      have h := hsV (ir - u.length) hirR
      rw [show u.length + (ir - u.length) = ir from by omega] at h
      exact h
    have hdu : u.drop il = u.getD il default :: u.drop (il + 1) :=
      drop_eq_getD_cons hil
    have hdv : v.drop (ir - u.length) =
        v.getD (ir - u.length) default :: v.drop (ir - u.length + 1) :=
      drop_eq_getD_cons hirR
    by_cases hc : cmp (src il) (src ir) ≤ 0
    · refine ⟨smerge cmp (u.drop (il + 1)) (v.drop (ir - u.length)), ?_⟩
      rw [fwdRun_succ_pos hc]
      dsimp only
      rw [hdu, hdv, smerge_cons_cons, ← hdv,
        if_pos (by rwa [hsl, hsr] at hc), hsl]
      simp [fwdRun]
    · refine ⟨smerge cmp (u.drop il) (v.drop (ir - u.length + 1)), ?_⟩
      rw [fwdRun_succ_neg hc]
      dsimp only
      rw [hdu, hdv, smerge_cons_cons, ← hdu,
        if_neg (by rwa [hsl, hsr] at hc), hsr]
      simp [fwdRun]
  · have hil' : il = u.length := by omega
    have hee : e = 1 ∧ ir = u.length := by omega
    obtain ⟨he1, rfl⟩ := hee
    subst hil'
    have hv0 : 0 < v.length := by omega
    have hsr : src u.length = v.getD 0 default := by
      have h := hsV 0 hv0
      rw [Nat.add_zero] at h
      exact h
    have hc : cmp (src u.length) (src u.length) ≤ 0 := by
      have := w.refl (src u.length)
      omega
    have hv1 : v = v.getD 0 default :: v.drop 1 := by
      have h := @drop_eq_getD_cons A _ v 0 hv0
      simpa using h
    refine ⟨v.drop 1, ?_⟩
    rw [fwdRun_succ_pos hc]
    dsimp only
    rw [List.drop_length, smerge_nil_left, Nat.sub_self, List.drop_zero, hsr]
    simp only [fwdRun, List.nil_append, List.cons_append]
    exact hv1

theorem bwdSim {cmp : A → A → Int} [Inhabited A] (w : IsWeakOrder cmp)
    (u v : List A) (src : Nat → A)
    (hsU : ∀ i, i < u.length → src i = u.getD i default)
    (hsV : ∀ j, j < v.length → src (u.length + j) = v.getD j default)
    (hu : sortedLe cmp u) (hv : sortedLe cmp v)
    (hLR : u.length ≤ v.length) :
    ∀ (k jl jr : Nat), jl + 1 ≤ u.length → u.length ≤ jr →
      jr + 1 ≤ u.length + v.length →
      (u.length - 1 - jl) + (u.length + v.length - 1 - jr) + k ≤ u.length - 1 →
      smerge cmp (u.take (jl + 1)) (v.take (jr - u.length + 1)) =
        smerge cmp (u.take ((bwdRun cmp src k jl jr).2.1 + 1))
          (v.take ((bwdRun cmp src k jl jr).2.2 - u.length + 1)) ++
          (bwdRun cmp src k jl jr).1.reverse ∧
      (bwdRun cmp src k jl jr).2.1 + 1 ≤ u.length ∧
      u.length ≤ (bwdRun cmp src k jl jr).2.2 ∧
      (bwdRun cmp src k jl jr).2.2 + 1 ≤ u.length + v.length ∧
      (u.length - 1 - (bwdRun cmp src k jl jr).2.1) +
          (u.length + v.length - 1 - (bwdRun cmp src k jl jr).2.2) =
        (u.length - 1 - jl) + (u.length + v.length - 1 - jr) + k := by
  intro k
  induction k with
  | zero =>
    intro jl jr h1 h2 h3 h4
    simp only [bwdRun]
    exact ⟨by simp, h1, h2, h3, rfl⟩
  | succ k ihk =>
    intro jl jr h1 h2 h3 h4
    have hjl : 1 ≤ jl := by omega
    have hjr : u.length + 1 ≤ jr := by omega
    have hjlL : jl < u.length := by omega
    have hjrR : jr - u.length < v.length := by omega
    have hsl : src jl = u.getD jl default := hsU jl hjlL
    have hsr : src jr = v.getD (jr - u.length) default := by
      have h := hsV (jr - u.length) hjrR
      rw [show u.length + (jr - u.length) = jr from by omega] at h
      exact h
    have htu : u.take (jl + 1) = u.take jl ++ [u.getD jl default] :=
      take_succ_eq hjlL
    have htv : v.take (jr - u.length + 1) =
        v.take (jr - u.length) ++ [v.getD (jr - u.length) default] :=
      take_succ_eq hjrR
    have hsu : sortedLe cmp (u.take (jl + 1)) := hu.take (jl + 1)
    have hsv : sortedLe cmp (v.take (jr - u.length + 1)) :=
      hv.take (jr - u.length + 1)
    by_cases hc : 0 < cmp (src jl) (src jr)
    · have hc' : 0 < cmp (u.getD jl default) (v.getD (jr - u.length) default) := by
        rwa [hsl, hsr] at hc
      obtain ⟨ih1, ih2, ih3, ih4, ih5⟩ :=
        ihk (jl - 1) jr (by omega) h2 h3 (by omega)
      rw [bwdRun_succ_pos hc]
      dsimp only
      refine ⟨?_, ih2, ih3, ih4, by omega⟩
      rw [show jl - 1 + 1 = jl from by omega] at ih1
      rw [htu, htv, smerge_snoc_gt w (u.length + v.length) (u.take jl)
        (v.take (jr - u.length)) _ _ (by
          simp [List.length_take]
          omega) (htu ▸ hsu) (htv ▸ hsv) hc', ← htv, ih1, hsl]
      simp
    · have hc' : cmp (u.getD jl default) (v.getD (jr - u.length) default) ≤ 0 := by
        rw [hsl, hsr] at hc
        omega
      obtain ⟨ih1, ih2, ih3, ih4, ih5⟩ :=
        ihk jl (jr - 1) h1 (by omega) (by omega) (by omega)
      rw [bwdRun_succ_neg hc]
      dsimp only
      refine ⟨?_, ih2, ih3, ih4, by omega⟩
      rw [show jr - 1 - u.length + 1 = jr - u.length from by omega] at ih1
      rw [htu, htv, smerge_snoc_le w (u.length + v.length) (u.take jl)
        (v.take (jr - u.length)) _ _ (by
          simp [List.length_take]
          omega) (htu ▸ hsu) (htv ▸ hsv) hc', ← htu, ih1, hsr]
      simp

theorem bwdFinal {cmp : A → A → Int} [Inhabited A] (w : IsWeakOrder cmp)
    (u v : List A) (src : Nat → A)
    (hsU : ∀ i, i < u.length → src i = u.getD i default)
    (hsV : ∀ j, j < v.length → src (u.length + j) = v.getD j default)
    (hu : sortedLe cmp u) (hv : sortedLe cmp v)
    (jl jr : Nat) (h1 : jl + 1 ≤ u.length) (h2 : u.length ≤ jr)
    (h3 : jr + 1 ≤ u.length + v.length) :
    ∃ Q, smerge cmp (u.take (jl + 1)) (v.take (jr - u.length + 1)) =
      Q ++ (bwdRun cmp src 1 jl jr).1 := by
  have hjlL : jl < u.length := by omega
  have hjrR : jr - u.length < v.length := by omega
  have hsl : src jl = u.getD jl default := hsU jl hjlL
  have hsr : src jr = v.getD (jr - u.length) default := by
    have h := hsV (jr - u.length) hjrR
    rw [show u.length + (jr - u.length) = jr from by omega] at h
    exact h
  have htu : u.take (jl + 1) = u.take jl ++ [u.getD jl default] :=
    take_succ_eq hjlL
  have htv : v.take (jr - u.length + 1) =
      v.take (jr - u.length) ++ [v.getD (jr - u.length) default] :=
    take_succ_eq hjrR
  have hsu : sortedLe cmp (u.take (jl + 1)) := hu.take (jl + 1)
  have hsv : sortedLe cmp (v.take (jr - u.length + 1)) :=
    hv.take (jr - u.length + 1)
  by_cases hc : 0 < cmp (src jl) (src jr)
  · refine ⟨smerge cmp (u.take jl) (v.take (jr - u.length + 1)), ?_⟩
    rw [bwdRun_succ_pos hc]
    dsimp only
    rw [htu, htv, smerge_snoc_gt w (u.length + v.length) (u.take jl)
      (v.take (jr - u.length)) _ _ (by
        simp [List.length_take]
        omega) (htu ▸ hsu) (htv ▸ hsv) (by rwa [hsl, hsr] at hc), ← htv, hsl]
    simp [bwdRun]
  · refine ⟨smerge cmp (u.take (jl + 1)) (v.take (jr - u.length)), ?_⟩
    rw [bwdRun_succ_neg hc]
    dsimp only
    rw [htu, htv, smerge_snoc_le w (u.length + v.length) (u.take jl)
      (v.take (jr - u.length)) _ _ (by
        simp [List.length_take]
        omega) (htu ▸ hsu) (htv ▸ hsv) (by rw [hsl, hsr] at hc; omega),
      ← htu, hsr]
    simp [bwdRun]

theorem parityCore {cmp : A → A → Int} [Inhabited A] (w : IsWeakOrder cmp)
    (u v : List A) (src : Nat → A) (e : Nat)
    (hsU : ∀ i, i < u.length → src i = u.getD i default)
    (hsV : ∀ j, j < v.length → src (u.length + j) = v.getD j default)
    (hu : sortedLe cmp u) (hv : sortedLe cmp v)
    (he : e ≤ 1) (hR : v.length = u.length + e) (hL : 1 ≤ u.length)
    (E : List A) (a1 b1 : Nat)
    (hhead : smerge cmp u v =
      E ++ smerge cmp (u.drop a1) (v.drop (b1 - u.length)))
    (hE : E.length = e) (ha1 : a1 ≤ u.length) (hb1 : u.length ≤ b1)
    (hsum : a1 + (b1 - u.length) = e) :
    E ++ (fwdRun cmp src (u.length - 1) a1 b1).1 ++
      (fwdRun cmp src 1 (fwdRun cmp src (u.length - 1) a1 b1).2.1
        (fwdRun cmp src (u.length - 1) a1 b1).2.2).1 ++
      ((bwdRun cmp src (u.length - 1) (u.length - 1)
          (u.length + v.length - 1)).1 ++
        (bwdRun cmp src 1
          (bwdRun cmp src (u.length - 1) (u.length - 1)
            (u.length + v.length - 1)).2.1
          (bwdRun cmp src (u.length - 1) (u.length - 1)
            (u.length + v.length - 1)).2.2).1).reverse
      = smerge cmp u v := by
  obtain ⟨hB1, hB2, hB3, hB4⟩ :=
    fwdSim u v src e hsU hsV he hR hL (u.length - 1) a1 b1 ha1 hb1 (by omega)
  obtain ⟨rest, hC⟩ := fwdFinal w u v src e hsU hsV he hR hL
    (fwdRun cmp src (u.length - 1) a1 b1).2.1
    (fwdRun cmp src (u.length - 1) a1 b1).2.2 hB2 hB3 (by omega)
  have hFb : smerge cmp u v =
      (E ++ (fwdRun cmp src (u.length - 1) a1 b1).1 ++
        (fwdRun cmp src 1 (fwdRun cmp src (u.length - 1) a1 b1).2.1
          (fwdRun cmp src (u.length - 1) a1 b1).2.2).1) ++ rest := by
    rw [hhead, hB1, hC]
    simp [List.append_assoc]
  obtain ⟨hE1, hE2, hE3, hE4, hE5⟩ :=
    bwdSim w u v src hsU hsV hu hv (by omega)
      (u.length - 1) (u.length - 1) (u.length + v.length - 1)
      (by omega) (by omega) (by omega) (by omega)
  rw [show u.length - 1 + 1 = u.length from by omega, List.take_length,
    show u.length + v.length - 1 - u.length + 1 = v.length from by omega,
    List.take_length] at hE1
  obtain ⟨Q, hF⟩ := bwdFinal w u v src hsU hsV hu hv
    (bwdRun cmp src (u.length - 1) (u.length - 1)
      (u.length + v.length - 1)).2.1
    (bwdRun cmp src (u.length - 1) (u.length - 1)
      (u.length + v.length - 1)).2.2 hE2 hE3 hE4
  have hQ : smerge cmp u v = Q ++
      ((bwdRun cmp src 1
          (bwdRun cmp src (u.length - 1) (u.length - 1)
            (u.length + v.length - 1)).2.1
          (bwdRun cmp src (u.length - 1) (u.length - 1)
            (u.length + v.length - 1)).2.2).1 ++
        (bwdRun cmp src (u.length - 1) (u.length - 1)
          (u.length + v.length - 1)).1.reverse) := by
    rw [hE1, hF]
    simp [List.append_assoc]
  have hlenF : (E ++ (fwdRun cmp src (u.length - 1) a1 b1).1 ++
      (fwdRun cmp src 1 (fwdRun cmp src (u.length - 1) a1 b1).2.1
        (fwdRun cmp src (u.length - 1) a1 b1).2.2).1).length = v.length := by
    simp [hE, fwdRun_length]
    omega
  have hlenQ : Q.length = v.length := by
    have h1 := congrArg List.length hQ
    simp [smerge_length, bwdRun_length] at h1
    omega
  have hsplit := List.append_inj (hFb.symm.trans hQ) (by rw [hlenF, hlenQ])
  rw [List.reverse_append]
  obtain ⟨x, hx⟩ := List.length_eq_one.mp
    (bwdRun_length cmp src 1
      (bwdRun cmp src (u.length - 1) (u.length - 1)
        (u.length + v.length - 1)).2.1
      (bwdRun cmp src (u.length - 1) (u.length - 1)
        (u.length + v.length - 1)).2.2)
  rw [hQ, ← hsplit.1, hx]
  simp [List.append_assoc]

theorem parity_merge_eq_smerge {cmp : A → A → Int} [Inhabited A]
    (w : IsWeakOrder cmp) (u v : List A) (src : Nat → A)
    (hsU : ∀ i, i < u.length → src i = u.getD i default)
    (hsV : ∀ j, j < v.length → src (u.length + j) = v.getD j default)
    (hu : sortedLe cmp u) (hv : sortedLe cmp v) (hL : 1 ≤ u.length)
    (hshape : v.length = u.length ∨ v.length = u.length + 1) :
    parity_merge_ctx cmp src u.length v.length = smerge cmp u v := by
  by_cases hLR : u.length < v.length
  · have hR : v.length = u.length + 1 := by
      rcases hshape with h | h
      · omega
      · exact h
    obtain ⟨hh1, hh2, hh3, hh4⟩ :=
      fwdSim u v src 1 hsU hsV (by omega) hR hL 1 0 u.length
        (by omega) (by omega) (by omega)
    simp only [List.drop_zero, Nat.sub_self] at hh1
    have hgoal := parityCore w u v src 1 hsU hsV hu hv (by omega) hR hL
      (fwdRun cmp src 1 0 u.length).1 (fwdRun cmp src 1 0 u.length).2.1
      (fwdRun cmp src 1 0 u.length).2.2 hh1
      (fwdRun_length cmp src 1 0 u.length) hh2 hh3 (by omega)
    simp only [parity_merge_ctx]
    rw [if_pos hLR]
    exact hgoal
  · have hR : v.length = u.length + 0 := by
      rcases hshape with h | h
      · omega
      · omega
    have hgoal := parityCore w u v src 0 hsU hsV hu hv (by omega) hR hL
      [] 0 u.length (by simp) rfl (by omega) (by omega) (by omega)
    simp only [parity_merge_ctx]
    rw [if_neg hLR]
    dsimp only
    simpa using hgoal

theorem elemAt_set_self [Inhabited A] {l : List A} {i : Nat} {x : A}
    (h : i < l.length) : elemAt (l.set i x) i = x := by
  simp [elemAt, List.getD_eq_getElem?_getD, List.getElem?_set_self',
    List.getElem?_eq_getElem h]

theorem elemAt_set_ne [Inhabited A] {l : List A} {i j : Nat} {x : A}
    (h : i ≠ j) : elemAt (l.set i x) j = elemAt l j := by
  simp [elemAt, List.getD_eq_getElem?_getD, List.getElem?_set_ne h]

theorem set_elemAt_self [Inhabited A] {l : List A} {i : Nat}
    (h : i < l.length) : l.set i (elemAt l i) = l := by
  apply List.ext_getElem?
  intro j
  by_cases hij : i = j
  · subst hij
    simp [elemAt, List.getElem?_set_self', List.getD_eq_getElem l default h,
      List.getElem?_eq_getElem h]
  · simp [List.getElem?_set_ne hij]

theorem elemAt_map [Inhabited A] [Inhabited B] {l : List A} {f : A → B}
    {i : Nat} (h : i < l.length) :
    elemAt (l.map f) i = f (elemAt l i) := by
  rw [elemAt, elemAt, List.getD_eq_getElem l default h,
    List.getD_eq_getElem (l.map f) default (by simpa using h)]
  simp

theorem xchg_length [Inhabited A] (cmp : A → A → Int) (l : List A) (i : Nat) :
    (xchg cmp l i).1.length = l.length := by
  rw [xchg]
  split <;> simp

theorem xchg_cons_succ [Inhabited A] (cmp : A → A → Int) (c : A)
    (l' : List A) (i : Nat) :
    xchg cmp (c :: l') (i + 1) =
      (c :: (xchg cmp l' i).1, (xchg cmp l' i).2) := by
  rw [xchg, xchg]
  have e1 : elemAt (c :: l') (i + 1) = elemAt l' i := by
    simp [elemAt]
  have e2 : elemAt (c :: l') (i + 1 + 1) = elemAt l' (i + 1) := by
    simp [elemAt]
  rw [e1, e2]
  split
  · rfl
  · rfl

theorem xchg_zero_cons2 [Inhabited A] (cmp : A → A → Int) (a b : A)
    (t : List A) :
    xchg cmp (a :: b :: t) 0 =
      (if 0 < cmp a b then (b :: a :: t, true) else (a :: b :: t, false)) := by
  rw [xchg]
  have e1 : elemAt (a :: b :: t) 0 = a := rfl
  have e2 : elemAt (a :: b :: t) 1 = b := rfl
  rw [e1, e2]
  split
  · rfl
  · rfl

theorem xchg_perm [Inhabited A] (cmp : A → A → Int) :
    ∀ (i : Nat) (l : List A), i + 1 < l.length → (xchg cmp l i).1.Perm l := by
  intro i
  induction i with
  | zero =>
    intro l h
    match l with
    | a :: b :: t =>
      rw [xchg_zero_cons2]
      split
      · exact List.Perm.swap a b t
      · exact List.Perm.refl _
  | succ i ih =>
    intro l h
    match l with
    | c :: l' =>
      rw [xchg_cons_succ]
      exact (ih l' (by simpa using h)).cons c

theorem xchg_swap_eq [Inhabited A] {cmp : A → A → Int} {l : List A} {i : Nat}
    (h : 0 < cmp (elemAt l i) (elemAt l (i + 1))) :
    xchg cmp l i = ((l.set i (elemAt l (i + 1))).set (i + 1) (elemAt l i), true) := by
  rw [xchg, if_pos h]

theorem xchg_noswap_eq [Inhabited A] {cmp : A → A → Int} {l : List A} {i : Nat}
    (h : ¬ 0 < cmp (elemAt l i) (elemAt l (i + 1))) :
    xchg cmp l i = (l, false) := by
  rw [xchg, if_neg h]

theorem chainLeB_iff (cmp : A → A → Int) :
    ∀ (l : List A), chainLeB cmp l = true ↔ sortedLe cmp l
  | [] => by simp [chainLeB, sortedLe]
  | [a] => by simp [chainLeB, sortedLe]
  | a :: b :: t => by
    rw [sortedLe, List.chain'_cons, chainLeB]
    rw [Bool.and_eq_true, decide_eq_true_eq]
    exact and_congr Iff.rfl (chainLeB_iff cmp (b :: t))

theorem sortedLe_elemAt [Inhabited A] {cmp : A → A → Int} {l : List A}
    (h : sortedLe cmp l) {i : Nat} (hi : i + 1 < l.length) :
    cmp (elemAt l i) (elemAt l (i + 1)) ≤ 0 := by
  have hg := List.chain'_iff_get.mp h i (by omega)
  rw [elemAt, elemAt, List.getD_eq_getElem l default (by omega),
    List.getD_eq_getElem l default hi]
  simpa [List.get_eq_getElem] using hg

theorem sortedLe_of_elemAt [Inhabited A] {cmp : A → A → Int} {l : List A}
    (h : ∀ i, i + 1 < l.length → cmp (elemAt l i) (elemAt l (i + 1)) ≤ 0) :
    sortedLe cmp l := by
  rw [sortedLe, List.chain'_iff_get]
  intro i hi
  have h2 := h i (by omega)
  rw [elemAt, elemAt] at h2
  rw [List.getD_eq_getElem l default (show i < l.length by omega)] at h2
  rw [List.getD_eq_getElem l default (show i + 1 < l.length by omega)] at h2
  simpa [List.get_eq_getElem] using h2

theorem xchg_post [Inhabited A] {cmp : A → A → Int} (w : IsWeakOrder cmp) :
    ∀ (i : Nat) (l : List A), i + 1 < l.length →
      cmp (elemAt (xchg cmp l i).1 i) (elemAt (xchg cmp l i).1 (i + 1)) ≤ 0 := by
  intro i
  induction i with
  | zero =>
    intro l h
    match l with
    | a :: b :: t =>
      rw [xchg_zero_cons2]
      split
      · exact w.le_of_swap a b (by assumption)
      · have : ¬ 0 < cmp a b := by assumption
        simpa [elemAt] using this
  | succ i ih =>
    intro l h
    match l with
    | c :: l' =>
      rw [xchg_cons_succ]
      have e1 : elemAt (c :: (xchg cmp l' i).1) (i + 1) =
          elemAt (xchg cmp l' i).1 i := by simp [elemAt]
      have e2 : elemAt (c :: (xchg cmp l' i).1) (i + 1 + 1) =
          elemAt (xchg cmp l' i).1 (i + 1) := by simp [elemAt]
      rw [e1, e2]
      exact ih l' (by simpa using h)

theorem xchg_out [Inhabited A] (cmp : A → A → Int) (l : List A) (i j : Nat)
    (h1 : j ≠ i) (h2 : j ≠ i + 1) :
    elemAt (xchg cmp l i).1 j = elemAt l j := by
  rw [xchg]
  split
  · rw [elemAt_set_ne (fun h => h2 h.symm), elemAt_set_ne (fun h => h1 h.symm)]
  · rfl

theorem xchg_noswap [Inhabited A] {cmp : A → A → Int} {l : List A} {i : Nat}
    (h : (xchg cmp l i).2 = false) :
    (xchg cmp l i).1 = l ∧ cmp (elemAt l i) (elemAt l (i + 1)) ≤ 0 := by
  by_cases hc : 0 < cmp (elemAt l i) (elemAt l (i + 1))
  · rw [xchg_swap_eq hc] at h
    simp at h
  · rw [xchg_noswap_eq hc]
    exact ⟨rfl, by omega⟩

theorem xchg_id_sorted [Inhabited A] {cmp : A → A → Int} {l : List A}
    (hs : sortedLe cmp l) (i : Nat) (hi : i + 1 < l.length) :
    xchg cmp l i = (l, false) :=
  xchg_noswap_eq (by have := sortedLe_elemAt hs hi; omega)

theorem xchg_filter [Inhabited A] {cmp : A → A → Int}
    (p : A → Bool) (hp : ∀ x y, p x = true → p y = true → cmp x y = 0) :
    ∀ (i : Nat) (l : List A), i + 1 < l.length →
      (xchg cmp l i).1.filter p = l.filter p := by
  intro i
  induction i with
  | zero =>
    intro l h
    match l with
    | a :: b :: t =>
      rw [xchg_zero_cons2]
      split
      · have hnot : ¬ (p a = true ∧ p b = true) := by
          intro hab
          have := hp a b hab.1 hab.2
          omega
        rw [List.filter_cons, List.filter_cons, List.filter_cons,
          List.filter_cons]
        by_cases hpa : p a = true <;> by_cases hpb : p b = true <;>
          simp_all
      · rfl
  | succ i ih =>
    intro l h
    match l with
    | c :: l' =>
      rw [xchg_cons_succ]
      rw [List.filter_cons, List.filter_cons, ih l' (by simpa using h)]

theorem cmpB_eq_of_le {x y : Bool} (h1 : cmpB x y ≤ 0) (h2 : cmpB y x ≤ 0) :
    x = y := by
  cases x <;> cases y <;> simp_all [cmpB]

theorem xchg_map [Inhabited A] {cmp : A → A → Int} {f : A → Bool}
    (hm1 : ∀ x y, cmp x y ≤ 0 → cmpB (f x) (f y) ≤ 0)
    (hm2 : ∀ x y, 0 < cmp x y → cmpB (f y) (f x) ≤ 0) :
    ∀ (i : Nat) (l : List A), i + 1 < l.length →
      (xchg cmpB (l.map f) i).1 = ((xchg cmp l i).1).map f := by
  intro i
  induction i with
  | zero =>
    intro l h
    match l with
    | a :: b :: t =>
      rw [List.map_cons, List.map_cons, xchg_zero_cons2, xchg_zero_cons2]
      by_cases hab : 0 < cmp a b
      · rw [if_pos hab]
        by_cases hfab : 0 < cmpB (f a) (f b)
        · rw [if_pos hfab]
          simp
        · rw [if_neg hfab]
          have : f a = f b := cmpB_eq_of_le (by omega) (hm2 a b hab)
          simp [this]
      · rw [if_neg hab]
        have : ¬ 0 < cmpB (f a) (f b) := by
          have := hm1 a b (by omega)
          omega
        rw [if_neg this]
        simp
  | succ i ih =>
    intro l h
    match l with
    | c :: l' =>
      rw [List.map_cons, xchg_cons_succ, xchg_cons_succ, List.map_cons,
        ih l' (by simpa using h)]

theorem sweepDown_length [Inhabited A] (cmp : A → A → Int) :
    ∀ (p : Nat) (l : List A), (sweepDown cmp l p).1.length = l.length
  | 0, l => by simp [sweepDown, xchg_length]
  | 1, l => by simp [sweepDown, xchg_length]
  | p + 2, l => by
    simp [sweepDown, sweepDown_length cmp p, xchg_length]

theorem sweepDown_perm [Inhabited A] (cmp : A → A → Int) :
    ∀ (p : Nat) (l : List A), p + 1 < l.length →
      (sweepDown cmp l p).1.Perm l
  | 0, l, h => by
    simpa [sweepDown] using xchg_perm cmp 0 l h
  | 1, l, h => by
    simpa [sweepDown] using xchg_perm cmp 1 l h
  | p + 2, l, h => by
    simp only [sweepDown]
    exact (sweepDown_perm cmp p (xchg cmp l (p + 2)).1
      (by rw [xchg_length]; omega)).trans (xchg_perm cmp (p + 2) l h)

theorem sweepDown_out [Inhabited A] (cmp : A → A → Int) :
    ∀ (p : Nat) (l : List A) (j : Nat), p + 1 < j →
      elemAt (sweepDown cmp l p).1 j = elemAt l j
  | 0, l, j, h => by
    simpa [sweepDown] using xchg_out cmp l 0 j (by omega) (by omega)
  | 1, l, j, h => by
    simpa [sweepDown] using xchg_out cmp l 1 j (by omega) (by omega)
  | p + 2, l, j, h => by
    simp only [sweepDown]
    rw [sweepDown_out cmp p (xchg cmp l (p + 2)).1 j (by omega)]
    exact xchg_out cmp l (p + 2) j (by omega) (by omega)

theorem sweepDown_post [Inhabited A] {cmp : A → A → Int} (w : IsWeakOrder cmp) :
    ∀ (p : Nat) (l : List A), p + 1 < l.length →
      ∀ i, i ≤ p → i % 2 = p % 2 →
        cmp (elemAt (sweepDown cmp l p).1 i)
          (elemAt (sweepDown cmp l p).1 (i + 1)) ≤ 0
  | 0, l, h, i, hi, hp => by
    obtain rfl : i = 0 := by omega
    simpa [sweepDown] using xchg_post w 0 l h
  | 1, l, h, i, hi, hp => by
    obtain rfl : i = 1 := by omega
    simpa [sweepDown] using xchg_post w 1 l h
  | p + 2, l, h, i, hi, hp => by
    simp only [sweepDown]
    by_cases hip : i ≤ p
    · exact sweepDown_post w p (xchg cmp l (p + 2)).1
        (by rw [xchg_length]; omega) i hip (by omega)
    · obtain rfl : i = p + 2 := by omega
      rw [sweepDown_out cmp p _ (p + 2) (by omega),
        sweepDown_out cmp p _ (p + 2 + 1) (by omega)]
      exact xchg_post w (p + 2) l h

theorem sweepDown_noswap [Inhabited A] {cmp : A → A → Int} :
    ∀ (p : Nat) (l : List A), (sweepDown cmp l p).2.1 = false →
      (sweepDown cmp l p).1 = l ∧
      ∀ i, i ≤ p → i % 2 = p % 2 →
        cmp (elemAt l i) (elemAt l (i + 1)) ≤ 0
  | 0, l, h => by
    simp only [sweepDown] at h ⊢
    obtain ⟨h1, h2⟩ := xchg_noswap h
    refine ⟨h1, ?_⟩
    intro i hi hp
    obtain rfl : i = 0 := by omega
    exact h2
  | 1, l, h => by
    simp only [sweepDown] at h ⊢
    obtain ⟨h1, h2⟩ := xchg_noswap h
    refine ⟨h1, ?_⟩
    intro i hi hp
    obtain rfl : i = 1 := by omega
    exact h2
  | p + 2, l, h => by
    simp only [sweepDown, Bool.or_eq_false_iff] at h ⊢
    obtain ⟨hx, hs⟩ := h
    obtain ⟨hx1, hx2⟩ := xchg_noswap hx
    obtain ⟨hs1, hs2⟩ := sweepDown_noswap p (xchg cmp l (p + 2)).1 hs
    rw [hx1] at hs2
    refine ⟨hs1.trans hx1, ?_⟩
    intro i hi hp
    by_cases hip : i ≤ p
    · exact hs2 i hip (by omega)
    · obtain rfl : i = p + 2 := by omega
      exact hx2

theorem sweepDown_id_sorted [Inhabited A] {cmp : A → A → Int} {l : List A}
    (hs : sortedLe cmp l) :
    ∀ (p : Nat), p + 1 < l.length →
      (sweepDown cmp l p).1 = l ∧ (sweepDown cmp l p).2.1 = false
  | 0, h => by
    simp [sweepDown, xchg_id_sorted hs 0 h]
  | 1, h => by
    simp [sweepDown, xchg_id_sorted hs 1 h]
  | p + 2, h => by
    simp only [sweepDown, xchg_id_sorted hs (p + 2) h]
    obtain ⟨h1, h2⟩ := sweepDown_id_sorted hs p (by omega)
    simp [h1, h2]

theorem sweepDown_filter [Inhabited A] {cmp : A → A → Int}
    (p : A → Bool) (hp : ∀ x y, p x = true → p y = true → cmp x y = 0) :
    ∀ (q : Nat) (l : List A), q + 1 < l.length →
      (sweepDown cmp l q).1.filter p = l.filter p
  | 0, l, h => by
    simpa [sweepDown] using xchg_filter p hp 0 l h
  | 1, l, h => by
    simpa [sweepDown] using xchg_filter p hp 1 l h
  | q + 2, l, h => by
    simp only [sweepDown]
    rw [sweepDown_filter p hp q (xchg cmp l (q + 2)).1
      (by rw [xchg_length]; omega)]
    exact xchg_filter p hp (q + 2) l h

theorem sweepDown_map [Inhabited A] {cmp : A → A → Int} {f : A → Bool}
    (hm1 : ∀ x y, cmp x y ≤ 0 → cmpB (f x) (f y) ≤ 0)
    (hm2 : ∀ x y, 0 < cmp x y → cmpB (f y) (f x) ≤ 0) :
    ∀ (q : Nat) (l : List A), q + 1 < l.length →
      (sweepDown cmpB (l.map f) q).1 = ((sweepDown cmp l q).1).map f
  | 0, l, h => by
    simpa [sweepDown] using xchg_map hm1 hm2 0 l h
  | 1, l, h => by
    simpa [sweepDown] using xchg_map hm1 hm2 1 l h
  | q + 2, l, h => by
    simp only [sweepDown]
    rw [xchg_map hm1 hm2 (q + 2) l h]
    exact sweepDown_map hm1 hm2 q (xchg cmp l (q + 2)).1
      (by rw [xchg_length]; omega)

theorem sweepSeq_length [Inhabited A] (cmp : A → A → Int) (n0 : Nat) :
    ∀ (k : Nat) (z : Bool) (l : List A),
      (sweepSeq cmp n0 k z l).length = l.length
  | 0, _, l => rfl
  | k + 1, z, l => by
    rw [sweepSeq, sweepSeq_length cmp n0 k, sweepDown_length]

theorem sweepSeq_map [Inhabited A] {cmp : A → A → Int} {f : A → Bool}
    (hm1 : ∀ x y, cmp x y ≤ 0 → cmpB (f x) (f y) ≤ 0)
    (hm2 : ∀ x y, 0 < cmp x y → cmpB (f y) (f x) ≤ 0)
    (n0 : Nat) (h3 : 3 ≤ n0) :
    ∀ (k : Nat) (z : Bool) (l : List A), l.length = n0 →
      sweepSeq cmpB n0 k z (l.map f) = (sweepSeq cmp n0 k z l).map f
  | 0, _, l, _ => rfl
  | k + 1, z, l, hl => by
    have hoff : (if (!z) = true then 1 else 0 : Nat) ≤ 1 := by
      cases z <;> simp
    rw [sweepSeq, sweepSeq,
      sweepDown_map hm1 hm2 (n0 - 3 + if !z then 1 else 0) l (by omega)]
    exact sweepSeq_map hm1 hm2 n0 h3 k (!z)
      (sweepDown cmp l (n0 - 3 + if !z then 1 else 0)).1
      (by rw [sweepDown_length]; exact hl)

theorem ite_off_le_one (z : Bool) : (if z = true then 1 else 0 : Nat) ≤ 1 := by
  cases z <;> simp

set_option maxRecDepth 8192

theorem bool_net_four :
    ∀ a b c d : Bool,
      chainLeB cmpB (sweepSeq cmpB 4 4 true [a, b, c, d]) = true := by
  decide

theorem bool_net_five :
    ∀ a b c d e : Bool,
      chainLeB cmpB (sweepSeq cmpB 5 5 true [a, b, c, d, e]) = true := by
  decide

theorem bool_net_six :
    ∀ a b c d e f : Bool,
      chainLeB cmpB (sweepSeq cmpB 6 6 true [a, b, c, d, e, f]) = true := by
  decide

theorem bool_net_seven :
    ∀ a b c d e f g : Bool,
      chainLeB cmpB (sweepSeq cmpB 7 7 true [a, b, c, d, e, f, g]) = true := by
  decide

theorem bool_net_all :
    ∀ (bl : List Bool), 4 ≤ bl.length → bl.length ≤ 7 →
      chainLeB cmpB (sweepSeq cmpB bl.length bl.length true bl) = true := by
  intro bl h4 h7
  match bl with
  | [a, b, c, d] => exact bool_net_four a b c d
  | [a, b, c, d, e] => exact bool_net_five a b c d e
  | [a, b, c, d, e, f] => exact bool_net_six a b c d e f
  | [a, b, c, d, e, f, g] => exact bool_net_seven a b c d e f g
  | [] => simp at h4
  | [_] => simp at h4
  | [_, _] => simp at h4
  | [_, _, _] => simp at h4
  | _ :: _ :: _ :: _ :: _ :: _ :: _ :: _ :: _ => simp at h7

theorem sweepSeq_net_sorted [Inhabited A] {cmp : A → A → Int}
    (w : IsWeakOrder cmp) (l : List A) (h4 : 4 ≤ l.length)
    (h7 : l.length ≤ 7) :
    sortedLe cmp (sweepSeq cmp l.length l.length true l) := by
  apply sortedLe_of_elemAt
  intro i hi
  by_contra hc
  set m := sweepSeq cmp l.length l.length true l with hm
  set t := elemAt m i with ht
  set f : A → Bool := fun x => decide (cmp t x ≤ 0) with hf
  have hm1 : ∀ x y, cmp x y ≤ 0 → cmpB (f x) (f y) ≤ 0 := by
    intro x y hxy
    rw [hf]
    by_cases hx : cmp t x ≤ 0
    · have hy : cmp t y ≤ 0 := w.le_trans t x y hx hxy
      simp [hx, hy, cmpB]
    · simp only [decide_eq_true_eq]
      rw [decide_eq_false hx]
      cases hdy : decide (cmp t y ≤ 0) <;> simp [cmpB]
  have hm2 : ∀ x y, 0 < cmp x y → cmpB (f y) (f x) ≤ 0 := by
    intro x y hxy
    have hyx : cmp y x ≤ 0 := w.le_of_swap x y hxy
    exact hm1 y x hyx
  have hmap := sweepSeq_map hm1 hm2 l.length (by omega) l.length true l rfl
  have hblen : (l.map f).length = l.length := by simp
  have hnet := bool_net_all (l.map f) (by omega) (by omega)
  rw [hblen, hmap] at hnet
  have hsortedB := (chainLeB_iff cmpB ((sweepSeq cmp l.length l.length true l).map f)).mp hnet
  have hmlen : m.length = l.length := sweepSeq_length cmp l.length l.length true l
  have hpair := @sortedLe_elemAt Bool _ cmpB (m.map f) hsortedB i
    (by rw [List.length_map]; rw [hmlen] at hi ⊢; omega)
  rw [elemAt_map (by rw [hmlen] at hi ⊢; omega),
    elemAt_map (by rw [hmlen] at hi ⊢; omega)] at hpair
  have hft : f t = true := by
    rw [hf]
    simp only [decide_eq_true_eq]
    have := w.refl t
    omega
  have hfn : f (elemAt m (i + 1)) = false := by
    rw [hf]
    simp only []
    exact decide_eq_false hc
  rw [← ht, hft, hfn] at hpair
  simp [cmpB] at hpair

theorem oddevenGo_length [Inhabited A] (cmp : A → A → Int) (n0 : Nat) :
    ∀ (fuel : Nat) (itr z : Bool) (l : List A),
      (oddevenGo cmp n0 fuel itr z l).1.length = l.length
  | 0, itr, z, l => by
    simp only [oddevenGo]
    rw [sweepDown_length]
  | 1, itr, z, l => by
    simp only [oddevenGo]
    rw [sweepDown_length]
  | fuel + 2, itr, z, l => by
    simp only [oddevenGo]
    by_cases hcont :
        (itr || (sweepDown cmp l (n0 - 3 + if (!z) = true then 1 else 0)).2.1) = true
    · rw [if_pos hcont]
      dsimp only
      rw [oddevenGo_length cmp n0 (fuel + 1), sweepDown_length]
    · rw [if_neg hcont]
      dsimp only
      rw [sweepDown_length]

theorem oddevenGo_perm [Inhabited A] (cmp : A → A → Int) (n0 : Nat)
    (h3 : 3 ≤ n0) :
    ∀ (fuel : Nat) (itr z : Bool) (l : List A), l.length = n0 →
      (oddevenGo cmp n0 fuel itr z l).1.Perm l
  | 0, itr, z, l, hl => by
    simp only [oddevenGo]
    refine sweepDown_perm cmp (n0 - 3 + if (!z) = true then 1 else 0) l ?_
    have := ite_off_le_one (!z)
    omega
  | 1, itr, z, l, hl => by
    simp only [oddevenGo]
    refine sweepDown_perm cmp (n0 - 3 + if (!z) = true then 1 else 0) l ?_
    have := ite_off_le_one (!z)
    omega
  | fuel + 2, itr, z, l, hl => by
    have hpl : (n0 - 3 + if (!z) = true then 1 else 0) + 1 < l.length := by
      have := ite_off_le_one (!z)
      omega
    simp only [oddevenGo]
    by_cases hcont :
        (itr || (sweepDown cmp l (n0 - 3 + if (!z) = true then 1 else 0)).2.1) = true
    · rw [if_pos hcont]
      dsimp only
      exact (oddevenGo_perm cmp n0 h3 (fuel + 1) false (!z)
        (sweepDown cmp l (n0 - 3 + if (!z) = true then 1 else 0)).1
        (by rw [sweepDown_length]; exact hl)).trans
        (sweepDown_perm cmp (n0 - 3 + if (!z) = true then 1 else 0) l hpl)
    · rw [if_neg hcont]
      dsimp only
      exact sweepDown_perm cmp (n0 - 3 + if (!z) = true then 1 else 0) l hpl

theorem oddevenGo_filter [Inhabited A] {cmp : A → A → Int}
    (p : A → Bool) (hp : ∀ x y, p x = true → p y = true → cmp x y = 0)
    (n0 : Nat) (h3 : 3 ≤ n0) :
    ∀ (fuel : Nat) (itr z : Bool) (l : List A), l.length = n0 →
      (oddevenGo cmp n0 fuel itr z l).1.filter p = l.filter p
  | 0, itr, z, l, hl => by
    simp only [oddevenGo]
    refine sweepDown_filter p hp (n0 - 3 + if (!z) = true then 1 else 0) l ?_
    have := ite_off_le_one (!z)
    omega
  | 1, itr, z, l, hl => by
    simp only [oddevenGo]
    refine sweepDown_filter p hp (n0 - 3 + if (!z) = true then 1 else 0) l ?_
    have := ite_off_le_one (!z)
    omega
  | fuel + 2, itr, z, l, hl => by
    have hpl : (n0 - 3 + if (!z) = true then 1 else 0) + 1 < l.length := by
      have := ite_off_le_one (!z)
      omega
    simp only [oddevenGo]
    by_cases hcont :
        (itr || (sweepDown cmp l (n0 - 3 + if (!z) = true then 1 else 0)).2.1) = true
    · rw [if_pos hcont]
      dsimp only
      rw [oddevenGo_filter p hp n0 h3 (fuel + 1) false (!z)
        (sweepDown cmp l (n0 - 3 + if (!z) = true then 1 else 0)).1
        (by rw [sweepDown_length]; exact hl)]
      exact sweepDown_filter p hp (n0 - 3 + if (!z) = true then 1 else 0) l hpl
    · rw [if_neg hcont]
      dsimp only
      exact sweepDown_filter p hp (n0 - 3 + if (!z) = true then 1 else 0) l hpl

theorem oddevenGo_id_sorted [Inhabited A] {cmp : A → A → Int} {l : List A}
    (hs : sortedLe cmp l) (n0 : Nat) (h3 : 3 ≤ n0) (hl : l.length = n0) :
    ∀ (fuel : Nat) (itr z : Bool), (oddevenGo cmp n0 fuel itr z l).1 = l
  | 0, itr, z => by
    simp only [oddevenGo]
    exact (sweepDown_id_sorted hs (n0 - 3 + if (!z) = true then 1 else 0)
      (by have := ite_off_le_one (!z); omega)).1
  | 1, itr, z => by
    simp only [oddevenGo]
    exact (sweepDown_id_sorted hs (n0 - 3 + if (!z) = true then 1 else 0)
      (by have := ite_off_le_one (!z); omega)).1
  | fuel + 2, itr, z => by
    simp only [oddevenGo]
    obtain ⟨h1, h2⟩ := sweepDown_id_sorted hs
      (n0 - 3 + if (!z) = true then 1 else 0)
      (by have := ite_off_le_one (!z); omega)
    rw [h1, h2, Bool.or_false]
    cases itr
    · rw [if_neg (by simp)]
    · rw [if_pos rfl]
      dsimp only
      exact oddevenGo_id_sorted hs n0 h3 hl (fuel + 1) false (!z)

theorem oddevenGo_sorted_or_net [Inhabited A] {cmp : A → A → Int}
    (w : IsWeakOrder cmp) (n0 : Nat) (h3 : 3 ≤ n0) :
    ∀ (fuel : Nat) (itr z : Bool) (l : List A), 1 ≤ fuel → l.length = n0 →
      (itr = false → ∀ i, i ≤ n0 - 3 + (if z = true then 1 else 0) →
        i % 2 = (n0 - 3 + (if z = true then 1 else 0)) % 2 →
        cmp (elemAt l i) (elemAt l (i + 1)) ≤ 0) →
      sortedLe cmp (oddevenGo cmp n0 fuel itr z l).1 ∨
        (oddevenGo cmp n0 fuel itr z l).1 = sweepSeq cmp n0 fuel z l
  | 0, itr, z, l, hf, hl, hprev => absurd hf (by omega)
  | 1, itr, z, l, hf, hl, hprev => by
    right
    simp only [oddevenGo, sweepSeq]
  | fuel + 2, itr, z, l, hf, hl, hprev => by
    have hpl : (n0 - 3 + if (!z) = true then 1 else 0) + 1 < l.length := by
      have := ite_off_le_one (!z)
      omega
    simp only [oddevenGo]
    by_cases hcont :
        (itr || (sweepDown cmp l (n0 - 3 + if (!z) = true then 1 else 0)).2.1) = true
    · rw [if_pos hcont]
      dsimp only
      have hrec := oddevenGo_sorted_or_net w n0 h3 (fuel + 1) false (!z)
        (sweepDown cmp l (n0 - 3 + if (!z) = true then 1 else 0)).1
        (by omega) (by rw [sweepDown_length]; exact hl)
        (fun _ i hi hpar =>
          sweepDown_post w (n0 - 3 + if (!z) = true then 1 else 0) l hpl i hi hpar)
      rcases hrec with hsorted | hnet
      · exact Or.inl hsorted
      · right
        rw [hnet]
        conv_rhs => rw [sweepSeq]
    · rw [if_neg hcont]
      dsimp only
      left
      have hitr : itr = false ∧
          (sweepDown cmp l (n0 - 3 + if (!z) = true then 1 else 0)).2.1 = false := by
        cases itr <;>
          cases h' :
            (sweepDown cmp l (n0 - 3 + if (!z) = true then 1 else 0)).2.1 <;>
          simp_all
      obtain ⟨hif, hsw⟩ := hitr
      obtain ⟨hid, hcur⟩ :=
        sweepDown_noswap (n0 - 3 + if (!z) = true then 1 else 0) l hsw
      rw [hid]
      have hprev2 := hprev hif
      apply sortedLe_of_elemAt
      intro i hi
      cases z with
      | true =>
        simp at hcur hprev2
        by_cases hpar : i % 2 = (n0 - 3) % 2
        · exact hcur i (by omega) (by omega)
        · exact hprev2 i (by omega) (by omega)
      | false =>
        simp at hcur hprev2
        by_cases hpar : i % 2 = (n0 - 3) % 2
        · exact hprev2 i (by omega) (by omega)
        · exact hcur i (by omega) (by omega)

theorem oddeven_eq_two [Inhabited A] (cmp : A → A → Int) (a b : A) :
    oddeven_sort_ctx cmp [a, b] = ((xchg cmp [a, b] 0).1, 1) := rfl

theorem oddeven_eq_three [Inhabited A] (cmp : A → A → Int) (a b c : A) :
    oddeven_sort_ctx cmp [a, b, c] =
      (if (xchg cmp (xchg cmp [a, b, c] 0).1 1).2 then
        ((xchg cmp (xchg cmp (xchg cmp [a, b, c] 0).1 1).1 0).1, 3)
      else ((xchg cmp (xchg cmp [a, b, c] 0).1 1).1, 2)) := rfl

theorem oddeven_eq_go [Inhabited A] (cmp : A → A → Int) (a b c d : A)
    (t : List A) :
    oddeven_sort_ctx cmp (a :: b :: c :: d :: t) =
      oddevenGo cmp (a :: b :: c :: d :: t).length
        (a :: b :: c :: d :: t).length true true (a :: b :: c :: d :: t) := rfl

theorem oddeven_three_tail_sorted [Inhabited A] {cmp : A → A → Int}
    (w : IsWeakOrder cmp) (x y c : A) (hxy : cmp x y ≤ 0) :
    sortedLe cmp (if (xchg cmp [x, y, c] 1).2 then
      (xchg cmp (xchg cmp [x, y, c] 1).1 0).1
    else (xchg cmp [x, y, c] 1).1) := by
  rw [show (1 : Nat) = 0 + 1 from rfl, xchg_cons_succ, xchg_zero_cons2]
  by_cases s2 : 0 < cmp y c
  · rw [if_pos s2]
    dsimp only
    rw [if_pos rfl, xchg_zero_cons2]
    by_cases s3 : 0 < cmp x c
    · rw [if_pos s3]
      dsimp only
      simp only [sortedLe, List.chain'_cons, List.chain'_singleton, and_true]
      exact ⟨w.le_of_swap x c s3, hxy⟩
    · rw [if_neg s3]
      dsimp only
      simp only [sortedLe, List.chain'_cons, List.chain'_singleton, and_true]
      exact ⟨by omega, w.le_of_swap y c s2⟩
  · rw [if_neg s2]
    dsimp only
    rw [if_neg (by simp)]
    simp only [sortedLe, List.chain'_cons, List.chain'_singleton, and_true]
    exact ⟨hxy, by omega⟩

theorem oddeven_sorted [Inhabited A] {cmp : A → A → Int}
    (w : IsWeakOrder cmp) (l : List A) (h7 : l.length ≤ 7) :
    sortedLe cmp (oddeven_sort_ctx cmp l).1 := by
  match l with
  | [] => simp [oddeven_sort_ctx, sortedLe]
  | [a] => simp [oddeven_sort_ctx, sortedLe]
  | [a, b] =>
    rw [oddeven_eq_two, xchg_zero_cons2]
    by_cases s1 : 0 < cmp a b
    · rw [if_pos s1]
      simp only [sortedLe, List.chain'_cons, List.chain'_singleton, and_true]
      exact w.le_of_swap a b s1
    · rw [if_neg s1]
      simp only [sortedLe, List.chain'_cons, List.chain'_singleton, and_true]
      omega
  | [a, b, c] =>
    rw [oddeven_eq_three, xchg_zero_cons2]
    by_cases s1 : 0 < cmp a b
    · rw [if_pos s1]
      dsimp only
      rw [apply_ite Prod.fst]
      dsimp only
      exact oddeven_three_tail_sorted w b a c (w.le_of_swap a b s1)
    · rw [if_neg s1]
      dsimp only
      rw [apply_ite Prod.fst]
      dsimp only
      exact oddeven_three_tail_sorted w a b c (by omega)
  | a :: b :: c :: d :: t =>
    rw [oddeven_eq_go]
    have h4 : 4 ≤ (a :: b :: c :: d :: t).length := by simp
    rcases oddevenGo_sorted_or_net w (a :: b :: c :: d :: t).length
        (by omega) (a :: b :: c :: d :: t).length true true
        (a :: b :: c :: d :: t) (by omega) rfl
        (fun h => absurd h (by simp)) with hs | hnet
    · exact hs
    · rw [hnet]
      exact sweepSeq_net_sorted w (a :: b :: c :: d :: t) h4 h7

theorem oddeven_perm [Inhabited A] (cmp : A → A → Int) (l : List A) :
    (oddeven_sort_ctx cmp l).1.Perm l := by
  match l with
  | [] => exact List.Perm.refl _
  | [a] => exact List.Perm.refl _
  | [a, b] =>
    rw [oddeven_eq_two]
    exact xchg_perm cmp 0 [a, b] (by simp)
  | [a, b, c] =>
    rw [oddeven_eq_three]
    split
    · dsimp only
      refine ((xchg_perm cmp 0 _ ?_).trans ((xchg_perm cmp 1 _ ?_).trans
        (xchg_perm cmp 0 [a, b, c] (by simp)))) <;>
        simp [xchg_length]
    · dsimp only
      exact (xchg_perm cmp 1 _ (by simp [xchg_length])).trans
        (xchg_perm cmp 0 [a, b, c] (by simp))
  | a :: b :: c :: d :: t =>
    rw [oddeven_eq_go]
    exact oddevenGo_perm cmp _ (by simp) _ true true _ rfl

theorem oddeven_length [Inhabited A] (cmp : A → A → Int) (l : List A) :
    (oddeven_sort_ctx cmp l).1.length = l.length :=
  (oddeven_perm cmp l).length_eq

theorem oddeven_id_sorted [Inhabited A] {cmp : A → A → Int} {l : List A}
    (hs : sortedLe cmp l) : (oddeven_sort_ctx cmp l).1 = l := by
  match l with
  | [] => rfl
  | [a] => rfl
  | [a, b] =>
    simp only [sortedLe, List.chain'_cons, List.chain'_singleton, and_true] at hs
    have h1 : ¬ 0 < cmp a b := by omega
    rw [oddeven_eq_two, xchg_zero_cons2, if_neg h1]
  | [a, b, c] =>
    simp only [sortedLe, List.chain'_cons, List.chain'_singleton, and_true] at hs
    obtain ⟨hab, hbc⟩ := hs
    have h1 : ¬ 0 < cmp a b := by omega
    have h2 : ¬ 0 < cmp b c := by omega
    rw [oddeven_eq_three, xchg_zero_cons2, if_neg h1]
    dsimp only
    rw [show (1 : Nat) = 0 + 1 from rfl, xchg_cons_succ, xchg_zero_cons2,
      if_neg h2]
    dsimp only
    rw [if_neg (by simp : ¬ ((false : Bool) = true))]
  | a :: b :: c :: d :: t =>
    rw [oddeven_eq_go]
    exact oddevenGo_id_sorted hs _ (by simp) rfl _ true true

theorem oddeven_filter [Inhabited A] {cmp : A → A → Int}
    (p : A → Bool) (hp : ∀ x y, p x = true → p y = true → cmp x y = 0)
    (l : List A) : (oddeven_sort_ctx cmp l).1.filter p = l.filter p := by
  match l with
  | [] => rfl
  | [a] => rfl
  | [a, b] =>
    rw [oddeven_eq_two]
    exact xchg_filter p hp 0 [a, b] (by simp)
  | [a, b, c] =>
    rw [oddeven_eq_three]
    split
    · dsimp only
      rw [xchg_filter p hp 0 _ (by simp [xchg_length]),
        xchg_filter p hp 1 _ (by simp [xchg_length]),
        xchg_filter p hp 0 [a, b, c] (by simp)]
    · dsimp only
      rw [xchg_filter p hp 1 _ (by simp [xchg_length]),
        xchg_filter p hp 0 [a, b, c] (by simp)]
  | a :: b :: c :: d :: t =>
    rw [oddeven_eq_go]
    exact oddevenGo_filter p hp _ (by simp) _ true true _ rfl

theorem partition_facts (n : Nat) (h : 8 ≤ n) :
    2 ≤ (partition_array n).q1 ∧
    (partition_array n).q1 ≤ (partition_array n).q2 ∧
    (partition_array n).q2 ≤ (partition_array n).q1 + 1 ∧
    2 ≤ (partition_array n).q3 ∧
    (partition_array n).q3 ≤ (partition_array n).q4 ∧
    (partition_array n).q4 ≤ (partition_array n).q3 + 1 ∧
    4 ≤ (partition_array n).lh ∧
    (partition_array n).lh ≤ (partition_array n).rh ∧
    (partition_array n).rh ≤ (partition_array n).lh + 1 ∧
    (partition_array n).lh = (partition_array n).q1 + (partition_array n).q2 ∧
    (partition_array n).rh = (partition_array n).q3 + (partition_array n).q4 ∧
    (partition_array n).lh + (partition_array n).rh = n := by
  simp only [partition_array]
  omega

theorem elemAt_append_left [Inhabited A] {xs ys : List A} {i : Nat}
    (h : i < xs.length) : elemAt (xs ++ ys) i = elemAt xs i := by
  simp [elemAt, List.getD_eq_getElem?_getD, List.getElem?_append, h]

theorem elemAt_append_right [Inhabited A] {xs ys : List A} {i : Nat}
    (h : xs.length ≤ i) :
    elemAt (xs ++ ys) i = elemAt ys (i - xs.length) := by
  simp [elemAt, List.getD_eq_getElem?_getD, List.getElem?_append_right h]

theorem sortedLe_append {cmp : A → A → Int} {xs ys : List A}
    (h1 : sortedLe cmp xs) (h2 : sortedLe cmp ys)
    (h3 : ∀ x ∈ xs.getLast?, ∀ y ∈ ys.head?, cmp x y ≤ 0) :
    sortedLe cmp (xs ++ ys) :=
  List.chain'_append.mpr ⟨h1, h2, h3⟩

theorem getLast?_eq_elemAt [Inhabited A] {xs : List A} (h : xs ≠ []) :
    xs.getLast? = some (elemAt xs (xs.length - 1)) := by
  rw [List.getLast?_eq_getElem?, elemAt, List.getD_eq_getElem xs default
    (by cases xs with
        | nil => exact absurd rfl h
        | cons a t => simp)]
  exact List.getElem?_eq_getElem _

theorem head?_eq_elemAt [Inhabited A] {xs : List A} (h : xs ≠ []) :
    xs.head? = some (elemAt xs 0) := by
  rw [List.head?_eq_getElem?, elemAt, List.getD_eq_getElem xs default
    (by cases xs with
        | nil => exact absurd rfl h
        | cons a t => simp)]
  exact List.getElem?_eq_getElem _

theorem sortedLe_le_of_le [Inhabited A] {cmp : A → A → Int}
    (w : IsWeakOrder cmp) {m : List A} (hs : sortedLe cmp m) :
    ∀ (j : Nat), j < m.length → ∀ i, i ≤ j →
      cmp (elemAt m i) (elemAt m j) ≤ 0 := by
  intro j
  induction j with
  | zero =>
    intro hj i hi
    obtain rfl : i = 0 := by omega
    have := w.refl (elemAt m 0)
    omega
  | succ j ih =>
    intro hj i hi
    rcases Nat.lt_or_ge i (j + 1) with hlt | hge
    · exact w.le_trans _ _ _ (ih (by omega) i (by omega))
        (sortedLe_elemAt hs (by omega))
    · obtain rfl : i = j + 1 := by omega
      have := w.refl (elemAt m (j + 1))
      omega

theorem sortedLe_pairwise_iff {cmp : A → A → Int} (w : IsWeakOrder cmp)
    (l : List A) :
    sortedLe cmp l ↔ List.Pairwise (fun a b => cmp a b ≤ 0) l := by
  haveI : IsTrans A (fun a b => cmp a b ≤ 0) := ⟨fun a b c => w.le_trans a b c⟩
  exact List.chain'_iff_pairwise

theorem smerge_sorted {cmp : A → A → Int} (w : IsWeakOrder cmp)
    {u v : List A} (hu : sortedLe cmp u) (hv : sortedLe cmp v) :
    sortedLe cmp (smerge cmp u v) := by
  rw [sortedLe_pairwise_iff w]
  have h := @List.sorted_merge A
    (fun a b => decide (cmp a b ≤ 0))
    (fun a b c hab hbc => by
      simp only [decide_eq_true_eq] at hab hbc ⊢
      exact w.le_trans a b c hab hbc)
    (fun a b => by
      by_cases hab : cmp a b ≤ 0
      · simp [hab]
      · simp [hab, w.total a b hab])
    u v
    (by
      have := (sortedLe_pairwise_iff w u).mp hu
      exact this.imp (by simp))
    (by
      have := (sortedLe_pairwise_iff w v).mp hv
      exact this.imp (by simp))
  rw [smerge]
  exact h.imp (by simp)

theorem smerge_filter {cmp : A → A → Int} (w : IsWeakOrder cmp)
    (p : A → Bool) (hp : ∀ x y, p x = true → p y = true → cmp x y = 0) :
    ∀ (n : Nat) (u v : List A), u.length + v.length ≤ n →
      sortedLe cmp u → sortedLe cmp v →
      (smerge cmp u v).filter p = u.filter p ++ v.filter p := by
  intro n
  induction n with
  | zero =>
    intro u v hn hu hv
    obtain rfl : u = [] := by cases u <;> simp_all
    obtain rfl : v = [] := by cases v <;> simp_all
    simp [smerge_nil_left]
  | succ n ih =>
    intro u v hn hu hv
    match u, v with
    | [], v => simp [smerge_nil_left]
    | a :: u', [] => simp [smerge_nil_right]
    | a :: u', b :: v' =>
      rw [smerge_cons_cons]
      by_cases hab : cmp a b ≤ 0
      · rw [if_pos hab, List.filter_cons, List.filter_cons,
          ih u' (b :: v') (by simp at hn ⊢; omega) hu.tail hv]
        by_cases hpa : p a = true <;> simp [hpa]
      · rw [if_neg hab, List.filter_cons]
        rw [ih (a :: u') v' (by simp at hn ⊢; omega) hu hv.tail]
        by_cases hpb : p b = true
        · have hnil : (a :: u').filter p = [] := by
            rw [List.filter_eq_nil_iff]
            intro x hx hpx
            have hxb : cmp x b = 0 := hp x b hpx hpb
            have hax : cmp a x ≤ 0 := by
              rcases List.mem_cons.mp hx with rfl | hx'
              · have := w.refl x
                omega
              · exact sortedLe_head_le w u' a hu x hx'
            have : cmp a b ≤ 0 := w.le_trans a x b hax (by omega)
            exact hab this
          simp [hnil, List.filter_cons, hpb]
        · simp [List.filter_cons, hpb]

theorem quad_split (l : List A) (q1 q2 q3 : Nat) :
    l = l.take q1 ++ ((l.drop q1).take q2) ++
      ((l.drop (q1 + q2)).take q3) ++ (l.drop (q1 + q2 + q3)) := by
  conv_lhs => rw [← List.take_append_drop q1 l]
  rw [List.append_assoc, List.append_assoc]
  congr 1
  conv_lhs => rw [← List.take_append_drop q2 (l.drop q1)]
  rw [List.drop_drop]
  congr 1
  conv_lhs => rw [← List.take_append_drop q3 (l.drop (q1 + q2))]
  rw [List.drop_drop]

theorem elemAt_quad_1 [Inhabited A] (B1 B2 B3 B4 : List A) (i : Nat)
    (h : i < B1.length) :
    elemAt (B1 ++ B2 ++ B3 ++ B4) i = elemAt B1 i := by
  rw [show B1 ++ B2 ++ B3 ++ B4 = B1 ++ (B2 ++ B3 ++ B4) by
    simp [List.append_assoc]]
  exact elemAt_append_left h

theorem elemAt_quad_2 [Inhabited A] (B1 B2 B3 B4 : List A) (i : Nat)
    (h1 : B1.length ≤ i) (h2 : i < B1.length + B2.length) :
    elemAt (B1 ++ B2 ++ B3 ++ B4) i = elemAt B2 (i - B1.length) := by
  rw [show B1 ++ B2 ++ B3 ++ B4 = B1 ++ (B2 ++ (B3 ++ B4)) by
    simp [List.append_assoc]]
  rw [elemAt_append_right h1]
  exact elemAt_append_left (by omega)

theorem elemAt_quad_3 [Inhabited A] (B1 B2 B3 B4 : List A) (i : Nat)
    (h1 : B1.length + B2.length ≤ i)
    (h2 : i < B1.length + B2.length + B3.length) :
    elemAt (B1 ++ B2 ++ B3 ++ B4) i =
      elemAt B3 (i - B1.length - B2.length) := by
  rw [show B1 ++ B2 ++ B3 ++ B4 = (B1 ++ B2) ++ (B3 ++ B4) by
    simp [List.append_assoc]]
  rw [elemAt_append_right (by simp; omega)]
  rw [elemAt_append_left (by simp; omega)]
  congr 1
  simp
  omega

theorem elemAt_quad_4 [Inhabited A] (B1 B2 B3 B4 : List A) (i : Nat)
    (h1 : B1.length + B2.length + B3.length ≤ i) :
    elemAt (B1 ++ B2 ++ B3 ++ B4) i =
      elemAt B4 (i - B1.length - B2.length - B3.length) := by
  rw [elemAt_append_right (by simp; omega)]
  congr 1
  simp
  omega

theorem sortedLe_append_elem [Inhabited A] {cmp : A → A → Int}
    {xs ys : List A} (hxs : sortedLe cmp xs) (hys : sortedLe cmp ys)
    (hne1 : xs ≠ []) (hne2 : ys ≠ [])
    (hb : cmp (elemAt xs (xs.length - 1)) (elemAt ys 0) ≤ 0) :
    sortedLe cmp (xs ++ ys) := by
  refine sortedLe_append hxs hys ?_
  rw [getLast?_eq_elemAt hne1, head?_eq_elemAt hne2]
  intro x hx y hy
  simp only [Option.mem_def, Option.some.injEq] at hx hy
  subst hx
  subst hy
  exact hb

theorem rotate_blocks (X Y Z : List A) :
    rotate (X ++ Y ++ Z) X.length Y.length = Y ++ X ++ Z := by
  rw [rotate, List.take_left' (by simp), List.drop_left' rfl,
    List.take_left' rfl, List.drop_left' (by simp)]

theorem rotatedResult_blocks (B1 B2 B3 B4 : List A) (s : segment_t)
    (hl1 : B1.length = s.q1) (hl2 : B2.length = s.q2)
    (hl3 : B3.length = s.q3) (hl4 : B4.length = s.q4)
    (hrh : s.rh = s.q3 + s.q4) :
    rotatedResult (B1 ++ B2 ++ B3 ++ B4) s = B4 ++ B3 ++ B2 ++ B1 := by
  rw [rotatedResult]
  have e1 : rotate (B1 ++ B2 ++ B3 ++ B4) s.q1 (s.q2 + s.rh) =
      (B2 ++ B3 ++ B4) ++ B1 ++ [] := by
    rw [show B1 ++ B2 ++ B3 ++ B4 = B1 ++ (B2 ++ B3 ++ B4) ++ [] by
      simp [List.append_assoc]]
    rw [show s.q1 = B1.length from hl1.symm,
      show s.q2 + s.rh = (B2 ++ B3 ++ B4).length by simp; omega]
    exact rotate_blocks B1 (B2 ++ B3 ++ B4) []
  rw [e1]
  have e2 : rotate ((B2 ++ B3 ++ B4) ++ B1 ++ []) s.q2 s.rh =
      (B3 ++ B4) ++ B2 ++ B1 := by
    rw [show (B2 ++ B3 ++ B4) ++ B1 ++ [] = B2 ++ (B3 ++ B4) ++ B1 by
      simp [List.append_assoc]]
    rw [show s.q2 = B2.length from hl2.symm,
      show s.rh = (B3 ++ B4).length by simp; omega]
    exact rotate_blocks B2 (B3 ++ B4) B1
  rw [e2]
  have e3 : rotate ((B3 ++ B4) ++ B2 ++ B1) s.q3 s.q4 =
      B4 ++ B3 ++ (B2 ++ B1) := by
    rw [show (B3 ++ B4) ++ B2 ++ B1 = B3 ++ B4 ++ (B2 ++ B1) by
      simp [List.append_assoc]]
    rw [show s.q3 = B3.length from hl3.symm,
      show s.q4 = B4.length from hl4.symm]
    exact rotate_blocks B3 B4 (B2 ++ B1)
  rw [e3]
  simp [List.append_assoc]

theorem ordered_checks_sorted [Inhabited A] {cmp : A → A → Int}
    (B1 B2 B3 B4 : List A) (s : segment_t)
    (hs1 : sortedLe cmp B1) (hs2 : sortedLe cmp B2)
    (hs3 : sortedLe cmp B3) (hs4 : sortedLe cmp B4)
    (hl1 : B1.length = s.q1) (hl2 : B2.length = s.q2)
    (hl3 : B3.length = s.q3) (hl4 : B4.length = s.q4)
    (hq1 : 1 ≤ s.q1) (hq2 : 1 ≤ s.q2) (hq3 : 1 ≤ s.q3) (hq4 : 1 ≤ s.q4)
    (hlh : s.lh = s.q1 + s.q2)
    (hord : orderedChecks cmp (B1 ++ B2 ++ B3 ++ B4) s = true) :
    sortedLe cmp (B1 ++ B2 ++ B3 ++ B4) := by
  rw [orderedChecks, Bool.and_eq_true, Bool.and_eq_true,
    decide_eq_true_eq, decide_eq_true_eq, decide_eq_true_eq] at hord
  obtain ⟨hc1, hc2, hc3⟩ := hord
  rw [elemAt_quad_1 _ _ _ _ _ (by omega),
    elemAt_quad_2 _ _ _ _ _ (by omega) (by omega)] at hc1
  rw [show s.q1 - 1 = B1.length - 1 by omega,
    show s.q1 - B1.length = 0 by omega] at hc1
  rw [elemAt_quad_2 _ _ _ _ _ (by omega) (by omega),
    elemAt_quad_3 _ _ _ _ _ (by omega) (by omega)] at hc2
  rw [show s.lh - 1 - B1.length = B2.length - 1 by omega,
    show s.lh - B1.length - B2.length = 0 by omega] at hc2
  rw [elemAt_quad_3 _ _ _ _ _ (by omega) (by omega),
    elemAt_quad_4 _ _ _ _ _ (by omega)] at hc3
  rw [show s.lh + s.q3 - 1 - B1.length - B2.length = B3.length - 1 by omega,
    show s.lh + s.q3 - B1.length - B2.length - B3.length = 0 by omega] at hc3
  have hne1 : B1 ≠ [] := List.length_pos.mp (by omega)
  have hne2 : B2 ≠ [] := List.length_pos.mp (by omega)
  have hne3 : B3 ≠ [] := List.length_pos.mp (by omega)
  have hne4 : B4 ≠ [] := List.length_pos.mp (by omega)
  have h34 : sortedLe cmp (B3 ++ B4) :=
    sortedLe_append_elem hs3 hs4 hne3 hne4 hc3
  have h234 : sortedLe cmp (B2 ++ (B3 ++ B4)) := by
    refine sortedLe_append_elem hs2 h34 hne2 (by simp [hne3]) ?_
    rw [elemAt_append_left (by omega)]
    exact hc2
  have h1234 : sortedLe cmp (B1 ++ (B2 ++ (B3 ++ B4))) := by
    refine sortedLe_append_elem hs1 h234 hne1 (by simp [hne2]) ?_
    rw [elemAt_append_left (by omega)]
    exact hc1
  rw [show B1 ++ B2 ++ B3 ++ B4 = B1 ++ (B2 ++ (B3 ++ B4)) by
    simp [List.append_assoc]]
  exact h1234

theorem reversed_checks_sorted [Inhabited A] {cmp : A → A → Int}
    (w : IsWeakOrder cmp) (B1 B2 B3 B4 : List A) (s : segment_t) (n : Nat)
    (hs1 : sortedLe cmp B1) (hs2 : sortedLe cmp B2)
    (hs3 : sortedLe cmp B3) (hs4 : sortedLe cmp B4)
    (hl1 : B1.length = s.q1) (hl2 : B2.length = s.q2)
    (hl3 : B3.length = s.q3) (hl4 : B4.length = s.q4)
    (hq1 : 1 ≤ s.q1) (hq2 : 1 ≤ s.q2) (hq3 : 1 ≤ s.q3) (hq4 : 1 ≤ s.q4)
    (hlh : s.lh = s.q1 + s.q2) (hrh : s.rh = s.q3 + s.q4)
    (hn : n = s.lh + s.rh)
    (hrev : reversedChecks cmp n (B1 ++ B2 ++ B3 ++ B4) s = true) :
    sortedLe cmp (B4 ++ B3 ++ B2 ++ B1) := by
  rw [reversedChecks, Bool.and_eq_true, Bool.and_eq_true,
    decide_eq_true_eq, decide_eq_true_eq, decide_eq_true_eq] at hrev
  obtain ⟨hc1, hc2, hc3⟩ := hrev
  rw [elemAt_quad_1 _ _ _ _ _ (by omega),
    elemAt_quad_2 _ _ _ _ _ (by omega) (by omega)] at hc1
  rw [show s.lh - 1 - B1.length = B2.length - 1 by omega] at hc1
  rw [elemAt_quad_2 _ _ _ _ _ (by omega) (by omega),
    elemAt_quad_3 _ _ _ _ _ (by omega) (by omega)] at hc2
  rw [show s.q1 - B1.length = 0 by omega,
    show s.lh + s.q3 - 1 - B1.length - B2.length = B3.length - 1 by
      omega] at hc2
  rw [elemAt_quad_3 _ _ _ _ _ (by omega) (by omega),
    elemAt_quad_4 _ _ _ _ _ (by omega)] at hc3
  rw [show s.lh - B1.length - B2.length = 0 by omega,
    show n - 1 - B1.length - B2.length - B3.length = B4.length - 1 by
      omega] at hc3
  have hne1 : B1 ≠ [] := List.length_pos.mp (by omega)
  have hne2 : B2 ≠ [] := List.length_pos.mp (by omega)
  have hne3 : B3 ≠ [] := List.length_pos.mp (by omega)
  have hne4 : B4 ≠ [] := List.length_pos.mp (by omega)
  have hb21 : cmp (elemAt B2 (B2.length - 1)) (elemAt B1 0) ≤ 0 := by
    have := (w.sign (elemAt B1 0) (elemAt B2 (B2.length - 1))).mp hc1
    omega
  have hb32 : cmp (elemAt B3 (B3.length - 1)) (elemAt B2 0) ≤ 0 := by
    have := (w.sign (elemAt B2 0) (elemAt B3 (B3.length - 1))).mp hc2
    omega
  have hb43 : cmp (elemAt B4 (B4.length - 1)) (elemAt B3 0) ≤ 0 := by
    have := (w.sign (elemAt B3 0) (elemAt B4 (B4.length - 1))).mp hc3
    omega
  have h21 : sortedLe cmp (B2 ++ B1) :=
    sortedLe_append_elem hs2 hs1 hne2 hne1 hb21
  have h321 : sortedLe cmp (B3 ++ (B2 ++ B1)) := by
    refine sortedLe_append_elem hs3 h21 hne3 (by simp [hne2]) ?_
    rw [elemAt_append_left (by omega)]
    exact hb32
  have h4321 : sortedLe cmp (B4 ++ (B3 ++ (B2 ++ B1))) := by
    refine sortedLe_append_elem hs4 h321 hne4 (by simp [hne3]) ?_
    rw [elemAt_append_left (by omega)]
    exact hb43
  rw [show B4 ++ B3 ++ B2 ++ B1 = B4 ++ (B3 ++ (B2 ++ B1)) by
    simp [List.append_assoc]]
  exact h4321

theorem parity_merge_srcOf [Inhabited A] {cmp : A → A → Int}
    (w : IsWeakOrder cmp) (u v : List A)
    (hu : sortedLe cmp u) (hv : sortedLe cmp v) (hL : 1 ≤ u.length)
    (hshape : v.length = u.length ∨ v.length = u.length + 1) :
    parity_merge_ctx cmp (srcOf (u ++ v)) u.length v.length =
      smerge cmp u v := by
  refine parity_merge_eq_smerge w u v (srcOf (u ++ v)) ?_ ?_ hu hv hL hshape
  · intro i hi
    exact elemAt_append_left hi
  · intro j hj
    have h := @elemAt_append_right A _ u v (u.length + j) (by omega)
    rw [show u.length + j - u.length = j by omega] at h
    exact h

theorem mergedResult_eq [Inhabited A] {cmp : A → A → Int}
    (w : IsWeakOrder cmp) (B1 B2 B3 B4 : List A) (s : segment_t)
    (hs1 : sortedLe cmp B1) (hs2 : sortedLe cmp B2)
    (hs3 : sortedLe cmp B3) (hs4 : sortedLe cmp B4)
    (hl1 : B1.length = s.q1) (hl2 : B2.length = s.q2)
    (hl3 : B3.length = s.q3) (hl4 : B4.length = s.q4)
    (hq1 : 1 ≤ s.q1) (hq12 : s.q1 ≤ s.q2) (hq21 : s.q2 ≤ s.q1 + 1)
    (hq3 : 1 ≤ s.q3) (hq34 : s.q3 ≤ s.q4) (hq43 : s.q4 ≤ s.q3 + 1)
    (hlr : s.lh ≤ s.rh) (hrl : s.rh ≤ s.lh + 1)
    (hlh : s.lh = s.q1 + s.q2) (hrh : s.rh = s.q3 + s.q4) :
    mergedResult cmp (B1 ++ B2 ++ B3 ++ B4) s =
      smerge cmp (smerge cmp B1 B2) (smerge cmp B3 B4) := by
  have ht : (B1 ++ B2 ++ B3 ++ B4).take s.lh = B1 ++ B2 := by
    rw [show B1 ++ B2 ++ B3 ++ B4 = (B1 ++ B2) ++ (B3 ++ B4) by
      simp [List.append_assoc]]
    exact List.take_left' (by simp; omega)
  have hd : (B1 ++ B2 ++ B3 ++ B4).drop s.lh = B3 ++ B4 := by
    rw [show B1 ++ B2 ++ B3 ++ B4 = (B1 ++ B2) ++ (B3 ++ B4) by
      simp [List.append_assoc]]
    exact List.drop_left' (by simp; omega)
  rw [mergedResult]
  rw [ht, hd]
  have e1 : parity_merge_ctx cmp (srcOf (B1 ++ B2)) s.q1 s.q2 =
      smerge cmp B1 B2 := by
    rw [show s.q1 = B1.length from hl1.symm,
      show s.q2 = B2.length from hl2.symm]
    exact parity_merge_srcOf w B1 B2 hs1 hs2 (by omega) (by omega)
  have e2 : parity_merge_ctx cmp (srcOf (B3 ++ B4)) s.q3 s.q4 =
      smerge cmp B3 B4 := by
    rw [show s.q3 = B3.length from hl3.symm,
      show s.q4 = B4.length from hl4.symm]
    exact parity_merge_srcOf w B3 B4 hs3 hs4 (by omega) (by omega)
  rw [e1, e2]
  rw [show s.lh = (smerge cmp B1 B2).length by rw [smerge_length]; omega,
    show s.rh = (smerge cmp B3 B4).length by rw [smerge_length]; omega]
  refine parity_merge_srcOf w _ _ (smerge_sorted w hs1 hs2)
    (smerge_sorted w hs3 hs4) ?_ ?_
  · rw [smerge_length]
    omega
  · rw [smerge_length, smerge_length]
    omega

theorem mergeDecision_main [Inhabited A] {cmp : A → A → Int}
    (w : IsWeakOrder cmp) (B1 B2 B3 B4 : List A) (s : segment_t) (n : Nat)
    (hs1 : sortedLe cmp B1) (hs2 : sortedLe cmp B2)
    (hs3 : sortedLe cmp B3) (hs4 : sortedLe cmp B4)
    (hl1 : B1.length = s.q1) (hl2 : B2.length = s.q2)
    (hl3 : B3.length = s.q3) (hl4 : B4.length = s.q4)
    (hq1 : 1 ≤ s.q1) (hq12 : s.q1 ≤ s.q2) (hq21 : s.q2 ≤ s.q1 + 1)
    (hq3 : 1 ≤ s.q3) (hq34 : s.q3 ≤ s.q4) (hq43 : s.q4 ≤ s.q3 + 1)
    (hlr : s.lh ≤ s.rh) (hrl : s.rh ≤ s.lh + 1)
    (hlh : s.lh = s.q1 + s.q2) (hrh : s.rh = s.q3 + s.q4)
    (hn : n = s.lh + s.rh) :
    sortedLe cmp (mergeDecision cmp n (B1 ++ B2 ++ B3 ++ B4) s) ∧
      (mergeDecision cmp n (B1 ++ B2 ++ B3 ++ B4) s).Perm
        (B1 ++ B2 ++ B3 ++ B4) := by
  rw [mergeDecision]
  by_cases hord : orderedChecks cmp (B1 ++ B2 ++ B3 ++ B4) s = true
  · rw [if_pos hord]
    exact ⟨ordered_checks_sorted B1 B2 B3 B4 s hs1 hs2 hs3 hs4 hl1 hl2 hl3
      hl4 (by omega) (by omega) (by omega) (by omega) hlh hord,
      List.Perm.refl _⟩
  · rw [if_neg hord]
    by_cases hrev : reversedChecks cmp n (B1 ++ B2 ++ B3 ++ B4) s = true
    · rw [if_pos hrev, rotatedResult_blocks B1 B2 B3 B4 s hl1 hl2 hl3 hl4 hrh]
      refine ⟨reversed_checks_sorted w B1 B2 B3 B4 s n hs1 hs2 hs3 hs4
        hl1 hl2 hl3 hl4 (by omega) (by omega) (by omega) (by omega)
        hlh hrh hn hrev, ?_⟩
      rw [show B4 ++ B3 ++ B2 ++ B1 = (B4 ++ B3) ++ (B2 ++ B1) by
        simp [List.append_assoc],
        show B1 ++ B2 ++ B3 ++ B4 = (B1 ++ B2) ++ (B3 ++ B4) by
        simp [List.append_assoc]]
      exact List.perm_append_comm.trans
        (List.Perm.append List.perm_append_comm List.perm_append_comm)
    · rw [if_neg hrev, mergedResult_eq w B1 B2 B3 B4 s hs1 hs2 hs3 hs4
        hl1 hl2 hl3 hl4 hq1 hq12 hq21 hq3 hq34 hq43 hlr hrl hlh hrh]
      constructor
      · exact smerge_sorted w (smerge_sorted w hs1 hs2)
          (smerge_sorted w hs3 hs4)
      · refine (smerge_perm cmp _ _).trans ?_
        rw [show B1 ++ B2 ++ B3 ++ B4 = (B1 ++ B2) ++ (B3 ++ B4) by
          simp [List.append_assoc]]
        exact List.Perm.append (smerge_perm cmp B1 B2)
          (smerge_perm cmp B3 B4)

theorem xsortFuel_zero [Inhabited A] (cmp : A → A → Int) (l : List A) :
    xsortFuel cmp 0 l = l := rfl

theorem xsortFuel_succ [Inhabited A] (cmp : A → A → Int) (fuel : Nat)
    (l : List A) :
    xsortFuel cmp (fuel + 1) l =
      if l.length ≤ 7 then (oddeven_sort_ctx cmp l).1
      else
        mergeDecision cmp l.length
          (xsortFuel cmp fuel (l.take (partition_array l.length).q1) ++
           xsortFuel cmp fuel ((l.drop (partition_array l.length).q1).take (partition_array l.length).q2) ++
           xsortFuel cmp fuel ((l.drop (partition_array l.length).lh).take (partition_array l.length).q3) ++
           xsortFuel cmp fuel ((l.drop ((partition_array l.length).lh + (partition_array l.length).q3)).take (partition_array l.length).q4))
          (partition_array l.length) := rfl

theorem xsortFuel_sorted_perm [Inhabited A] {cmp : A → A → Int}
    (w : IsWeakOrder cmp) :
    ∀ (fuel : Nat) (l : List A), l.length ≤ fuel →
      sortedLe cmp (xsortFuel cmp fuel l) ∧ (xsortFuel cmp fuel l).Perm l := by
  intro fuel
  induction fuel with
  | zero =>
    intro l h
    obtain rfl : l = [] := List.eq_nil_of_length_eq_zero (by omega)
    exact ⟨List.chain'_nil, List.Perm.refl _⟩
  | succ fuel ih =>
    intro l hlen
    rw [xsortFuel_succ]
    by_cases hsmall : l.length ≤ 7
    · rw [if_pos hsmall]
      exact ⟨oddeven_sorted w l hsmall, oddeven_perm cmp l⟩
    · rw [if_neg hsmall]
      have h8 : 8 ≤ l.length := by omega
      obtain ⟨pf1, pf2, pf3, pf4, pf5, pf6, pf7, pf8, pf9, pf10, pf11, pf12⟩ :=
        partition_facts l.length h8
      have hL1 : (l.take (partition_array l.length).q1).length = (partition_array l.length).q1 := by
        simp
        omega
      have hL2 : ((l.drop (partition_array l.length).q1).take (partition_array l.length).q2).length = (partition_array l.length).q2 := by
        simp
        omega
      have hL3 : ((l.drop (partition_array l.length).lh).take (partition_array l.length).q3).length = (partition_array l.length).q3 := by
        simp
        omega
      have hL4 : ((l.drop ((partition_array l.length).lh + (partition_array l.length).q3)).take (partition_array l.length).q4).length = (partition_array l.length).q4 := by
        simp
        omega
      obtain ⟨hs1, hp1⟩ := ih (l.take (partition_array l.length).q1) (by simp; omega)
      obtain ⟨hs2, hp2⟩ := ih ((l.drop (partition_array l.length).q1).take (partition_array l.length).q2) (by simp; omega)
      obtain ⟨hs3, hp3⟩ := ih ((l.drop (partition_array l.length).lh).take (partition_array l.length).q3) (by simp; omega)
      obtain ⟨hs4, hp4⟩ := ih ((l.drop ((partition_array l.length).lh + (partition_array l.length).q3)).take (partition_array l.length).q4) (by simp; omega)
      have hB1 : (xsortFuel cmp fuel (l.take (partition_array l.length).q1)).length = (partition_array l.length).q1 :=
        hp1.length_eq.trans hL1
      have hB2 : (xsortFuel cmp fuel ((l.drop (partition_array l.length).q1).take (partition_array l.length).q2)).length = (partition_array l.length).q2 :=
        hp2.length_eq.trans hL2
      have hB3 : (xsortFuel cmp fuel ((l.drop (partition_array l.length).lh).take (partition_array l.length).q3)).length = (partition_array l.length).q3 :=
        hp3.length_eq.trans hL3
      have hB4 : (xsortFuel cmp fuel ((l.drop ((partition_array l.length).lh + (partition_array l.length).q3)).take (partition_array l.length).q4)).length = (partition_array l.length).q4 :=
        hp4.length_eq.trans hL4
      have hmain := mergeDecision_main w
        (xsortFuel cmp fuel (l.take (partition_array l.length).q1)) (xsortFuel cmp fuel ((l.drop (partition_array l.length).q1).take (partition_array l.length).q2))
        (xsortFuel cmp fuel ((l.drop (partition_array l.length).lh).take (partition_array l.length).q3)) (xsortFuel cmp fuel ((l.drop ((partition_array l.length).lh + (partition_array l.length).q3)).take (partition_array l.length).q4))
        (partition_array l.length) l.length hs1 hs2 hs3 hs4 hB1 hB2 hB3 hB4
        (by omega) pf2 pf3 (by omega) pf5 pf6 pf8 pf9 pf10 pf11 (by omega)
      refine ⟨hmain.1, hmain.2.trans ?_⟩
      have hquad : (l.take (partition_array l.length).q1) ++ ((l.drop (partition_array l.length).q1).take (partition_array l.length).q2) ++ ((l.drop (partition_array l.length).lh).take (partition_array l.length).q3) ++ ((l.drop ((partition_array l.length).lh + (partition_array l.length).q3)).take (partition_array l.length).q4) = l := by
        rw [pf10,
          show (l.drop ((partition_array l.length).q1 + (partition_array l.length).q2 + (partition_array l.length).q3)).take (partition_array l.length).q4 =
            l.drop ((partition_array l.length).q1 + (partition_array l.length).q2 + (partition_array l.length).q3) from
            List.take_of_length_le (by simp; omega)]
        exact (quad_split l (partition_array l.length).q1 (partition_array l.length).q2 (partition_array l.length).q3).symm
      have hcat := List.Perm.append
        (List.Perm.append (List.Perm.append hp1 hp2) hp3) hp4
      rw [hquad] at hcat
      exact hcat

theorem natCmp_isWeakOrder : IsWeakOrder natCmp := by
  constructor
  · intro a
    simp [natCmp]
  · intro a b
    simp only [natCmp]
    omega
  · intro a b c
    simp only [natCmp]
    omega

theorem sortedLe_take {cmp : A → A → Int} {l : List A}
    (h : sortedLe cmp l) (n : Nat) : sortedLe cmp (l.take n) :=
  List.Chain'.take h n

theorem sortedLe_drop {cmp : A → A → Int} {l : List A}
    (h : sortedLe cmp l) (n : Nat) : sortedLe cmp (l.drop n) :=
  List.Chain'.drop h n

theorem orderedChecks_of_sorted [Inhabited A] {cmp : A → A → Int}
    {l : List A} (hs : sortedLe cmp l) (s : segment_t)
    (hq1 : 1 ≤ s.q1) (hq1lh : s.q1 < s.lh) (hq3 : 1 ≤ s.q3)
    (hlh3 : s.lh + s.q3 < l.length) :
    orderedChecks cmp l s = true := by
  rw [orderedChecks]
  simp only [Bool.and_eq_true, decide_eq_true_eq]
  refine ⟨?_, ?_, ?_⟩
  · have h := sortedLe_elemAt hs (show s.q1 - 1 + 1 < l.length by omega)
    rw [show s.q1 - 1 + 1 = s.q1 by omega] at h
    exact h
  · have h := sortedLe_elemAt hs (show s.lh - 1 + 1 < l.length by omega)
    rw [show s.lh - 1 + 1 = s.lh by omega] at h
    exact h
  · have h := sortedLe_elemAt hs
      (show s.lh + s.q3 - 1 + 1 < l.length by omega)
    rw [show s.lh + s.q3 - 1 + 1 = s.lh + s.q3 by omega] at h
    exact h

theorem xsortFuel_id_sorted [Inhabited A] {cmp : A → A → Int} :
    ∀ (fuel : Nat) (l : List A), sortedLe cmp l →
      xsortFuel cmp fuel l = l := by
  intro fuel
  induction fuel with
  | zero =>
    intro l _
    rfl
  | succ fuel ih =>
    intro l hs
    rw [xsortFuel_succ]
    by_cases hsmall : l.length ≤ 7
    · rw [if_pos hsmall]
      exact oddeven_id_sorted hs
    · rw [if_neg hsmall]
      have h8 : 8 ≤ l.length := by omega
      obtain ⟨pf1, pf2, pf3, pf4, pf5, pf6, pf7, pf8, pf9, pf10, pf11, pf12⟩ :=
        partition_facts l.length h8
      rw [ih (l.take (partition_array l.length).q1) (sortedLe_take hs _),
        ih ((l.drop (partition_array l.length).q1).take (partition_array l.length).q2) (sortedLe_take (sortedLe_drop hs _) _),
        ih ((l.drop (partition_array l.length).lh).take (partition_array l.length).q3) (sortedLe_take (sortedLe_drop hs _) _),
        ih ((l.drop ((partition_array l.length).lh + (partition_array l.length).q3)).take (partition_array l.length).q4) (sortedLe_take (sortedLe_drop hs _) _)]
      have hquad : (l.take (partition_array l.length).q1) ++ ((l.drop (partition_array l.length).q1).take (partition_array l.length).q2) ++ ((l.drop (partition_array l.length).lh).take (partition_array l.length).q3) ++ ((l.drop ((partition_array l.length).lh + (partition_array l.length).q3)).take (partition_array l.length).q4) = l := by
        rw [pf10,
          show (l.drop ((partition_array l.length).q1 + (partition_array l.length).q2 + (partition_array l.length).q3)).take (partition_array l.length).q4 =
            l.drop ((partition_array l.length).q1 + (partition_array l.length).q2 + (partition_array l.length).q3) from
            List.take_of_length_le (by simp; omega)]
        exact (quad_split l (partition_array l.length).q1 (partition_array l.length).q2 (partition_array l.length).q3).symm
      rw [hquad, mergeDecision,
        if_pos (orderedChecks_of_sorted hs (partition_array l.length) (by omega) (by omega)
          (by omega) (by omega))]

theorem elemAt_take [Inhabited A] {l : List A} {p i : Nat} (h : i < p) :
    elemAt (l.take p) i = elemAt l i := getD_take h

theorem elemAt_drop [Inhabited A] {l : List A} {p j : Nat} :
    elemAt (l.drop p) j = elemAt l (p + j) := getD_drop

theorem elemAt_reverse [Inhabited A] {l : List A} {i : Nat}
    (h : i < l.length) :
    elemAt l.reverse i = elemAt l (l.length - 1 - i) := by
  rw [elemAt, elemAt, List.getD_eq_getElem?_getD, List.getD_eq_getElem?_getD,
    List.getElem?_reverse h]

theorem pos_trans {cmp : A → A → Int} (w : IsWeakOrder cmp) (a b c : A)
    (h1 : 0 < cmp a b) (h2 : 0 < cmp b c) : 0 < cmp a c := by
  have hba := (w.sign a b).mp h1
  have hcb := (w.sign b c).mp h2
  have := w.trans_lt_le c b a hcb (le_of_lt hba)
  exact (w.sign a c).mpr this

theorem strictDesc_elemAt [Inhabited A] {cmp : A → A → Int} {l : List A}
    (h : strictDesc cmp l) {i : Nat} (hi : i + 1 < l.length) :
    0 < cmp (elemAt l i) (elemAt l (i + 1)) := by
  have hg := List.chain'_iff_get.mp h i (by omega)
  rw [elemAt, elemAt, List.getD_eq_getElem l default (by omega),
    List.getD_eq_getElem l default hi]
  simpa [List.get_eq_getElem] using hg

theorem strictDesc_lt_of_lt [Inhabited A] {cmp : A → A → Int}
    (w : IsWeakOrder cmp) {m : List A} (hs : strictDesc cmp m) :
    ∀ (j : Nat), j < m.length → ∀ i, i < j →
      0 < cmp (elemAt m i) (elemAt m j) := by
  intro j
  induction j with
  | zero =>
    intro _ i hi
    omega
  | succ j ih =>
    intro hj i hi
    rcases Nat.lt_or_ge i j with hlt | hge
    · exact pos_trans w _ _ _ (ih (by omega) i hlt)
        (strictDesc_elemAt hs (by omega))
    · obtain rfl : i = j := by omega
      exact strictDesc_elemAt hs (by omega)

theorem strictDesc_pairwise_ne [Inhabited A] {cmp : A → A → Int}
    (w : IsWeakOrder cmp) {l : List A} (hs : strictDesc cmp l) :
    List.Pairwise (fun a b => cmp a b ≠ 0) l := by
  haveI : IsTrans A (fun a b => 0 < cmp a b) :=
    ⟨fun a b c h1 h2 => pos_trans w a b c h1 h2⟩
  have hp : List.Pairwise (fun a b => 0 < cmp a b) l :=
    List.chain'_iff_pairwise.mp hs
  exact hp.imp (by omega)

theorem sorted_perm_eq {cmp : A → A → Int} (w : IsWeakOrder cmp) :
    ∀ (u v : List A), u.Perm v → sortedLe cmp u → sortedLe cmp v →
      List.Pairwise (fun a b => cmp a b ≠ 0) u → u = v := by
  intro u
  induction u with
  | nil =>
    intro v hp _ _ _
    exact List.Perm.nil_eq hp
  | cons a u' ih =>
    intro v hp hu hv hd
    cases v with
    | nil =>
      have := hp.length_eq
      simp at this
    | cons b v' =>
      have hab : cmp a b ≤ 0 := by
        have hbmem : b ∈ a :: u' := hp.mem_iff.mpr (by simp)
        rcases List.mem_cons.mp hbmem with heq | hb'
        · rw [← heq]
          exact le_of_eq (w.refl b)
        · exact sortedLe_head_le w u' a hu b hb'
      have hba : cmp b a ≤ 0 := by
        have hamem : a ∈ b :: v' := hp.mem_iff.mp (by simp)
        rcases List.mem_cons.mp hamem with heq | ha'
        · rw [heq]
          exact le_of_eq (w.refl b)
        · exact sortedLe_head_le w v' b hv a ha'
      have hzero : cmp a b = 0 := by
        rcases lt_trichotomy (cmp a b) 0 with hlt | he | hgt
        · have := (w.sign b a).mpr hlt
          omega
        · exact he
        · omega
      have heq : a = b := by
        have hbmem : b ∈ a :: u' := hp.mem_iff.mpr (by simp)
        rcases List.mem_cons.mp hbmem with h | hb'
        · exact h.symm
        · exact absurd hzero ((List.pairwise_cons.mp hd).1 b hb')
      subst heq
      have hp' : u'.Perm v' := hp.cons_inv
      rw [ih v' hp' (List.Chain'.tail hu) (List.Chain'.tail hv)
        (List.pairwise_cons.mp hd).2]

theorem sortedLe_reverse_of_strictDesc {cmp : A → A → Int}
    (w : IsWeakOrder cmp) {l : List A} (hd : strictDesc cmp l) :
    sortedLe cmp l.reverse := by
  rw [sortedLe, List.chain'_reverse]
  exact List.Chain'.imp (fun a b h => le_of_lt ((w.sign a b).mp h)) hd

theorem xsortFuel_strictDesc [Inhabited A] {cmp : A → A → Int}
    (w : IsWeakOrder cmp) (fuel : Nat) (l : List A)
    (hlen : l.length ≤ fuel) (hd : strictDesc cmp l) :
    xsortFuel cmp fuel l = l.reverse := by
  obtain ⟨hsort, hperm⟩ := xsortFuel_sorted_perm w fuel l hlen
  refine sorted_perm_eq w _ _ (hperm.trans (l.reverse_perm).symm) hsort
    (sortedLe_reverse_of_strictDesc w hd) ?_
  have hdl : List.Pairwise (fun a b => cmp a b ≠ 0) l :=
    strictDesc_pairwise_ne w hd
  exact (List.Perm.pairwise_iff
    (fun h h0 => h (w.zero_symm _ _ h0)) hperm).mpr hdl

theorem reversed_blocks_decision [Inhabited A] {cmp : A → A → Int}
    (w : IsWeakOrder cmp) (l : List A) (s : segment_t)
    (hq1 : 2 ≤ s.q1) (hq12 : s.q1 ≤ s.q2) (hq21 : s.q2 ≤ s.q1 + 1)
    (hq3 : 2 ≤ s.q3) (hq34 : s.q3 ≤ s.q4) (hq43 : s.q4 ≤ s.q3 + 1)
    (hlh : s.lh = s.q1 + s.q2) (hrh : s.rh = s.q3 + s.q4)
    (hn : s.lh + s.rh = l.length)
    (hd : strictDesc cmp l) :
    orderedChecks cmp ((l.take s.q1).reverse ++ ((l.drop s.q1).take s.q2).reverse ++ ((l.drop s.lh).take s.q3).reverse ++ ((l.drop (s.lh + s.q3)).take s.q4).reverse) s = false ∧
    reversedChecks cmp l.length ((l.take s.q1).reverse ++ ((l.drop s.q1).take s.q2).reverse ++ ((l.drop s.lh).take s.q3).reverse ++ ((l.drop (s.lh + s.q3)).take s.q4).reverse) s = true ∧
    orderedCallCount cmp ((l.take s.q1).reverse ++ ((l.drop s.q1).take s.q2).reverse ++ ((l.drop s.lh).take s.q3).reverse ++ ((l.drop (s.lh + s.q3)).take s.q4).reverse) s = 1 := by
  have hL1 : ((l.take s.q1).reverse).length = s.q1 := by
    rw [List.length_reverse, List.length_take]
    omega
  have hL2 : (((l.drop s.q1).take s.q2).reverse).length = s.q2 := by
    rw [List.length_reverse, List.length_take, List.length_drop]
    omega
  have hL3 : (((l.drop s.lh).take s.q3).reverse).length = s.q3 := by
    rw [List.length_reverse, List.length_take, List.length_drop]
    omega
  have hL4 : (((l.drop (s.lh + s.q3)).take s.q4).reverse).length = s.q4 := by
    rw [List.length_reverse, List.length_take, List.length_drop]
    omega
  have ea : elemAt ((l.take s.q1).reverse ++ ((l.drop s.q1).take s.q2).reverse ++ ((l.drop s.lh).take s.q3).reverse ++ ((l.drop (s.lh + s.q3)).take s.q4).reverse) (s.q1 - 1) = elemAt l 0 := by
    rw [elemAt_quad_1 _ _ _ _ _ (by omega),
      elemAt_reverse (by rw [List.length_take]; omega),
      show (l.take s.q1).length - 1 - (s.q1 - 1) = 0 by
        rw [List.length_take]; omega,
      elemAt_take (by omega)]
  have eb : elemAt ((l.take s.q1).reverse ++ ((l.drop s.q1).take s.q2).reverse ++ ((l.drop s.lh).take s.q3).reverse ++ ((l.drop (s.lh + s.q3)).take s.q4).reverse) s.q1 = elemAt l (s.lh - 1) := by
    rw [elemAt_quad_2 _ _ _ _ _ (by omega) (by omega),
      show s.q1 - ((l.take s.q1).reverse).length = 0 by omega,
      elemAt_reverse (by rw [List.length_take, List.length_drop]; omega),
      show ((l.drop s.q1).take s.q2).length - 1 - 0 = s.q2 - 1 by
        rw [List.length_take, List.length_drop]; omega,
      elemAt_take (by omega), elemAt_drop,
      show s.q1 + (s.q2 - 1) = s.lh - 1 by omega]
  have ec : elemAt ((l.take s.q1).reverse ++ ((l.drop s.q1).take s.q2).reverse ++ ((l.drop s.lh).take s.q3).reverse ++ ((l.drop (s.lh + s.q3)).take s.q4).reverse) 0 = elemAt l (s.q1 - 1) := by
    rw [elemAt_quad_1 _ _ _ _ _ (by omega),
      elemAt_reverse (by rw [List.length_take]; omega),
      show (l.take s.q1).length - 1 - 0 = s.q1 - 1 by
        rw [List.length_take]; omega,
      elemAt_take (by omega)]
  have ed : elemAt ((l.take s.q1).reverse ++ ((l.drop s.q1).take s.q2).reverse ++ ((l.drop s.lh).take s.q3).reverse ++ ((l.drop (s.lh + s.q3)).take s.q4).reverse) (s.lh - 1) = elemAt l s.q1 := by
    rw [elemAt_quad_2 _ _ _ _ _ (by omega) (by omega),
      show s.lh - 1 - ((l.take s.q1).reverse).length = s.q2 - 1 by omega,
      elemAt_reverse (by rw [List.length_take, List.length_drop]; omega),
      show ((l.drop s.q1).take s.q2).length - 1 - (s.q2 - 1) = 0 by
        rw [List.length_take, List.length_drop]; omega,
      elemAt_take (by omega), elemAt_drop,
      show s.q1 + 0 = s.q1 by omega]
  have ee : elemAt ((l.take s.q1).reverse ++ ((l.drop s.q1).take s.q2).reverse ++ ((l.drop s.lh).take s.q3).reverse ++ ((l.drop (s.lh + s.q3)).take s.q4).reverse) (s.lh + s.q3 - 1) = elemAt l s.lh := by
    rw [elemAt_quad_3 _ _ _ _ _ (by omega) (by omega),
      show s.lh + s.q3 - 1 - ((l.take s.q1).reverse).length - (((l.drop s.q1).take s.q2).reverse).length = s.q3 - 1 by
        omega,
      elemAt_reverse (by rw [List.length_take, List.length_drop]; omega),
      show ((l.drop s.lh).take s.q3).length - 1 - (s.q3 - 1) = 0 by
        rw [List.length_take, List.length_drop]; omega,
      elemAt_take (by omega), elemAt_drop,
      show s.lh + 0 = s.lh by omega]
  have ef : elemAt ((l.take s.q1).reverse ++ ((l.drop s.q1).take s.q2).reverse ++ ((l.drop s.lh).take s.q3).reverse ++ ((l.drop (s.lh + s.q3)).take s.q4).reverse) s.lh = elemAt l (s.lh + s.q3 - 1) := by
    rw [elemAt_quad_3 _ _ _ _ _ (by omega) (by omega),
      show s.lh - ((l.take s.q1).reverse).length - (((l.drop s.q1).take s.q2).reverse).length = 0 by omega,
      elemAt_reverse (by rw [List.length_take, List.length_drop]; omega),
      show ((l.drop s.lh).take s.q3).length - 1 - 0 = s.q3 - 1 by
        rw [List.length_take, List.length_drop]; omega,
      elemAt_take (by omega), elemAt_drop,
      show s.lh + (s.q3 - 1) = s.lh + s.q3 - 1 by omega]
  have eg : elemAt ((l.take s.q1).reverse ++ ((l.drop s.q1).take s.q2).reverse ++ ((l.drop s.lh).take s.q3).reverse ++ ((l.drop (s.lh + s.q3)).take s.q4).reverse) (l.length - 1) = elemAt l (s.lh + s.q3) := by
    rw [elemAt_quad_4 _ _ _ _ _ (by omega),
      show l.length - 1 - ((l.take s.q1).reverse).length - (((l.drop s.q1).take s.q2).reverse).length - (((l.drop s.lh).take s.q3).reverse).length =
        s.q4 - 1 by omega,
      elemAt_reverse (by rw [List.length_take, List.length_drop]; omega),
      show ((l.drop (s.lh + s.q3)).take s.q4).length - 1 - (s.q4 - 1) = 0 by
        rw [List.length_take, List.length_drop]; omega,
      elemAt_take (by omega), elemAt_drop,
      show s.lh + s.q3 + 0 = s.lh + s.q3 by omega]
  have f1 : 0 < cmp (elemAt l 0) (elemAt l (s.lh - 1)) :=
    strictDesc_lt_of_lt w hd (s.lh - 1) (by omega) 0 (by omega)
  have f2 : 0 < cmp (elemAt l (s.q1 - 1)) (elemAt l s.q1) := by
    have h := strictDesc_elemAt hd (show s.q1 - 1 + 1 < l.length by omega)
    rw [show s.q1 - 1 + 1 = s.q1 by omega] at h
    exact h
  have f3 : 0 < cmp (elemAt l (s.lh - 1)) (elemAt l s.lh) := by
    have h := strictDesc_elemAt hd (show s.lh - 1 + 1 < l.length by omega)
    rw [show s.lh - 1 + 1 = s.lh by omega] at h
    exact h
  have f4 : 0 < cmp (elemAt l (s.lh + s.q3 - 1)) (elemAt l (s.lh + s.q3)) := by
    have h := strictDesc_elemAt hd
      (show s.lh + s.q3 - 1 + 1 < l.length by omega)
    rw [show s.lh + s.q3 - 1 + 1 = s.lh + s.q3 by omega] at h
    exact h
  refine ⟨?_, ?_, ?_⟩
  · rw [orderedChecks, ea, eb,
      decide_eq_false (show ¬ cmp (elemAt l 0) (elemAt l (s.lh - 1)) ≤ 0 by
        omega),
      Bool.false_and]
  · rw [reversedChecks, ec, ed, eb, ee, ef, eg,
      decide_eq_true f2, decide_eq_true f3, decide_eq_true f4]
    rfl
  · rw [orderedCallCount, ea, eb, if_pos f1]

theorem strictDesc_desc8 : strictDesc natCmp [7, 6, 5, 4, 3, 2, 1, 0] := by
  simp [strictDesc, List.chain'_cons, List.chain'_singleton, natCmp]

theorem fwdRun_cursors (cmp : A → A → Int) (src : Nat → A) :
    ∀ (k il ir : Nat),
      il ≤ (fwdRun cmp src k il ir).2.1 ∧
      ir ≤ (fwdRun cmp src k il ir).2.2 ∧
      (fwdRun cmp src k il ir).2.1 + (fwdRun cmp src k il ir).2.2 =
        il + ir + k := by
  intro k
  induction k with
  | zero =>
    intro il ir
    simp [fwdRun]
  | succ k ih =>
    intro il ir
    by_cases hc : cmp (src il) (src ir) ≤ 0
    · rw [fwdRun_succ_pos hc]
      dsimp only
      have h := ih (il + 1) ir
      omega
    · rw [fwdRun_succ_neg hc]
      dsimp only
      have h := ih il (ir + 1)
      omega

theorem bwdRun_cursors (cmp : A → A → Int) (src : Nat → A) :
    ∀ (k jl jr : Nat),
      (bwdRun cmp src k jl jr).2.1 ≤ jl ∧
      (bwdRun cmp src k jl jr).2.2 ≤ jr := by
  intro k
  induction k with
  | zero =>
    intro jl jr
    simp [bwdRun]
  | succ k ih =>
    intro jl jr
    by_cases hc : 0 < cmp (src jl) (src jr)
    · rw [bwdRun_succ_pos hc]
      dsimp only
      have h := ih (jl - 1) jr
      omega
    · rw [bwdRun_succ_neg hc]
      dsimp only
      have h := ih jl (jr - 1)
      omega

theorem fwdRun_mem (cmp : A → A → Int) (src : Nat → A) :
    ∀ (k il ir : Nat) (x : A), x ∈ (fwdRun cmp src k il ir).1 →
      ∃ j, (il ≤ j ∧ j < il + k ∨ ir ≤ j ∧ j < ir + k) ∧ x = src j := by
  intro k
  induction k with
  | zero =>
    intro il ir x hx
    simp [fwdRun] at hx
  | succ k ih =>
    intro il ir x hx
    by_cases hc : cmp (src il) (src ir) ≤ 0
    · rw [fwdRun_succ_pos hc] at hx
      rcases List.mem_cons.mp hx with rfl | hx'
      · exact ⟨il, by omega, rfl⟩
      · obtain ⟨j, hj, hxj⟩ := ih (il + 1) ir x hx'
        exact ⟨j, by omega, hxj⟩
    · rw [fwdRun_succ_neg hc] at hx
      rcases List.mem_cons.mp hx with rfl | hx'
      · exact ⟨ir, by omega, rfl⟩
      · obtain ⟨j, hj, hxj⟩ := ih il (ir + 1) x hx'
        exact ⟨j, by omega, hxj⟩

theorem bwdRun_mem (cmp : A → A → Int) (src : Nat → A) :
    ∀ (k jl jr : Nat) (x : A), x ∈ (bwdRun cmp src k jl jr).1 →
      ∃ j, (j ≤ jl ∨ j ≤ jr) ∧ x = src j := by
  intro k
  induction k with
  | zero =>
    intro jl jr x hx
    simp [bwdRun] at hx
  | succ k ih =>
    intro jl jr x hx
    by_cases hc : 0 < cmp (src jl) (src jr)
    · rw [bwdRun_succ_pos hc] at hx
      rcases List.mem_cons.mp hx with rfl | hx'
      · exact ⟨jl, by omega, rfl⟩
      · obtain ⟨j, hj, hxj⟩ := ih (jl - 1) jr x hx'
        exact ⟨j, by omega, hxj⟩
    · rw [bwdRun_succ_neg hc] at hx
      rcases List.mem_cons.mp hx with rfl | hx'
      · exact ⟨jr, by omega, rfl⟩
      · obtain ⟨j, hj, hxj⟩ := ih jl (jr - 1) x hx'
        exact ⟨j, by omega, hxj⟩

theorem parity_merge_mem (cmp : A → A → Int) (src : Nat → A)
    (left right : Nat) (hL : 1 ≤ left) (hLR : left ≤ right)
    (hRL : right ≤ left + 1) :
    ∀ x ∈ parity_merge_ctx cmp src left right,
      ∃ j, j < left + right ∧ x = src j := by
  intro x hx
  rw [parity_merge_ctx] at hx
  simp only [List.mem_append, List.mem_reverse] at hx
  have hhead := fwdRun_cursors cmp src 1 0 left
  by_cases hlr : left < right
  · rw [if_pos hlr] at hx
    obtain ⟨hh1, hh2, hh3⟩ := hhead
    have hfwd := fwdRun_cursors cmp src (left - 1)
      (fwdRun cmp src 1 0 left).2.1 (fwdRun cmp src 1 0 left).2.2
    have hbwd := bwdRun_cursors cmp src (left - 1) (left - 1)
      (left + right - 1)
    rcases hx with ((hx | hx) | hx) | (hx | hx)
    · obtain ⟨j, hj, hxj⟩ := fwdRun_mem cmp src 1 0 left x hx
      exact ⟨j, by omega, hxj⟩
    · obtain ⟨j, hj, hxj⟩ := fwdRun_mem cmp src (left - 1) _ _ x hx
      exact ⟨j, by omega, hxj⟩
    · obtain ⟨j, hj, hxj⟩ := fwdRun_mem cmp src 1 _ _ x hx
      exact ⟨j, by omega, hxj⟩
    · obtain ⟨j, hj, hxj⟩ := bwdRun_mem cmp src (left - 1) _ _ x hx
      exact ⟨j, by omega, hxj⟩
    · obtain ⟨j, hj, hxj⟩ := bwdRun_mem cmp src 1 _ _ x hx
      exact ⟨j, by omega, hxj⟩
  · rw [if_neg hlr] at hx
    dsimp only at hx
    have hfwd := fwdRun_cursors cmp src (left - 1) 0 left
    have hbwd := bwdRun_cursors cmp src (left - 1) (left - 1)
      (left + right - 1)
    rcases hx with ((hx | hx) | hx) | (hx | hx)
    · simp at hx
    · obtain ⟨j, hj, hxj⟩ := fwdRun_mem cmp src (left - 1) 0 left x hx
      exact ⟨j, by omega, hxj⟩
    · obtain ⟨j, hj, hxj⟩ := fwdRun_mem cmp src 1 _ _ x hx
      exact ⟨j, by omega, hxj⟩
    · obtain ⟨j, hj, hxj⟩ := bwdRun_mem cmp src (left - 1) _ _ x hx
      exact ⟨j, by omega, hxj⟩
    · obtain ⟨j, hj, hxj⟩ := bwdRun_mem cmp src 1 _ _ x hx
      exact ⟨j, by omega, hxj⟩

theorem elemAt_mem [Inhabited A] {l : List A} {i : Nat} (h : i < l.length) :
    elemAt l i ∈ l := by
  rw [elemAt, List.getD_eq_getElem _ _ h]
  exact List.getElem_mem h

theorem rotate_perm (l : List A) (left right : Nat) :
    (rotate l left right).Perm l := by
  rw [rotate]
  have h1 : ((l.take (left + right)).drop left ++
      (l.take (left + right)).take left).Perm (l.take (left + right)) :=
    List.perm_append_comm.trans (by rw [List.take_append_drop])
  refine List.Perm.trans
    (List.Perm.append h1 (List.Perm.refl (l.drop (left + right)))) ?_
  rw [List.take_append_drop]

theorem rotatedResult_perm (d : List A) (s : segment_t) :
    (rotatedResult d s).Perm d := by
  rw [rotatedResult]
  exact (rotate_perm _ _ _).trans ((rotate_perm _ _ _).trans (rotate_perm _ _ _))

theorem mergedResult_len_mem [Inhabited A] (cmp : A → A → Int) (d : List A)
    (s : segment_t)
    (hq1 : 1 ≤ s.q1) (hq12 : s.q1 ≤ s.q2) (hq21 : s.q2 ≤ s.q1 + 1)
    (hq3 : 1 ≤ s.q3) (hq34 : s.q3 ≤ s.q4) (hq43 : s.q4 ≤ s.q3 + 1)
    (hlr : s.lh ≤ s.rh) (hrl : s.rh ≤ s.lh + 1)
    (hlh : s.lh = s.q1 + s.q2) (hrh : s.rh = s.q3 + s.q4)
    (hlen : d.length = s.lh + s.rh) :
    (mergedResult cmp d s).length = d.length ∧
    ∀ x ∈ mergedResult cmp d s, x ∈ d := by
  have hs1len : (parity_merge_ctx cmp (srcOf (d.take s.lh)) s.q1 s.q2).length
      = s.lh := by
    rw [parity_merge_length cmp _ s.q1 s.q2 hq1]
    split <;> omega
  have hs2len : (parity_merge_ctx cmp (srcOf (d.drop s.lh)) s.q3 s.q4).length
      = s.rh := by
    rw [parity_merge_length cmp _ s.q3 s.q4 hq3]
    split <;> omega
  have hmem : ∀ x ∈ mergedResult cmp d s, x ∈ d := by
    intro x hx
    simp only [mergedResult] at hx
    obtain ⟨j, hj, hxj⟩ := parity_merge_mem cmp _ s.lh s.rh (by omega)
      hlr hrl x hx
    subst hxj
    have hjlen : j < (parity_merge_ctx cmp (srcOf (d.take s.lh)) s.q1 s.q2 ++
        parity_merge_ctx cmp (srcOf (d.drop s.lh)) s.q3 s.q4).length := by
      rw [List.length_append, hs1len, hs2len]
      omega
    have hmem2 : srcOf (parity_merge_ctx cmp (srcOf (d.take s.lh)) s.q1 s.q2
        ++ parity_merge_ctx cmp (srcOf (d.drop s.lh)) s.q3 s.q4) j ∈
        parity_merge_ctx cmp (srcOf (d.take s.lh)) s.q1 s.q2 ++
        parity_merge_ctx cmp (srcOf (d.drop s.lh)) s.q3 s.q4 :=
      elemAt_mem hjlen
    rcases List.mem_append.mp hmem2 with hm | hm
    · obtain ⟨j2, hj2, hxj2⟩ := parity_merge_mem cmp _ s.q1 s.q2 hq1
        hq12 hq21 _ hm
      rw [hxj2]
      have hj2' : j2 < (d.take s.lh).length := by
        rw [List.length_take]
        omega
      exact List.mem_of_mem_take (elemAt_mem hj2')
    · obtain ⟨j2, hj2, hxj2⟩ := parity_merge_mem cmp _ s.q3 s.q4 hq3
        hq34 hq43 _ hm
      rw [hxj2]
      have hj2' : j2 < (d.drop s.lh).length := by
        rw [List.length_drop]
        omega
      exact List.mem_of_mem_drop (elemAt_mem hj2')
  refine ⟨?_, hmem⟩
  have : (mergedResult cmp d s).length = s.lh + s.rh := by
    simp only [mergedResult]
    rw [parity_merge_length cmp _ s.lh s.rh (by omega)]
    split <;> omega
  omega

theorem mergeDecision_len_mem [Inhabited A] (cmp : A → A → Int) (n : Nat)
    (d : List A) (s : segment_t)
    (hq1 : 1 ≤ s.q1) (hq12 : s.q1 ≤ s.q2) (hq21 : s.q2 ≤ s.q1 + 1)
    (hq3 : 1 ≤ s.q3) (hq34 : s.q3 ≤ s.q4) (hq43 : s.q4 ≤ s.q3 + 1)
    (hlr : s.lh ≤ s.rh) (hrl : s.rh ≤ s.lh + 1)
    (hlh : s.lh = s.q1 + s.q2) (hrh : s.rh = s.q3 + s.q4)
    (hlen : d.length = s.lh + s.rh) :
    (mergeDecision cmp n d s).length = d.length ∧
    ∀ x ∈ mergeDecision cmp n d s, x ∈ d := by
  rw [mergeDecision]
  by_cases hord : orderedChecks cmp d s = true
  · rw [if_pos hord]
    exact ⟨rfl, fun x hx => hx⟩
  · rw [if_neg hord]
    by_cases hrev : reversedChecks cmp n d s = true
    · rw [if_pos hrev]
      exact ⟨(rotatedResult_perm d s).length_eq,
        fun x hx => (rotatedResult_perm d s).mem_iff.mp hx⟩
    · rw [if_neg hrev]
      exact mergedResult_len_mem cmp d s hq1 hq12 hq21 hq3 hq34 hq43
        hlr hrl hlh hrh hlen

theorem xsortFuel_len_mem [Inhabited A] (cmp : A → A → Int) :
    ∀ (fuel : Nat) (l : List A),
      (xsortFuel cmp fuel l).length = l.length ∧
      ∀ x ∈ xsortFuel cmp fuel l, x ∈ l := by
  intro fuel
  induction fuel with
  | zero =>
    intro l
    exact ⟨rfl, fun x hx => hx⟩
  | succ fuel ih =>
    intro l
    rw [xsortFuel_succ]
    by_cases hsmall : l.length ≤ 7
    · rw [if_pos hsmall]
      exact ⟨oddeven_length cmp l,
        fun x hx => (oddeven_perm cmp l).mem_iff.mp hx⟩
    · rw [if_neg hsmall]
      have h8 : 8 ≤ l.length := by omega
      obtain ⟨pf1, pf2, pf3, pf4, pf5, pf6, pf7, pf8, pf9, pf10, pf11, pf12⟩ :=
        partition_facts l.length h8
      obtain ⟨hl1, hm1⟩ := ih (l.take (partition_array l.length).q1)
      obtain ⟨hl2, hm2⟩ := ih
        ((l.drop (partition_array l.length).q1).take
          (partition_array l.length).q2)
      obtain ⟨hl3, hm3⟩ := ih
        ((l.drop (partition_array l.length).lh).take
          (partition_array l.length).q3)
      obtain ⟨hl4, hm4⟩ := ih
        ((l.drop ((partition_array l.length).lh +
          (partition_array l.length).q3)).take (partition_array l.length).q4)
      have hd := mergeDecision_len_mem cmp l.length
        (xsortFuel cmp fuel (l.take (partition_array l.length).q1) ++
         xsortFuel cmp fuel ((l.drop (partition_array l.length).q1).take
           (partition_array l.length).q2) ++
         xsortFuel cmp fuel ((l.drop (partition_array l.length).lh).take
           (partition_array l.length).q3) ++
         xsortFuel cmp fuel ((l.drop ((partition_array l.length).lh +
           (partition_array l.length).q3)).take
             (partition_array l.length).q4))
        (partition_array l.length)
        (by omega) pf2 pf3 (by omega) pf5 pf6 pf8 pf9 pf10 pf11
        (by
          simp only [List.length_append, hl1, hl2, hl3, hl4,
            List.length_take, List.length_drop]
          omega)
      refine ⟨?_, ?_⟩
      · rw [hd.1]
        simp only [List.length_append, hl1, hl2, hl3, hl4,
          List.length_take, List.length_drop]
        omega
      · intro x hx
        have hx2 := hd.2 x hx
        simp only [List.mem_append] at hx2
        rcases hx2 with ((hx2 | hx2) | hx2) | hx2
        · exact List.mem_of_mem_take (hm1 x hx2)
        · exact List.mem_of_mem_drop (List.mem_of_mem_take (hm2 x hx2))
        · exact List.mem_of_mem_drop (List.mem_of_mem_take (hm3 x hx2))
        · exact List.mem_of_mem_drop (List.mem_of_mem_take (hm4 x hx2))

theorem fwdRun_congr {cmp : A → A → Int} {src src' : Nat → A} {N : Nat}
    (h : ∀ j, j < N → src j = src' j) :
    ∀ (k il ir : Nat), il + k ≤ N → ir + k ≤ N →
      fwdRun cmp src k il ir = fwdRun cmp src' k il ir := by
  intro k
  induction k with
  | zero =>
    intro il ir _ _
    rfl
  | succ k ih =>
    intro il ir hil hir
    have el : src il = src' il := h il (by omega)
    have er : src ir = src' ir := h ir (by omega)
    by_cases hc : cmp (src il) (src ir) ≤ 0
    · rw [fwdRun_succ_pos hc, el,
        fwdRun_succ_pos (by rw [← el, ← er]; exact hc),
        ih (il + 1) ir (by omega) (by omega)]
    · rw [fwdRun_succ_neg hc, er,
        fwdRun_succ_neg (by rw [← el, ← er]; exact hc),
        ih il (ir + 1) (by omega) (by omega)]

theorem bwdRun_congr {cmp : A → A → Int} {src src' : Nat → A} {N : Nat}
    (h : ∀ j, j < N → src j = src' j) :
    ∀ (k jl jr : Nat), jl < N → jr < N →
      bwdRun cmp src k jl jr = bwdRun cmp src' k jl jr := by
  intro k
  induction k with
  | zero =>
    intro jl jr _ _
    rfl
  | succ k ih =>
    intro jl jr hjl hjr
    have el : src jl = src' jl := h jl (by omega)
    have er : src jr = src' jr := h jr (by omega)
    by_cases hc : 0 < cmp (src jl) (src jr)
    · rw [bwdRun_succ_pos hc, el,
        bwdRun_succ_pos (by rw [← el, ← er]; exact hc),
        ih (jl - 1) jr (by omega) (by omega)]
    · rw [bwdRun_succ_neg hc, er,
        bwdRun_succ_neg (by rw [← el, ← er]; exact hc),
        ih jl (jr - 1) (by omega) (by omega)]

theorem parity_merge_ctx_congr (cmp : A → A → Int) (src src' : Nat → A)
    (left right : Nat) (hL : 1 ≤ left) (hLR : left ≤ right)
    (hRL : right ≤ left + 1)
    (h : ∀ j, j < left + right → src j = src' j) :
    parity_merge_ctx cmp src left right =
      parity_merge_ctx cmp src' left right := by
  by_cases hlr : left < right
  · simp only [parity_merge_ctx, if_pos hlr]
    have e0 : fwdRun cmp src 1 0 left = fwdRun cmp src' 1 0 left :=
      fwdRun_congr h 1 0 left (by omega) (by omega)
    rw [e0]
    obtain ⟨c1, c2, c3⟩ := fwdRun_cursors cmp src' 1 0 left
    have e1 : fwdRun cmp src (left - 1) (fwdRun cmp src' 1 0 left).2.1
        (fwdRun cmp src' 1 0 left).2.2 =
        fwdRun cmp src' (left - 1) (fwdRun cmp src' 1 0 left).2.1
        (fwdRun cmp src' 1 0 left).2.2 :=
      fwdRun_congr h (left - 1) _ _ (by omega) (by omega)
    rw [e1]
    obtain ⟨d1, d2, d3⟩ := fwdRun_cursors cmp src' (left - 1)
      (fwdRun cmp src' 1 0 left).2.1 (fwdRun cmp src' 1 0 left).2.2
    have e2 : bwdRun cmp src (left - 1) (left - 1) (left + right - 1) =
        bwdRun cmp src' (left - 1) (left - 1) (left + right - 1) :=
      bwdRun_congr h (left - 1) _ _ (by omega) (by omega)
    rw [e2]
    obtain ⟨b1, b2⟩ := bwdRun_cursors cmp src' (left - 1) (left - 1)
      (left + right - 1)
    have e3 : bwdRun cmp src 1
        (bwdRun cmp src' (left - 1) (left - 1) (left + right - 1)).2.1
        (bwdRun cmp src' (left - 1) (left - 1) (left + right - 1)).2.2 =
        bwdRun cmp src' 1
        (bwdRun cmp src' (left - 1) (left - 1) (left + right - 1)).2.1
        (bwdRun cmp src' (left - 1) (left - 1) (left + right - 1)).2.2 :=
      bwdRun_congr h 1 _ _ (by omega) (by omega)
    rw [e3]
    have e4 : fwdRun cmp src 1
        (fwdRun cmp src' (left - 1) (fwdRun cmp src' 1 0 left).2.1
          (fwdRun cmp src' 1 0 left).2.2).2.1
        (fwdRun cmp src' (left - 1) (fwdRun cmp src' 1 0 left).2.1
          (fwdRun cmp src' 1 0 left).2.2).2.2 =
        fwdRun cmp src' 1
        (fwdRun cmp src' (left - 1) (fwdRun cmp src' 1 0 left).2.1
          (fwdRun cmp src' 1 0 left).2.2).2.1
        (fwdRun cmp src' (left - 1) (fwdRun cmp src' 1 0 left).2.1
          (fwdRun cmp src' 1 0 left).2.2).2.2 :=
      fwdRun_congr h 1 _ _ (by omega) (by omega)
    rw [e4]
  · simp only [parity_merge_ctx, if_neg hlr]
    have e1 : fwdRun cmp src (left - 1) 0 left =
        fwdRun cmp src' (left - 1) 0 left :=
      fwdRun_congr h (left - 1) _ _ (by omega) (by omega)
    rw [e1]
    obtain ⟨d1, d2, d3⟩ := fwdRun_cursors cmp src' (left - 1) 0 left
    have e2 : bwdRun cmp src (left - 1) (left - 1) (left + right - 1) =
        bwdRun cmp src' (left - 1) (left - 1) (left + right - 1) :=
      bwdRun_congr h (left - 1) _ _ (by omega) (by omega)
    rw [e2]
    obtain ⟨b1, b2⟩ := bwdRun_cursors cmp src' (left - 1) (left - 1)
      (left + right - 1)
    have e3 : bwdRun cmp src 1
        (bwdRun cmp src' (left - 1) (left - 1) (left + right - 1)).2.1
        (bwdRun cmp src' (left - 1) (left - 1) (left + right - 1)).2.2 =
        bwdRun cmp src' 1
        (bwdRun cmp src' (left - 1) (left - 1) (left + right - 1)).2.1
        (bwdRun cmp src' (left - 1) (left - 1) (left + right - 1)).2.2 :=
      bwdRun_congr h 1 _ _ (by omega) (by omega)
    rw [e3]
    have e4 : fwdRun cmp src 1
        (fwdRun cmp src' (left - 1) 0 left).2.1
        (fwdRun cmp src' (left - 1) 0 left).2.2 =
        fwdRun cmp src' 1
        (fwdRun cmp src' (left - 1) 0 left).2.1
        (fwdRun cmp src' (left - 1) 0 left).2.2 :=
      fwdRun_congr h 1 _ _ (by omega) (by omega)
    rw [e4]

theorem zero_trans {cmp : A → A → Int} (w : IsWeakOrder cmp) (a b c : A)
    (h1 : cmp a b = 0) (h2 : cmp b c = 0) : cmp a c = 0 := by
  have hle : cmp a c ≤ 0 := w.le_trans a b c (by omega) (by omega)
  have h1' := w.zero_symm a b h1
  have h2' := w.zero_symm b c h2
  have hge : cmp c a ≤ 0 := w.le_trans c b a (by omega) (by omega)
  rcases lt_trichotomy (cmp a c) 0 with hlt | he | hgt
  · have := (w.sign c a).mpr hlt
    omega
  · exact he
  · omega

theorem liftCmp_isWeakOrder {cmp : A → A → Int} (w : IsWeakOrder cmp) :
    IsWeakOrder (liftCmp cmp) := by
  constructor
  · intro a
    exact w.refl a.1
  · intro a b
    exact w.sign a.1 b.1
  · intro a b c
    exact w.le_trans a.1 b.1 c.1

theorem mem_elemAt [Inhabited A] {l : List A} {x : A} (h : x ∈ l) :
    ∃ i, i < l.length ∧ x = elemAt l i := by
  obtain ⟨i, hi, he⟩ := List.mem_iff_getElem.mp h
  refine ⟨i, hi, ?_⟩
  rw [elemAt, List.getD_eq_getElem l default hi, he]

theorem tie_blocks_absurd [Inhabited A] {cmp : A → A → Int}
    (w : IsWeakOrder cmp) (p : A → Bool)
    (hp : ∀ x y, p x = true → p y = true → cmp x y = 0)
    {X Y : List A} (hsX : sortedLe cmp X) (hsY : sortedLe cmp Y)
    (hb : 0 < cmp (elemAt X 0) (elemAt Y (Y.length - 1))) :
    X.filter p = [] ∨ Y.filter p = [] := by
  by_contra hcon
  push_neg at hcon
  obtain ⟨hne1, hne2⟩ := hcon
  obtain ⟨x, hx⟩ := List.exists_mem_of_ne_nil _ hne1
  obtain ⟨y, hy⟩ := List.exists_mem_of_ne_nil _ hne2
  rw [List.mem_filter] at hx hy
  have hzero : cmp x y = 0 := hp x y hx.2 hy.2
  obtain ⟨i, hi, hxe⟩ := mem_elemAt hx.1
  obtain ⟨j, hj, hye⟩ := mem_elemAt hy.1
  have h1 : cmp (elemAt X 0) (elemAt X i) ≤ 0 :=
    sortedLe_le_of_le w hsX i hi 0 (by omega)
  have h2 : cmp (elemAt Y j) (elemAt Y (Y.length - 1)) ≤ 0 :=
    sortedLe_le_of_le w hsY (Y.length - 1) (by omega) j (by omega)
  rw [← hxe] at h1
  rw [← hye] at h2
  have h3 : cmp (elemAt X 0) y ≤ 0 := w.le_trans _ x y h1 (by omega)
  have h4 : cmp (elemAt X 0) (elemAt Y (Y.length - 1)) ≤ 0 :=
    w.le_trans _ y _ h3 h2
  omega

theorem reversed_blocks_filter [Inhabited A] {cmp : A → A → Int}
    (w : IsWeakOrder cmp) (p : A → Bool)
    (hp : ∀ x y, p x = true → p y = true → cmp x y = 0)
    (B1 B2 B3 B4 : List A) (s : segment_t) (n : Nat)
    (hs1 : sortedLe cmp B1) (hs2 : sortedLe cmp B2)
    (hs3 : sortedLe cmp B3) (hs4 : sortedLe cmp B4)
    (hl1 : B1.length = s.q1) (hl2 : B2.length = s.q2)
    (hl3 : B3.length = s.q3) (hl4 : B4.length = s.q4)
    (hq1 : 1 ≤ s.q1) (hq2 : 1 ≤ s.q2) (hq3 : 1 ≤ s.q3) (hq4 : 1 ≤ s.q4)
    (hlh : s.lh = s.q1 + s.q2) (hrh : s.rh = s.q3 + s.q4)
    (hn : n = s.lh + s.rh)
    (hrev : reversedChecks cmp n (B1 ++ B2 ++ B3 ++ B4) s = true) :
    (B4 ++ B3 ++ B2 ++ B1).filter p = (B1 ++ B2 ++ B3 ++ B4).filter p := by
  rw [reversedChecks, Bool.and_eq_true, Bool.and_eq_true,
    decide_eq_true_eq, decide_eq_true_eq, decide_eq_true_eq] at hrev
  obtain ⟨hc1, hc2, hc3⟩ := hrev
  rw [elemAt_quad_1 _ _ _ _ _ (by omega),
    elemAt_quad_2 _ _ _ _ _ (by omega) (by omega)] at hc1
  rw [show s.lh - 1 - B1.length = B2.length - 1 by omega] at hc1
  rw [elemAt_quad_2 _ _ _ _ _ (by omega) (by omega),
    elemAt_quad_3 _ _ _ _ _ (by omega) (by omega)] at hc2
  rw [show s.q1 - B1.length = 0 by omega,
    show s.lh + s.q3 - 1 - B1.length - B2.length = B3.length - 1 by
      omega] at hc2
  rw [elemAt_quad_3 _ _ _ _ _ (by omega) (by omega),
    elemAt_quad_4 _ _ _ _ _ (by omega)] at hc3
  rw [show s.lh - B1.length - B2.length = 0 by omega,
    show n - 1 - B1.length - B2.length - B3.length = B4.length - 1 by
      omega] at hc3
  have hm2 : cmp (elemAt B2 0) (elemAt B2 (B2.length - 1)) ≤ 0 :=
    sortedLe_le_of_le w hs2 (B2.length - 1) (by omega) 0 (by omega)
  have hm3 : cmp (elemAt B3 0) (elemAt B3 (B3.length - 1)) ≤ 0 :=
    sortedLe_le_of_le w hs3 (B3.length - 1) (by omega) 0 (by omega)
  have hb13 : 0 < cmp (elemAt B1 0) (elemAt B3 (B3.length - 1)) := by
    have s1 := (w.sign _ _).mp hc1
    have s2 := (w.sign _ _).mp hc2
    have t1 := w.trans_lt_le _ _ _ s2 hm2
    have t2 := w.trans_lt_le _ _ _ t1 (le_of_lt s1)
    exact (w.sign _ _).mpr t2
  have hb24 : 0 < cmp (elemAt B2 0) (elemAt B4 (B4.length - 1)) := by
    have s2 := (w.sign _ _).mp hc2
    have s3 := (w.sign _ _).mp hc3
    have t1 := w.trans_lt_le _ _ _ s3 hm3
    have t2 := w.trans_lt_le _ _ _ t1 (le_of_lt s2)
    exact (w.sign _ _).mpr t2
  have hb14 : 0 < cmp (elemAt B1 0) (elemAt B4 (B4.length - 1)) := by
    have s13 := (w.sign _ _).mp hb13
    have s3 := (w.sign _ _).mp hc3
    have t1 := w.trans_lt_le _ _ _ s3 hm3
    have t2 := w.trans_lt_le _ _ _ t1 (le_of_lt s13)
    exact (w.sign _ _).mpr t2
  have h12 := tie_blocks_absurd w p hp hs1 hs2 hc1
  have h23 := tie_blocks_absurd w p hp hs2 hs3 hc2
  have h34 := tie_blocks_absurd w p hp hs3 hs4 hc3
  have h13 := tie_blocks_absurd w p hp hs1 hs3 hb13
  have h24 := tie_blocks_absurd w p hp hs2 hs4 hb24
  have h14 := tie_blocks_absurd w p hp hs1 hs4 hb14
  simp only [List.filter_append]
  by_cases e1 : B1.filter p = []
  · by_cases e2 : B2.filter p = []
    · by_cases e3 : B3.filter p = []
      · simp [e1, e2, e3]
      · have e4 : B4.filter p = [] := h34.resolve_left e3
        simp [e1, e2, e4]
    · have e3 : B3.filter p = [] := h23.resolve_left e2
      have e4 : B4.filter p = [] := h24.resolve_left e2
      simp [e1, e3, e4]
  · have e2 : B2.filter p = [] := h12.resolve_left e1
    have e3 : B3.filter p = [] := h13.resolve_left e1
    have e4 : B4.filter p = [] := h14.resolve_left e1
    simp [e2, e3, e4]

theorem mergeDecision_filter [Inhabited A] {cmp : A → A → Int}
    (w : IsWeakOrder cmp) (p : A → Bool)
    (hp : ∀ x y, p x = true → p y = true → cmp x y = 0)
    (B1 B2 B3 B4 : List A) (s : segment_t) (n : Nat)
    (hs1 : sortedLe cmp B1) (hs2 : sortedLe cmp B2)
    (hs3 : sortedLe cmp B3) (hs4 : sortedLe cmp B4)
    (hl1 : B1.length = s.q1) (hl2 : B2.length = s.q2)
    (hl3 : B3.length = s.q3) (hl4 : B4.length = s.q4)
    (hq1 : 1 ≤ s.q1) (hq12 : s.q1 ≤ s.q2) (hq21 : s.q2 ≤ s.q1 + 1)
    (hq3 : 1 ≤ s.q3) (hq34 : s.q3 ≤ s.q4) (hq43 : s.q4 ≤ s.q3 + 1)
    (hlr : s.lh ≤ s.rh) (hrl : s.rh ≤ s.lh + 1)
    (hlh : s.lh = s.q1 + s.q2) (hrh : s.rh = s.q3 + s.q4)
    (hn : n = s.lh + s.rh) :
    (mergeDecision cmp n (B1 ++ B2 ++ B3 ++ B4) s).filter p =
      (B1 ++ B2 ++ B3 ++ B4).filter p := by
  rw [mergeDecision]
  by_cases hord : orderedChecks cmp (B1 ++ B2 ++ B3 ++ B4) s = true
  · rw [if_pos hord]
  · rw [if_neg hord]
    by_cases hrev : reversedChecks cmp n (B1 ++ B2 ++ B3 ++ B4) s = true
    · rw [if_pos hrev,
        rotatedResult_blocks B1 B2 B3 B4 s hl1 hl2 hl3 hl4 hrh]
      exact reversed_blocks_filter w p hp B1 B2 B3 B4 s n hs1 hs2 hs3 hs4
        hl1 hl2 hl3 hl4 (by omega) (by omega) (by omega) (by omega)
        hlh hrh hn hrev
    · rw [if_neg hrev, mergedResult_eq w B1 B2 B3 B4 s hs1 hs2 hs3 hs4
        hl1 hl2 hl3 hl4 hq1 hq12 hq21 hq3 hq34 hq43 hlr hrl hlh hrh]
      rw [smerge_filter w p hp
        ((smerge cmp B1 B2).length + (smerge cmp B3 B4).length)
        (smerge cmp B1 B2) (smerge cmp B3 B4) (le_refl _)
        (smerge_sorted w hs1 hs2) (smerge_sorted w hs3 hs4)]
      rw [smerge_filter w p hp (B1.length + B2.length) B1 B2 (le_refl _)
        hs1 hs2,
        smerge_filter w p hp (B3.length + B4.length) B3 B4 (le_refl _)
        hs3 hs4]
      simp [List.filter_append, List.append_assoc]

theorem xsortFuel_filter [Inhabited A] {cmp : A → A → Int}
    (w : IsWeakOrder cmp) (p : A → Bool)
    (hp : ∀ x y, p x = true → p y = true → cmp x y = 0) :
    ∀ (fuel : Nat) (l : List A), l.length ≤ fuel →
      (xsortFuel cmp fuel l).filter p = l.filter p := by
  intro fuel
  induction fuel with
  | zero =>
    intro l h
    rfl
  | succ fuel ih =>
    intro l hlen
    rw [xsortFuel_succ]
    by_cases hsmall : l.length ≤ 7
    · rw [if_pos hsmall]
      exact oddeven_filter p hp l
    · rw [if_neg hsmall]
      have h8 : 8 ≤ l.length := by omega
      obtain ⟨pf1, pf2, pf3, pf4, pf5, pf6, pf7, pf8, pf9, pf10, pf11, pf12⟩ :=
        partition_facts l.length h8
      have hL1 : (l.take (partition_array l.length).q1).length = (partition_array l.length).q1 := by
        simp
        omega
      have hL2 : ((l.drop (partition_array l.length).q1).take (partition_array l.length).q2).length = (partition_array l.length).q2 := by
        simp
        omega
      have hL3 : ((l.drop (partition_array l.length).lh).take (partition_array l.length).q3).length = (partition_array l.length).q3 := by
        simp
        omega
      have hL4 : ((l.drop ((partition_array l.length).lh + (partition_array l.length).q3)).take (partition_array l.length).q4).length = (partition_array l.length).q4 := by
        simp
        omega
      obtain ⟨hs1, hp1⟩ := xsortFuel_sorted_perm w fuel (l.take (partition_array l.length).q1) (by simp; omega)
      obtain ⟨hs2, hp2⟩ := xsortFuel_sorted_perm w fuel ((l.drop (partition_array l.length).q1).take (partition_array l.length).q2) (by simp; omega)
      obtain ⟨hs3, hp3⟩ := xsortFuel_sorted_perm w fuel ((l.drop (partition_array l.length).lh).take (partition_array l.length).q3) (by simp; omega)
      obtain ⟨hs4, hp4⟩ := xsortFuel_sorted_perm w fuel ((l.drop ((partition_array l.length).lh + (partition_array l.length).q3)).take (partition_array l.length).q4) (by simp; omega)
      rw [mergeDecision_filter w p hp
        (xsortFuel cmp fuel (l.take (partition_array l.length).q1)) (xsortFuel cmp fuel ((l.drop (partition_array l.length).q1).take (partition_array l.length).q2))
        (xsortFuel cmp fuel ((l.drop (partition_array l.length).lh).take (partition_array l.length).q3)) (xsortFuel cmp fuel ((l.drop ((partition_array l.length).lh + (partition_array l.length).q3)).take (partition_array l.length).q4))
        (partition_array l.length) l.length hs1 hs2 hs3 hs4
        (hp1.length_eq.trans hL1) (hp2.length_eq.trans hL2)
        (hp3.length_eq.trans hL3) (hp4.length_eq.trans hL4)
        (by omega) pf2 pf3 (by omega) pf5 pf6 pf8 pf9 pf10 pf11 (by omega)]
      simp only [List.filter_append]
      rw [ih (l.take (partition_array l.length).q1) (by simp; omega), ih ((l.drop (partition_array l.length).q1).take (partition_array l.length).q2) (by simp; omega),
        ih ((l.drop (partition_array l.length).lh).take (partition_array l.length).q3) (by simp; omega), ih ((l.drop ((partition_array l.length).lh + (partition_array l.length).q3)).take (partition_array l.length).q4) (by simp; omega)]
      have hquad : (l.take (partition_array l.length).q1) ++ ((l.drop (partition_array l.length).q1).take (partition_array l.length).q2) ++ ((l.drop (partition_array l.length).lh).take (partition_array l.length).q3) ++ ((l.drop ((partition_array l.length).lh + (partition_array l.length).q3)).take (partition_array l.length).q4) = l := by
        rw [pf10,
          show (l.drop ((partition_array l.length).q1 + (partition_array l.length).q2 + (partition_array l.length).q3)).take (partition_array l.length).q4 =
            l.drop ((partition_array l.length).q1 + (partition_array l.length).q2 + (partition_array l.length).q3) from
            List.take_of_length_le (by simp; omega)]
        exact (quad_split l (partition_array l.length).q1 (partition_array l.length).q2 (partition_array l.length).q3).symm
      conv_rhs => rw [← hquad]
      simp [List.filter_append]

/-- C4 counterexample: for the odd run length 5 the extra element goes to
the right half (`lh = 2`, `rh = 3`), not to the first half as the claim
states. -/
theorem c4_counterexample :
    (partition_array 5).lh = 2 ∧ (partition_array 5).rh = 3 ∧
      ¬ ((partition_array 5).rh ≤ (partition_array 5).lh) := by
  decide

/-- C4 (amended): the segment descriptor satisfies `lh = q1 + q2`,
`rh = q3 + q4`, `lh + rh = n`, halves and quarters differ in size by at
most one, and when a length is odd the extra element is assigned to the
second half (respectively the second quarter). -/
theorem c4_partition_segments (n : Nat) :
    (partition_array n).lh = (partition_array n).q1 + (partition_array n).q2 ∧
    (partition_array n).rh = (partition_array n).q3 + (partition_array n).q4 ∧
    (partition_array n).lh + (partition_array n).rh = n ∧
    (partition_array n).lh ≤ (partition_array n).rh ∧
    (partition_array n).rh ≤ (partition_array n).lh + 1 ∧
    (partition_array n).q1 ≤ (partition_array n).q2 ∧
    (partition_array n).q2 ≤ (partition_array n).q1 + 1 ∧
    (partition_array n).q3 ≤ (partition_array n).q4 ∧
    (partition_array n).q4 ≤ (partition_array n).q3 + 1 := by
  simp only [partition_array]
  omega

/-- C5 counterexample: merging two sorted one-element runs costs 2
comparator invocations, not `L + R - 1 = 1`. -/
theorem c5_counterexample :
    parity_merge_calls natCmp (srcOf [0, 1]) 1 1 = 2 ∧
      (1 + 1 - 1 : Nat) ≠ 2 := by
  constructor
  · rfl
  · decide

/-- C5 (amended): one parity merge of adjacent runs of lengths
`1 <= L <= R <= L + 1` (the only shapes the engine produces) invokes the
comparator exactly `L + R` times, regardless of input pattern; in general
the count is `2 L` plus one when `L < R`. -/
theorem c5_parity_merge_calls (cmp : A → A → Int) (src : Nat → A)
    (left right : Nat) (h1 : 1 ≤ left) (h2 : left ≤ right)
    (h3 : right ≤ left + 1) :
    parity_merge_calls cmp src left right = left + right := by
  unfold parity_merge_calls
  rw [parity_merge_length cmp src left right h1]
  by_cases h : left < right <;> simp [h] <;> omega

/-- C5 witness at a concrete shape. -/
theorem c5_witness :
    parity_merge_calls natCmp (srcOf [0, 1, 2]) 1 2 = 1 + 2 :=
  c5_parity_merge_calls natCmp (srcOf [0, 1, 2]) 1 2 (by decide) (by decide)
    (by decide)

/-- C6 counterexample: sorting the 3-run `[2,1,0]` invokes the comparator
3 times, refuting "exactly twice in the worst case". -/
theorem c6_counterexample :
    (oddeven_sort_ctx natCmp [2, 1, 0]).2 = 3 ∧
      ¬ ((oddeven_sort_ctx natCmp [2, 1, 0]).2 ≤ 2) := by
  decide

/-- C6 (amended): the 3-run base case compare-exchanges the first pair,
then the second pair, and redoes the first pair exactly when the second
pair swapped: the comparator is invoked 2 or 3 times, and exactly 2 times
whenever the run was already sorted. -/
theorem c6_oddeven_three (cmp : A → A → Int) [Inhabited A] (l : List A)
    (h : l.length = 3) :
    ((oddeven_sort_ctx cmp l).2 = 2 ∨ (oddeven_sort_ctx cmp l).2 = 3) ∧
      (sortedLe cmp l → (oddeven_sort_ctx cmp l).2 = 2) := by
  obtain ⟨a, b, c, rfl⟩ := List.length_eq_three.mp h
  have e : oddeven_sort_ctx cmp [a, b, c] =
      (if (xchg cmp (xchg cmp [a, b, c] 0).1 1).2 then
        ((xchg cmp (xchg cmp (xchg cmp [a, b, c] 0).1 1).1 0).1, 3)
      else ((xchg cmp (xchg cmp [a, b, c] 0).1 1).1, 2)) := rfl
  rw [e]
  constructor
  · split <;> simp
  · intro hs
    simp only [sortedLe, List.chain'_cons, List.chain'_singleton, and_true] at hs
    obtain ⟨h1, h2⟩ := hs
    have h1' : ¬ 0 < cmp a b := by omega
    have h2' : ¬ 0 < cmp b c := by omega
    simp [xchg, elemAt, h1', h2']

/-- C6 witness. -/
theorem c6_witness :
    ((oddeven_sort_ctx natCmp [0, 1, 2]).2 = 2 ∨
      (oddeven_sort_ctx natCmp [0, 1, 2]).2 = 3) ∧
      (sortedLe natCmp [0, 1, 2] → (oddeven_sort_ctx natCmp [0, 1, 2]).2 = 2) :=
  c6_oddeven_three natCmp [0, 1, 2] (by decide)

/-- C9: element counts 0 and 1 are no-ops: the buffer is returned
unchanged and the comparator is never invoked. -/
theorem c9_xsort_noop [Inhabited A] (cmp : A → A → Int) (l : List A)
    (h : l.length ≤ 1) : xsort cmp l = l ∧ xsortCalls cmp l = 0 := by
  match l with
  | [] => constructor <;> rfl
  | [a] =>
    constructor <;>
      simp [xsort, xsortFuel, xsortCalls, xsortCallsFuel, oddeven_sort_ctx]
  | a :: b :: t => simp at h

/-- C9 witness. -/
theorem c9_witness : xsort natCmp [42] = [42] ∧ xsortCalls natCmp [42] = 0 :=
  c9_xsort_noop natCmp [42] (by decide)

/-- C3 counterexample: under an inconsistent comparator the output of
`xsort` is not a permutation of the input (element 3 is lost and element
0 duplicated). -/
theorem c3_counterexample :
    ¬ (xsort c3cmp [0, 1, 2, 3, 4, 5, 6, 7]).Perm [0, 1, 2, 3, 4, 5, 6, 7] := by
  decide

/-- C3 (amended): for every comparator, consistent or not, `xsort`
terminates, returns a buffer of the input's length, and every output
element is one of the input elements; moreover on the shapes
`1 <= left <= right <= left + 1` - the only shapes the engine produces,
by `partition_facts` - the parity merger never reads a source entry at or
beyond `left + right`, so no merge reads outside the run being merged.
The output need not be a permutation when the comparator is inconsistent
(see the counterexample), because the merger's two fronts can duplicate
one element and drop another. -/
theorem c3_any_comparator [Inhabited A] (cmp : A → A → Int) (l : List A) :
    (xsort cmp l).length = l.length ∧
    (∀ x ∈ xsort cmp l, x ∈ l) ∧
    (∀ (src src' : Nat → A) (left right : Nat),
      1 ≤ left → left ≤ right → right ≤ left + 1 →
      (∀ j, j < left + right → src j = src' j) →
      parity_merge_ctx cmp src left right =
        parity_merge_ctx cmp src' left right) :=
  ⟨(xsortFuel_len_mem cmp l.length l).1,
   (xsortFuel_len_mem cmp l.length l).2,
   fun src src' left right h1 h2 h3 h4 =>
     parity_merge_ctx_congr cmp src src' left right h1 h2 h3 h4⟩

theorem c3_witness :
    (xsort c3cmp [0, 1, 2, 3, 4, 5, 6, 7]).length =
      ([0, 1, 2, 3, 4, 5, 6, 7] : List Nat).length ∧
    (∀ x ∈ xsort c3cmp [0, 1, 2, 3, 4, 5, 6, 7],
      x ∈ ([0, 1, 2, 3, 4, 5, 6, 7] : List Nat)) ∧
    (∀ (src src' : Nat → Nat) (left right : Nat),
      1 ≤ left → left ≤ right → right ≤ left + 1 →
      (∀ j, j < left + right → src j = src' j) →
      parity_merge_ctx c3cmp src left right =
        parity_merge_ctx c3cmp src' left right) :=
  c3_any_comparator c3cmp [0, 1, 2, 3, 4, 5, 6, 7]

/-- C10: a partitioned run has at least 8 entries, so its descriptor
satisfies `2 <= q1 <= q2`, `2 <= q3 <= q4` and `4 <= lh <= rh`; under the
resulting shapes `1 <= left <= right <= left + 1` of every
`parity_merge_ctx` invocation, the merger's result does not depend on any
source entry at or beyond `left + right` (no out-of-bounds read: the
optional head step and the `left - 1` tail start included), every emitted
element is a source entry below `left + right`, and the result has
exactly `left + right` entries, so the two destination fronts tile the
`left + right` destination slots. -/
theorem c10_partition_parity_safety [Inhabited A] (cmp : A → A → Int)
    (src src' : Nat → A) (n left right : Nat)
    (h8 : 8 ≤ n) (hL : 1 ≤ left) (hLR : left ≤ right)
    (hRL : right ≤ left + 1)
    (hagree : ∀ j, j < left + right → src j = src' j) :
    (2 ≤ (partition_array n).q1 ∧
     (partition_array n).q1 ≤ (partition_array n).q2 ∧
     2 ≤ (partition_array n).q3 ∧
     (partition_array n).q3 ≤ (partition_array n).q4 ∧
     4 ≤ (partition_array n).lh ∧
     (partition_array n).lh ≤ (partition_array n).rh) ∧
    parity_merge_ctx cmp src left right =
      parity_merge_ctx cmp src' left right ∧
    (parity_merge_ctx cmp src left right).length = left + right ∧
    (∀ x ∈ parity_merge_ctx cmp src left right,
      ∃ j, j < left + right ∧ x = src j) := by
  obtain ⟨pf1, pf2, pf3, pf4, pf5, pf6, pf7, pf8, pf9, pf10, pf11, pf12⟩ :=
    partition_facts n h8
  refine ⟨⟨pf1, pf2, pf4, pf5, pf7, pf8⟩, ?_, ?_, ?_⟩
  · exact parity_merge_ctx_congr cmp src src' left right hL hLR hRL hagree
  · rw [parity_merge_length cmp src left right hL]
    split <;> omega
  · exact parity_merge_mem cmp src left right hL hLR hRL

theorem c10_witness :
    8 ≤ 9 ∧ 1 ≤ 2 ∧ 2 ≤ 3 ∧ 3 ≤ 2 + 1 ∧
    (∀ j, j < 2 + 3 →
      ([9, 1, 7, 0, 4] : List Nat).getD j 0 =
        (if j < 5 then ([9, 1, 7, 0, 4] : List Nat).getD j 0 else 55)) ∧
    ((2 ≤ (partition_array 9).q1 ∧
      (partition_array 9).q1 ≤ (partition_array 9).q2 ∧
      2 ≤ (partition_array 9).q3 ∧
      (partition_array 9).q3 ≤ (partition_array 9).q4 ∧
      4 ≤ (partition_array 9).lh ∧
      (partition_array 9).lh ≤ (partition_array 9).rh) ∧
     parity_merge_ctx natCmp
       (fun j => ([9, 1, 7, 0, 4] : List Nat).getD j 0) 2 3 =
       parity_merge_ctx natCmp
       (fun j => if j < 5 then ([9, 1, 7, 0, 4] : List Nat).getD j 0
         else 55) 2 3 ∧
     (parity_merge_ctx natCmp
       (fun j => ([9, 1, 7, 0, 4] : List Nat).getD j 0) 2 3).length =
       2 + 3 ∧
     (∀ x ∈ parity_merge_ctx natCmp
       (fun j => ([9, 1, 7, 0, 4] : List Nat).getD j 0) 2 3,
       ∃ j, j < 2 + 3 ∧
         x = ([9, 1, 7, 0, 4] : List Nat).getD j 0)) :=
  ⟨by decide, by decide, by decide, by decide,
   fun j hj => by simp [hj],
   c10_partition_parity_safety natCmp
     (fun j => ([9, 1, 7, 0, 4] : List Nat).getD j 0)
     (fun j => if j < 5 then ([9, 1, 7, 0, 4] : List Nat).getD j 0 else 55)
     9 2 3 (by decide) (by decide) (by decide) (by decide)
     (fun j hj => by simp [hj])⟩

/-- C2: under a consistent weak-ordering comparator that inspects only
the key of a key-tag record, `xsort` is stable: when the input tags are
strictly increasing, any two output records with tying keys keep strictly
increasing tags; and a forward-front parity-merge step with comparator
result at most 0 emits the left run's element. -/
theorem c2_xsort_stable [Inhabited A] (cmp : A → A → Int)
    (l : List (A × Nat)) (w : IsWeakOrder cmp)
    (htags : List.Pairwise (fun x y : A × Nat => x.2 < y.2) l) :
    List.Pairwise (fun x y : A × Nat => cmp x.1 y.1 = 0 → x.2 < y.2)
      (xsort (liftCmp cmp) l) ∧
    (∀ (src : Nat → A × Nat) (k il ir : Nat),
      liftCmp cmp (src il) (src ir) ≤ 0 →
      (fwdRun (liftCmp cmp) src (k + 1) il ir).1 =
        src il :: (fwdRun (liftCmp cmp) src k (il + 1) ir).1) := by
  constructor
  · rw [List.pairwise_iff_forall_sublist]
    intro a b hsub htie
    have hpcls : ∀ x y : A × Nat,
        (fun z : A × Nat => decide (cmp z.1 a.1 = 0)) x = true →
        (fun z : A × Nat => decide (cmp z.1 a.1 = 0)) y = true →
        liftCmp cmp x y = 0 := by
      intro x y hx hy
      simp only [decide_eq_true_eq] at hx hy
      exact zero_trans w x.1 a.1 y.1 hx (w.zero_symm y.1 a.1 hy)
    have hfil := xsortFuel_filter (liftCmp_isWeakOrder w)
      (fun z : A × Nat => decide (cmp z.1 a.1 = 0)) hpcls l.length l
      (le_refl _)
    have hpa : (fun z : A × Nat => decide (cmp z.1 a.1 = 0)) a = true := by
      simp [w.refl a.1]
    have hpb : (fun z : A × Nat => decide (cmp z.1 a.1 = 0)) b = true := by
      simp [w.zero_symm a.1 b.1 htie]
    have hsub2 := List.Sublist.filter
      (fun z : A × Nat => decide (cmp z.1 a.1 = 0)) hsub
    rw [show [a, b].filter (fun z : A × Nat => decide (cmp z.1 a.1 = 0)) =
        [a, b] by simp [List.filter_cons, hpa, hpb]] at hsub2
    rw [xsort] at hsub2
    rw [hfil] at hsub2
    have hpl : List.Pairwise (fun x y : A × Nat => x.2 < y.2)
        (l.filter (fun z : A × Nat => decide (cmp z.1 a.1 = 0))) :=
      List.Pairwise.sublist (List.filter_sublist l) htags
    exact List.pairwise_iff_forall_sublist.mp hpl hsub2
  · intro src k il ir h
    rw [fwdRun_succ_pos h]

theorem c2_witness :
    IsWeakOrder natCmp ∧
    List.Pairwise (fun x y : Nat × Nat => x.2 < y.2)
      [(2, 0), (1, 1), (2, 2), (1, 3)] ∧
    (List.Pairwise (fun x y : Nat × Nat => natCmp x.1 y.1 = 0 → x.2 < y.2)
      (xsort (liftCmp natCmp) [(2, 0), (1, 1), (2, 2), (1, 3)]) ∧
    (∀ (src : Nat → Nat × Nat) (k il ir : Nat),
      liftCmp natCmp (src il) (src ir) ≤ 0 →
      (fwdRun (liftCmp natCmp) src (k + 1) il ir).1 =
        src il :: (fwdRun (liftCmp natCmp) src k (il + 1) ir).1)) :=
  ⟨natCmp_isWeakOrder, by decide,
    c2_xsort_stable natCmp [(2, 0), (1, 1), (2, 2), (1, 3)]
      natCmp_isWeakOrder (by decide)⟩

/-- C1: for every buffer, every element count, and every comparator that
is a consistent weak ordering, `xsort` terminates and returns a
multiset-permutation of the original elements in which every adjacent
pair `(output[i], output[i+1])` compares at most 0. -/
theorem c1_xsort_sorts [Inhabited A] (cmp : A → A → Int) (l : List A)
    (w : IsWeakOrder cmp) :
    (xsort cmp l).Perm l ∧ sortedLe cmp (xsort cmp l) := by
  obtain ⟨h1, h2⟩ := xsortFuel_sorted_perm w l.length l (le_refl _)
  exact ⟨h2, h1⟩

theorem c1_witness :
    IsWeakOrder natCmp ∧
      ((xsort natCmp [5, 3, 1, 4, 2, 9, 0, 8, 7, 6]).Perm
        [5, 3, 1, 4, 2, 9, 0, 8, 7, 6] ∧
       sortedLe natCmp (xsort natCmp [5, 3, 1, 4, 2, 9, 0, 8, 7, 6])) :=
  ⟨natCmp_isWeakOrder, c1_xsort_sorts natCmp _ natCmp_isWeakOrder⟩

/-- C7: sorting an already-sorted run returns the identical sequence, and
when the run has at least 8 entries the top-level frame (whose merge
decision acts on the concatenation of the four recursively sorted
quarters, which equals the run itself) takes the already-ordered fast
path: branch 0, with zero comparator calls spent in parity merges. -/
theorem c7_idempotent [Inhabited A] (cmp : A → A → Int) (l : List A)
    (hs : sortedLe cmp l) :
    xsort cmp l = l ∧
    (8 ≤ l.length →
      mergeDecisionBranch cmp l.length l (partition_array l.length) = 0 ∧
      mergeDecisionMergeCalls cmp l.length l
        (partition_array l.length) = 0) := by
  refine ⟨xsortFuel_id_sorted l.length l hs, ?_⟩
  intro h8
  obtain ⟨pf1, pf2, pf3, pf4, pf5, pf6, pf7, pf8, pf9, pf10, pf11, pf12⟩ :=
    partition_facts l.length h8
  have hord : orderedChecks cmp l (partition_array l.length) = true :=
    orderedChecks_of_sorted hs (partition_array l.length) (by omega)
      (by omega) (by omega) (by omega)
  rw [mergeDecisionBranch, if_pos hord, mergeDecisionMergeCalls,
    if_pos hord]
  exact ⟨rfl, rfl⟩

theorem c7_witness :
    sortedLe natCmp [0, 1, 2, 3, 4, 5, 6, 7, 8, 9] ∧
      (xsort natCmp [0, 1, 2, 3, 4, 5, 6, 7, 8, 9] =
        [0, 1, 2, 3, 4, 5, 6, 7, 8, 9] ∧
       (8 ≤ ([0, 1, 2, 3, 4, 5, 6, 7, 8, 9] : List Nat).length →
        mergeDecisionBranch natCmp
          ([0, 1, 2, 3, 4, 5, 6, 7, 8, 9] : List Nat).length
          [0, 1, 2, 3, 4, 5, 6, 7, 8, 9]
          (partition_array
            ([0, 1, 2, 3, 4, 5, 6, 7, 8, 9] : List Nat).length) = 0 ∧
        mergeDecisionMergeCalls natCmp
          ([0, 1, 2, 3, 4, 5, 6, 7, 8, 9] : List Nat).length
          [0, 1, 2, 3, 4, 5, 6, 7, 8, 9]
          (partition_array
            ([0, 1, 2, 3, 4, 5, 6, 7, 8, 9] : List Nat).length) = 0)) :=
  have hsort : sortedLe natCmp [0, 1, 2, 3, 4, 5, 6, 7, 8, 9] :=
    (chainLeB_iff natCmp [0, 1, 2, 3, 4, 5, 6, 7, 8, 9]).mp (by decide)
  ⟨hsort, c7_idempotent natCmp [0, 1, 2, 3, 4, 5, 6, 7, 8, 9] hsort⟩

/-- C8 counterexample: on the strictly descending run `[7, ..., 0]` of
length `8 = 4 * 2` the top-level merge decision does take the rotation
branch, but it spends 4 comparator calls (one failed already-ordered
comparison plus the three fully-reversed comparisons), not zero as
claimed. -/
theorem c8_counterexample :
    strictDesc natCmp [7, 6, 5, 4, 3, 2, 1, 0] ∧
    ([7, 6, 5, 4, 3, 2, 1, 0] : List Nat).length = 4 * 2 ∧
    mergeDecisionBranch natCmp 8
      (xsortFuel natCmp 7 (([7, 6, 5, 4, 3, 2, 1, 0] : List Nat).take (partition_array 8).q1) ++
       xsortFuel natCmp 7 ((([7, 6, 5, 4, 3, 2, 1, 0] : List Nat).drop (partition_array 8).q1).take (partition_array 8).q2) ++
       xsortFuel natCmp 7 ((([7, 6, 5, 4, 3, 2, 1, 0] : List Nat).drop (partition_array 8).lh).take (partition_array 8).q3) ++
       xsortFuel natCmp 7 ((([7, 6, 5, 4, 3, 2, 1, 0] : List Nat).drop ((partition_array 8).lh + (partition_array 8).q3)).take (partition_array 8).q4)) (partition_array 8) = 1 ∧
    mergeDecisionCalls natCmp 8
      (xsortFuel natCmp 7 (([7, 6, 5, 4, 3, 2, 1, 0] : List Nat).take (partition_array 8).q1) ++
       xsortFuel natCmp 7 ((([7, 6, 5, 4, 3, 2, 1, 0] : List Nat).drop (partition_array 8).q1).take (partition_array 8).q2) ++
       xsortFuel natCmp 7 ((([7, 6, 5, 4, 3, 2, 1, 0] : List Nat).drop (partition_array 8).lh).take (partition_array 8).q3) ++
       xsortFuel natCmp 7 ((([7, 6, 5, 4, 3, 2, 1, 0] : List Nat).drop ((partition_array 8).lh + (partition_array 8).q3)).take (partition_array 8).q4)) (partition_array 8) ≠ 0 :=
  ⟨strictDesc_desc8, by decide, by decide, by decide⟩

/-- C8 (amended): on every strictly descending run of at least 8 entries
(whether or not its length is a multiple of 4) `xsort` returns the
reversed run, and the top-level frame - whose merge decision acts on the
four recursively sorted quarters - takes the rotation branch, spends no
comparator call inside parity merges, and spends exactly 4 comparator
calls in the decision phase itself: one failed already-ordered
comparison plus the three fully-reversed boundary comparisons. -/
theorem c8_descending_rotation [Inhabited A] (cmp : A → A → Int)
    (l : List A) (w : IsWeakOrder cmp) (hd : strictDesc cmp l)
    (h8 : 8 ≤ l.length) :
    xsort cmp l = l.reverse ∧
    mergeDecisionBranch cmp l.length
      (xsortFuel cmp (l.length - 1) (l.take (partition_array l.length).q1) ++ xsortFuel cmp (l.length - 1) ((l.drop (partition_array l.length).q1).take (partition_array l.length).q2) ++
       xsortFuel cmp (l.length - 1) ((l.drop (partition_array l.length).lh).take (partition_array l.length).q3) ++ xsortFuel cmp (l.length - 1) ((l.drop ((partition_array l.length).lh + (partition_array l.length).q3)).take (partition_array l.length).q4)) (partition_array l.length) = 1 ∧
    mergeDecisionMergeCalls cmp l.length
      (xsortFuel cmp (l.length - 1) (l.take (partition_array l.length).q1) ++ xsortFuel cmp (l.length - 1) ((l.drop (partition_array l.length).q1).take (partition_array l.length).q2) ++
       xsortFuel cmp (l.length - 1) ((l.drop (partition_array l.length).lh).take (partition_array l.length).q3) ++ xsortFuel cmp (l.length - 1) ((l.drop ((partition_array l.length).lh + (partition_array l.length).q3)).take (partition_array l.length).q4)) (partition_array l.length) = 0 ∧
    mergeDecisionCalls cmp l.length
      (xsortFuel cmp (l.length - 1) (l.take (partition_array l.length).q1) ++ xsortFuel cmp (l.length - 1) ((l.drop (partition_array l.length).q1).take (partition_array l.length).q2) ++
       xsortFuel cmp (l.length - 1) ((l.drop (partition_array l.length).lh).take (partition_array l.length).q3) ++ xsortFuel cmp (l.length - 1) ((l.drop ((partition_array l.length).lh + (partition_array l.length).q3)).take (partition_array l.length).q4)) (partition_array l.length) = 4 := by
  obtain ⟨pf1, pf2, pf3, pf4, pf5, pf6, pf7, pf8, pf9, pf10, pf11, pf12⟩ :=
    partition_facts l.length h8
  have hR1 : xsortFuel cmp (l.length - 1) (l.take (partition_array l.length).q1) = (l.take (partition_array l.length).q1).reverse :=
    xsortFuel_strictDesc w _ _ (by rw [List.length_take]; omega)
      (List.Chain'.take hd _)
  have hR2 : xsortFuel cmp (l.length - 1) ((l.drop (partition_array l.length).q1).take (partition_array l.length).q2) = ((l.drop (partition_array l.length).q1).take (partition_array l.length).q2).reverse :=
    xsortFuel_strictDesc w _ _
      (by rw [List.length_take, List.length_drop]; omega)
      (List.Chain'.take (List.Chain'.drop hd _) _)
  have hR3 : xsortFuel cmp (l.length - 1) ((l.drop (partition_array l.length).lh).take (partition_array l.length).q3) = ((l.drop (partition_array l.length).lh).take (partition_array l.length).q3).reverse :=
    xsortFuel_strictDesc w _ _
      (by rw [List.length_take, List.length_drop]; omega)
      (List.Chain'.take (List.Chain'.drop hd _) _)
  have hR4 : xsortFuel cmp (l.length - 1) ((l.drop ((partition_array l.length).lh + (partition_array l.length).q3)).take (partition_array l.length).q4) = ((l.drop ((partition_array l.length).lh + (partition_array l.length).q3)).take (partition_array l.length).q4).reverse :=
    xsortFuel_strictDesc w _ _
      (by rw [List.length_take, List.length_drop]; omega)
      (List.Chain'.take (List.Chain'.drop hd _) _)
  rw [hR1, hR2, hR3, hR4]
  obtain ⟨hoc, hrc, hcc⟩ := reversed_blocks_decision w l (partition_array l.length)
    (by omega) pf2 pf3 (by omega) pf5 pf6 pf10 pf11 (by omega) hd
  refine ⟨xsortFuel_strictDesc w l.length l (le_refl _) hd, ?_, ?_, ?_⟩
  · rw [mergeDecisionBranch, hoc, hrc]
    simp
  · rw [mergeDecisionMergeCalls, hoc, hrc]
    simp
  · rw [mergeDecisionCalls, hoc, hrc, hcc]
    simp

theorem c8_witness :
    IsWeakOrder natCmp ∧ strictDesc natCmp [7, 6, 5, 4, 3, 2, 1, 0] ∧
    8 ≤ ([7, 6, 5, 4, 3, 2, 1, 0] : List Nat).length ∧
    xsort natCmp [7, 6, 5, 4, 3, 2, 1, 0] = ([7, 6, 5, 4, 3, 2, 1, 0] : List Nat).reverse :=
  ⟨natCmp_isWeakOrder, strictDesc_desc8, by decide,
    (c8_descending_rotation natCmp [7, 6, 5, 4, 3, 2, 1, 0]
      natCmp_isWeakOrder strictDesc_desc8 (by decide)).1⟩

end Theorems

end XSort

